import Mathlib

/-!
# pngread: chunk reader and scanline reconstructor

A shallow embedding of `pngread.cpp` (class `PNGFile`): the chunk reader
(`nextChunk`, the constructor's signature check and chunk loop) and the scanline
reconstructor (`unfilterImage`).

Conventions of the embedding

* `uint8_t`, `uint32_t` and `int` values are `Nat` / `Int`; every `uint32_t`
  operation that can wrap carries an explicit `% 4294967296`, a store to a
  `uint8_t` an explicit `% 256`.
* A pointer into `imageData_` is an `Int` offset from `imageData_.data()`.
  Dereferencing an offset outside `[0, size)` has no defined result in C++; the
  embedding stops with `Fault.outOfBounds`.
* A failed `assert` stops with the fault named after the assertion.
* Local variables that the source leaves uninitialised (`realSig`, `chdr`,
  `ihdr`) start with indeterminate bytes, which the embedding takes as explicit
  arguments; `std::istream::read` overwrites only as many bytes as it extracts.
* The host is little-endian (the source compares the raw tag bytes with
  `fourCharCode`, which packs its first character into the low byte) and its
  `char` is signed.
-/

namespace PngRead

/-! ## Faults -/

/-- The ways a run of the decoder stops early. -/
inductive Fault where
  /-- `assert(std::equal(realSig, ...))` in the constructor. -/
  | signature
  /-- `assert(ihdr.BitDepth == 8)`. -/
  | bitDepth
  /-- `assert((ColorType)ihdr.ColorType != ColorType::Palette)`. -/
  | palette
  /-- `assert(ihdr.Filter == 0)`. -/
  | filterMethod
  /-- `assert(ihdr.Interlace == 0)`. -/
  | interlace
  /-- `assert((uint32_t)filter < 5)` in `unfilterImage`. -/
  | lineFilter
  /-- A dereference of `imageData_.data() + off` with `off` outside the buffer. -/
  | outOfBounds (off : Int)
  deriving DecidableEq, Repr

/-- Equality of two results is decidable. -/
instance instDecidableEqExcept {ε α : Type} [DecidableEq ε] [DecidableEq α] :
    DecidableEq (Except ε α)
  | .ok a, .ok b => if h : a = b then isTrue (by rw [h]) else isFalse (fun e => h (by cases e; rfl))
  | .error a, .error b =>
    if h : a = b then isTrue (by rw [h]) else isFalse (fun e => h (by cases e; rfl))
  | .ok _, .error _ => isFalse (fun e => by cases e)
  | .error _, .ok _ => isFalse (fun e => by cases e)

/-! ## Machine arithmetic -/

/-- The modulus of `uint32_t`. -/
def U32 : Nat := 4294967296

/-- Conversion of an `int` to `uint32_t`. -/
def toU32 (x : Int) : Nat := (x % 4294967296).toNat

/-- The lambda `addv`: `(a + b) & 0xff` on `uint32_t` operands. -/
def addv (a b : Nat) : Nat := (a + b) % U32 % 256

/-- The `std::abs` of an `int`. -/
def absInt (x : Int) : Int := if x < 0 then -x else x

/-- The lambda `paethPredictor` (a = left, b = above, c = upper left). -/
def paethPredictor (a b c : Int) : Int :=
  let p := a + b - c
  let pa := absInt (p - a)
  let pb := absInt (p - b)
  let pc := absInt (p - c)
  if pa ≤ pb ∧ pa ≤ pc then a
  else if pb ≤ pc then b
  else c

/-! ## The pixel buffer -/

/-- Read of `*(imageData_.data() + p)`. -/
def load (buf : List Nat) (p : Int) : Except Fault Nat :=
  if 0 ≤ p ∧ p < buf.length then .ok (buf.getD p.toNat 0) else .error (.outOfBounds p)

/-- Write `*(imageData_.data() + p) = v`, `v` converted to `uint8_t`. -/
def store (buf : List Nat) (p : Int) (v : Nat) : Except Fault (List Nat) :=
  if 0 ≤ p ∧ p < buf.length then .ok (buf.set p.toNat (v % 256)) else .error (.outOfBounds p)

/-- The line filter tags. -/
def LFNone : Nat := 0
/-- Tag of the Sub filter. -/
def LFSub : Nat := 1
/-- Tag of the Up filter. -/
def LFUp : Nat := 2
/-- Tag of the Average filter. -/
def LFAverage : Nat := 3
/-- Tag of the Paeth filter. -/
def LFPaeth : Nat := 4

/-- The decoder object: the private members of `class PNGFile`. -/
structure PNGFile where
  /-- Member `width_` (`uint32_t`). -/
  width_ : Nat := 0
  /-- Member `height_` (`uint32_t`). -/
  height_ : Nat := 0
  /-- Member `bpp_` (`uint32_t`). -/
  bpp_ : Nat := 0
  /-- Member `compressedData_`. -/
  compressedData_ : List Nat := []
  /-- Member `imageData_`. -/
  imageData_ : List Nat := []
  deriving DecidableEq, Repr

namespace PNGFile

/-- Accessor `width()`. -/
def width (f : PNGFile) : Nat := f.width_
/-- Accessor `height()`. -/
def height (f : PNGFile) : Nat := f.height_
/-- Accessor `bytesPerPixel()`. -/
def bytesPerPixel (f : PNGFile) : Nat := f.bpp_
/-- Accessor `rowBytes()`: `width_ * bpp_` in `uint32_t`. -/
def rowBytes (f : PNGFile) : Nat := (f.width_ * f.bpp_) % U32

/-- Accessor `rowDataPointer(row)`, as an offset from `imageData_.data()`: the
product is taken in `uint32_t`, the pointer sum is not. -/
def rowDataPointer (f : PNGFile) (row : Nat) : Int :=
  ((row * ((f.rowBytes + 1) % U32)) % U32 : Nat) + 1

end PNGFile

/-! ## `unfilterImage`: the inner loops

Each `while (bytes--)` loop is a recursion on the counter `bytes`. -/

/-- Loop of the `LFSub` branch: `*row = addv(*row, *(row - bpp_)); ++row`. -/
def subLoop (bpp : Nat) : Nat → Int → List Nat → Except Fault (List Nat)
  | 0, _, buf => .ok buf
  | bytes + 1, row, buf => do
    let x ← load buf row
    let a ← load buf (row - bpp)
    let buf ← store buf row (addv x a)
    subLoop bpp bytes (row + 1) buf

/-- Loop of the `LFUp` branch: `*row = addv(*row, *(row - rowPitch)); ++row`. -/
def upLoop (rowPitch : Nat) : Nat → Int → List Nat → Except Fault (List Nat)
  | 0, _, buf => .ok buf
  | bytes + 1, row, buf => do
    let x ← load buf row
    let b ← load buf (row - rowPitch)
    let buf ← store buf row (addv x b)
    upLoop rowPitch bytes (row + 1) buf

/-- Loop of the `LFAverage` branch for `lineIx == 0`:
`*row = addv(*row, *(row - bpp_) >> 1); ++row`. -/
def averageFirstLoop (bpp : Nat) : Nat → Int → List Nat → Except Fault (List Nat)
  | 0, _, buf => .ok buf
  | bytes + 1, row, buf => do
    let x ← load buf row
    let a ← load buf (row - bpp)
    let buf ← store buf row (addv x (a / 2))
    averageFirstLoop bpp bytes (row + 1) buf

/-- Loop of the `LFAverage` branch for `lineIx > 0`: `while (bytes)` with the test
`bytes + bpp_ <= rowBytes` choosing between the two-neighbour and the
above-only average. -/
def averageLoop (bpp rowBytes rowPitch : Nat) : Nat → Int → List Nat → Except Fault (List Nat)
  | 0, _, buf => .ok buf
  | bytes + 1, row, buf => do
    let x ← load buf row
    let buf ←
      if (bytes + 1 + bpp) % U32 ≤ rowBytes then do
        let a ← load buf (row - bpp)
        let b ← load buf (row - rowPitch)
        store buf row (addv x ((a + b) / 2))
      else do
        let b ← load buf (row - rowPitch)
        store buf row (addv x (b / 2))
    averageLoop bpp rowBytes rowPitch bytes (row + 1) buf

/-- Loop of the `LFPaeth` branch for `lineIx == 0`:
`*row = addv(*row, paethPredictor(*(row - bpp_), 0, 0)); ++row`. -/
def paethFirstLoop (bpp : Nat) : Nat → Int → List Nat → Except Fault (List Nat)
  | 0, _, buf => .ok buf
  | bytes + 1, row, buf => do
    let x ← load buf row
    let a ← load buf (row - bpp)
    let buf ← store buf row (addv x (toU32 (paethPredictor a 0 0)))
    paethFirstLoop bpp bytes (row + 1) buf

/-- First loop of the `LFPaeth` branch for `lineIx > 0` (`while (firstBytes--)`):
`*row = addv(*row, paethPredictor(0, *rowAbove, 0)); ++row; ++rowAbove`.
Returns the advanced `row` and `rowAbove` with the buffer. -/
def paethHeadLoop : Nat → Int → Int → List Nat → Except Fault (Int × Int × List Nat)
  | 0, row, rowAbove, buf => .ok (row, rowAbove, buf)
  | firstBytes + 1, row, rowAbove, buf => do
    let x ← load buf row
    let b ← load buf rowAbove
    let buf ← store buf row (addv x (toU32 (paethPredictor 0 b 0)))
    paethHeadLoop firstBytes (row + 1) (rowAbove + 1) buf

/-- Second loop of the `LFPaeth` branch for `lineIx > 0` (`while (bytes--)`):
`*row = addv(*row, paethPredictor(*rowLeft, *rowAbove, *rowAboveLeft))`, then all
four pointers advance. -/
def paethTailLoop : Nat → Int → Int → Int → Int → List Nat → Except Fault (List Nat)
  | 0, _, _, _, _, buf => .ok buf
  | bytes + 1, row, rowLeft, rowAbove, rowAboveLeft, buf => do
    let x ← load buf row
    let a ← load buf rowLeft
    let b ← load buf rowAbove
    let c ← load buf rowAboveLeft
    let buf ← store buf row (addv x (toU32 (paethPredictor a b c)))
    paethTailLoop bytes (row + 1) (rowLeft + 1) (rowAbove + 1) (rowAboveLeft + 1) buf

/-! ## `unfilterImage`: one row and the row loop -/

/-- The body of the `for` loop of `unfilterImage` for line `lineIx`, entered with
the row cursor `rowPtr`; returns the cursor after `rowPtr += rowBytes` and the
buffer. -/
def unfilterRow (width_ bpp_ : Nat) (lineIx : Nat) (rowPtr : Int) (buf : List Nat) :
    Except Fault (Int × List Nat) := do
  let rowBytes := (width_ * bpp_) % U32
  let rowPitch := (rowBytes + 1) % U32
  -- LineFilter filter = (LineFilter)(*rowPtr++);
  let filter ← load buf rowPtr
  let rowPtr := rowPtr + 1
  -- assert((uint32_t)filter < 5);
  if ¬ filter < 5 then .error .lineFilter
  else
    let row := rowPtr
    let bytes := rowBytes
    if filter = LFNone then
      .ok (rowPtr + rowBytes, buf)
    else if filter = LFSub then do
      let buf ← subLoop bpp_ ((bytes + U32 - bpp_) % U32) (row + bpp_) buf
      .ok (rowPtr + rowBytes, buf)
    else if filter = LFUp then do
      let buf ← upLoop rowPitch bytes row buf
      .ok (rowPtr + rowBytes, buf)
    else if filter = LFAverage then
      if lineIx = 0 then do
        -- rowPtr += bpp_; bytes -= bpp_;
        let rowPtr := rowPtr + bpp_
        let buf ← averageFirstLoop bpp_ ((bytes + U32 - bpp_) % U32) row buf
        .ok (rowPtr + rowBytes, buf)
      else do
        let buf ← averageLoop bpp_ rowBytes rowPitch bytes row buf
        .ok (rowPtr + rowBytes, buf)
    else
      if lineIx = 0 then do
        -- rowPtr += bpp_; bytes -= bpp_;
        let rowPtr := rowPtr + bpp_
        let buf ← paethFirstLoop bpp_ ((bytes + U32 - bpp_) % U32) row buf
        .ok (rowPtr + rowBytes, buf)
      else do
        let rowAbove := row - rowPitch
        let rowLeft := row
        let rowAboveLeft := row - rowPitch
        let (row, rowAbove, buf) ← paethHeadLoop bpp_ row rowAbove buf
        let buf ← paethTailLoop ((bytes + U32 - bpp_) % U32) row rowLeft rowAbove rowAboveLeft buf
        .ok (rowPtr + rowBytes, buf)

/-- The `for (lineIx = 0u; lineIx < height_; ++lineIx)` loop, with `n` the number
of iterations still to run (`height_ - lineIx`). -/
def unfilterRows (width_ bpp_ : Nat) : Nat → Nat → Int → List Nat → Except Fault (List Nat)
  | 0, _, _, buf => .ok buf
  | n + 1, lineIx, rowPtr, buf => do
    let (rowPtr, buf) ← unfilterRow width_ bpp_ lineIx rowPtr buf
    unfilterRows width_ bpp_ n (lineIx + 1) rowPtr buf

/-- Method `PNGFile::unfilterImage`, on the members it uses. -/
def unfilterImage (width_ height_ bpp_ : Nat) (imageData_ : List Nat) :
    Except Fault (List Nat) :=
  unfilterRows width_ bpp_ height_ 0 0 imageData_

/-! ## The input stream

`std::ifstream` as the decoder uses it: the bytes of the file, the get position,
and `failbit` (which `read` sets together with `eofbit` on a short read; nothing
in the decoder clears it). -/

/-- The state of the `std::istream` the decoder reads from. -/
structure IStream where
  /-- The bytes of the file. -/
  bytes : List Nat
  /-- The get position. -/
  pos : Nat := 0
  /-- Whether `failbit` is set; `while (png)` tests its negation. -/
  fail : Bool := false
  deriving DecidableEq, Repr

namespace IStream

/-- Call `read(dst, n)`: nothing is extracted from a failed stream; otherwise up to
`n` bytes are extracted, and `failbit` is set when fewer than `n` were left.
Returns the extracted bytes. -/
def read (s : IStream) (n : Nat) : List Nat × IStream :=
  if s.fail then ([], s)
  else
    let got := (s.bytes.drop s.pos).take n
    if got.length < n then (got, { s with pos := s.pos + got.length, fail := true })
    else (got, { s with pos := s.pos + n })

/-- Call `seekg(off, std::ios::cur)` with `off ≥ 0`: no effect on a failed stream,
otherwise the get position moves forward by `off`. -/
def seekgCur (s : IStream) (off : Nat) : IStream :=
  if s.fail then s else { s with pos := s.pos + off }

end IStream

/-- The content of a destination object after `read` extracted `got` into its
first bytes: the bytes beyond `got` keep their previous value `old`. -/
def overwrite (old got : List Nat) : List Nat := got ++ old.drop got.length

/-- The `uint32_t` stored in the four bytes `m[i..i+3]` of memory (little-endian
host). -/
def le32 (m : List Nat) (i : Nat) : Nat :=
  m.getD i 0 + m.getD (i + 1) 0 * 256 + m.getD (i + 2) 0 * 65536 + m.getD (i + 3) 0 * 16777216

/-- Function `ntohl` on a little-endian host: the four bytes of `x` reversed. -/
def ntohl (x : Nat) : Nat :=
  (x % 256) * 16777216 + (x / 256 % 256) * 65536 + (x / 65536 % 256) * 256 + x / 16777216 % 256

/-- The value of the `char` that holds the byte of a character: `char` is signed on
the host, so the bytes from `0x80` up are the negative values. -/
def charValue (c : Char) : Int :=
  if c.toNat % 256 < 128 then ((c.toNat % 256 : Nat) : Int)
  else ((c.toNat % 256 : Nat) : Int) - 256

/-- Function `fourCharCode`: `(d << 24) | (c << 16) | (b << 8) | a`. The `char`
operands are promoted to `int` (sign-extended), shifted and or-ed as 32-bit
two's-complement words, and the result is converted to `uint32_t`. -/
def fourCharCode (a b c d : Char) : Nat :=
  ((toU32 (charValue d) <<< 24) % U32) ||| ((toU32 (charValue c) <<< 16) % U32)
    ||| ((toU32 (charValue b) <<< 8) % U32) ||| toU32 (charValue a)

/-- Enumerator `ChunkType::HeaderChunk`. -/
def HeaderChunk : Nat := fourCharCode 'I' 'H' 'D' 'R'
/-- Enumerator `ChunkType::ImageDataChunk`. -/
def ImageDataChunk : Nat := fourCharCode 'I' 'D' 'A' 'T'
/-- Enumerator `ChunkType::EndChunk`. -/
def EndChunk : Nat := fourCharCode 'I' 'E' 'N' 'D'

/-- Enumerator `ColorType::Grayscale`. -/
def ColorType.Grayscale : Nat := 0
/-- Enumerator `ColorType::RGB`. -/
def ColorType.RGB : Nat := 2
/-- Enumerator `ColorType::Palette`. -/
def ColorType.Palette : Nat := 3
/-- Enumerator `ColorType::GrayscaleAlpha`. -/
def ColorType.GrayscaleAlpha : Nat := 4
/-- Enumerator `ColorType::RGBA`. -/
def ColorType.RGBA : Nat := 6

/-- The indeterminate initial bytes of the locals that one call of `nextChunk`
declares without an initialiser. -/
structure Uninit where
  /-- The 8 bytes of `ChunkHeader chdr`. -/
  chdr : List Nat
  /-- The 13 bytes of `IHDRChunk ihdr`. -/
  ihdr : List Nat
  deriving DecidableEq, Repr

/-! ## `nextChunk` -/

/-- The `case HeaderChunk` block of `nextChunk`. The packed `IHDRChunk` has `Width`
at bytes 0..3, `Height` at 4..7, then `BitDepth`, `ColorType`, `Compression`,
`Filter`, `Interlace` at bytes 8..12. The `reserve` call changes no content. -/
def headerCase (u : Uninit) (f : PNGFile) (png : IStream) : Except Fault (PNGFile × IStream) :=
  let (got, png) := png.read 13
  let ihdr := overwrite u.ihdr got
  let width_ := ntohl (le32 ihdr 0)
  let height_ := ntohl (le32 ihdr 4)
  let BitDepth := ihdr.getD 8 0
  let colorType := ihdr.getD 9 0
  let Filter := ihdr.getD 11 0
  let Interlace := ihdr.getD 12 0
  if BitDepth ≠ 8 then .error .bitDepth
  else if colorType = ColorType.Palette then .error .palette
  else if Filter ≠ 0 then .error .filterMethod
  else if Interlace ≠ 0 then .error .interlace
  else
    let bpp_ :=
      if colorType = ColorType.RGB then 3
      else if colorType = ColorType.GrayscaleAlpha then 2
      else if colorType = ColorType.RGBA then 4
      else 1
    .ok ({ f with width_ := width_, height_ := height_, bpp_ := bpp_ }, png)

/-- The `case ImageDataChunk` block of `nextChunk`: `tempData` holds zeros (8192 of
them, more after `resize`), `read` overwrites its first extracted bytes, and the
first `dataSize` bytes of `tempData` are appended to `compressedData_`. -/
def imageDataCase (dataSize : Nat) (f : PNGFile) (png : IStream) : PNGFile × IStream :=
  let (got, png) := png.read dataSize
  let tempData := overwrite (List.replicate (max 8192 dataSize) 0) got
  ({ f with compressedData_ := f.compressedData_ ++ tempData.take dataSize }, png)

/-- Method `PNGFile::nextChunk`; `u` holds the indeterminate initial bytes of `chdr`
and `ihdr`. -/
def nextChunk (u : Uninit) (f : PNGFile) (png : IStream) : Except Fault (PNGFile × IStream) := do
  let (got, png) := png.read 8
  let chdr := overwrite u.chdr got
  let dataSize := ntohl (le32 chdr 0)
  let chunkType := le32 chdr 4
  let (f, png) ←
    if chunkType = HeaderChunk then headerCase u f png
    else if chunkType = ImageDataChunk then .ok (imageDataCase dataSize f png)
    else .ok (f, png.seekgCur dataSize)
  -- skip crc
  .ok (f, png.seekgCur 4)

/-- The loop `while (png) nextChunk(png);`. Call number `i` of `nextChunk` gets the
indeterminate bytes `u i`. An iteration that leaves the stream usable has moved
the get position forward by at least 8 inside the file, so `bytes.length + 2`
rounds of `fuel` always reach the end of the loop (`chunkLoop_fuel`). -/
def chunkLoop (u : Nat → Uninit) : Nat → Nat → PNGFile → IStream → Except Fault (PNGFile × IStream)
  | 0, _, f, png => .ok (f, png)
  | fuel + 1, i, f, png =>
    if png.fail then .ok (f, png)
    else do
      let (f, png) ← nextChunk (u i) f png
      chunkLoop u fuel (i + 1) f png

/-! ## Decompression and the constructor -/

/-- The zlib collaborator (`zlibredux/zlib.h` is not part of the sources): its
return codes, the result of `inflateInit`, and `inflate`, which from the available
input and the free output space gives its return code and the bytes it
produces. -/
structure Zlib where
  /-- Return code `Z_OK`. -/
  Z_OK : Int
  /-- Return code `Z_STREAM_END`. -/
  Z_STREAM_END : Int
  /-- Return code `Z_DATA_ERROR`. -/
  Z_DATA_ERROR : Int
  /-- The value `inflateInit(&strm)` returns. -/
  inflateInit : Int
  /-- The call `inflate(&strm, Z_NO_FLUSH)` on `avail_in` input bytes and `avail_out`
  bytes of room. -/
  inflate : List Nat → Nat → Int × List Nat

/-- Function `inflateBuffer`: its return value and the content of `dest` after the
call (`inflate` stores at most `avail_out` bytes at the start of `dest`). -/
def inflateBuffer (z : Zlib) (source dest : List Nat) : Int × List Nat :=
  let avail_in := source.length % U32
  let avail_out := dest.length % U32
  if z.inflateInit ≠ z.Z_OK then (z.inflateInit, dest)
  else
    let (ret, out) := z.inflate (source.take avail_in) avail_out
    (if ret = z.Z_STREAM_END then z.Z_OK else z.Z_DATA_ERROR,
      overwrite dest ((out.take avail_out).take dest.length))

/-- The array `expectedSig` of the constructor. -/
def expectedSig : List Nat := [0x89, 0x50, 0x4E, 0x47, 0x0D, 0x0A, 0x1A, 0x0A]

/-- Constructor `PNGFile::PNGFile` on a file with content `file`: `realSig0` holds
the indeterminate initial bytes of `realSig`, `u` those of the locals of each
`nextChunk` call. The value `inflateBuffer` returns is dropped, as in the
source. -/
def PNGFile.new (realSig0 : List Nat) (u : Nat → Uninit) (z : Zlib) (file : List Nat) :
    Except Fault PNGFile :=
  let png : IStream := { bytes := file }
  let (got, png) := png.read 8
  let realSig := overwrite realSig0 got
  -- assert(std::equal(realSig, realSig + 8, expectedSig, expectedSig + 8));
  if realSig.take 8 ≠ expectedSig then .error .signature
  else do
    let (f, _) ← chunkLoop u (file.length + 2) 0 {} png
    -- imageData_.resize((rowBytes() + 1) * height());
    let imageData := List.replicate ((((f.rowBytes + 1) % U32) * f.height) % U32) 0
    let (_, imageData) := inflateBuffer z f.compressedData_ imageData
    let imageData ← unfilterImage f.width_ f.height_ f.bpp_ imageData
    .ok { f with imageData_ := imageData }

/-! ## The container format, as the specification words it -/

/-- The 4-byte big-endian encoding of a length. -/
def be32 (n : Nat) : List Nat :=
  [n / 16777216 % 256, n / 65536 % 256, n / 256 % 256, n % 256]

/-- The four tag bytes `IHDR`. -/
def tagIHDR : List Nat := [0x49, 0x48, 0x44, 0x52]
/-- The four tag bytes `IDAT`. -/
def tagIDAT : List Nat := [0x49, 0x44, 0x41, 0x54]
/-- The four tag bytes `IEND`. -/
def tagIEND : List Nat := [0x49, 0x45, 0x4E, 0x44]

/-- A chunk of the container. -/
structure Chunk where
  /-- The four tag bytes. -/
  tag : List Nat
  /-- The payload. -/
  payload : List Nat
  /-- The four CRC bytes. -/
  crc : List Nat
  deriving DecidableEq, Repr

/-- A complete chunk on the wire: big-endian payload length, tag, payload, CRC. -/
def Chunk.encode (c : Chunk) : List Nat :=
  be32 c.payload.length ++ c.tag ++ c.payload ++ c.crc

/-- A stream of the container: the signature and then the chunks in order. -/
def encodeStream (cs : List Chunk) : List Nat :=
  expectedSig ++ (cs.map Chunk.encode).flatten

/-- A chunk as the well-formed streams of the specification carry it: a tag of four
bytes, a payload shorter than 2^32, four CRC bytes; and when the tag is `IHDR`,
a 13-byte payload that passes the four header assertions. -/
def Chunk.Accepted (c : Chunk) : Prop :=
  (∃ t0 t1 t2 t3, c.tag = [t0, t1, t2, t3] ∧ t0 < 256 ∧ t1 < 256 ∧ t2 < 256 ∧ t3 < 256) ∧
  c.payload.length < 4294967296 ∧ c.crc.length = 4 ∧
  (c.tag = tagIHDR → ∃ w0 w1 w2 w3 h0 h1 h2 h3 ct cm,
    c.payload = [w0, w1, w2, w3, h0, h1, h2, h3, 8, ct, cm, 0, 0] ∧ ct ≠ 3)

/-- Concatenation, in order, of the payloads of the chunks tagged `IDAT`. -/
def idatPayloads (cs : List Chunk) : List Nat :=
  ((cs.filter (fun c => c.tag = tagIDAT)).map Chunk.payload).flatten

/-! ## The forward filter, as the specification words it

Section 4.2 of the specification gives the predictor of each filter type; the
forward filter of a row is its filter-type byte followed by
`(G[r][x] - predictor(x)) mod 256`, with neighbours outside the image taken
as 0. -/

/-- The Paeth predictor of section 4.2: `p = a + b - c`, distances `|p - a|`,
`|p - b|`, `|p - c|`, ties broken in the order a, b, c. -/
def specPaeth (a b c : Int) : Int :=
  let p := a + b - c
  let pa := |p - a|
  let pb := |p - b|
  let pc := |p - c|
  if pa ≤ pb ∧ pa ≤ pc then a else if pb ≤ pc then b else c

/-- The predictor of section 4.2 for filter type `F` from the left, above and
upper-left neighbours. -/
def specPredictor (F a b c : Nat) : Nat :=
  if F = 0 then 0
  else if F = 1 then a
  else if F = 2 then b
  else if F = 3 then (a + b) / 2
  else (specPaeth a b c).toNat

/-- The byte of the pixel grid `G` at row `r`, column `x`; 0 outside the image. -/
def gridAt (G : List (List Nat)) (r x : Int) : Nat :=
  if r < 0 ∨ x < 0 then 0 else (G.getD r.toNat []).getD x.toNat 0

/-- The forward filter of row `r` of `G` with filter type `F`: the filter-type byte,
then the filtered bytes. -/
def forwardFilterRow (F bpp rowBytes : Nat) (G : List (List Nat)) (r : Nat) : List Nat :=
  F :: (List.range rowBytes).map (fun (x : Nat) =>
    (gridAt G r x + 256 -
      specPredictor F (gridAt G r ((x : Int) - bpp)) (gridAt G ((r : Int) - 1) x)
        (gridAt G ((r : Int) - 1) ((x : Int) - bpp)) % 256) % 256)

/-- The filtered buffer of the grid `G`: every row filtered with type `F`. -/
def forwardFilter (F width height bpp : Nat) (G : List (List Nat)) : List Nat :=
  ((List.range height).map (forwardFilterRow F bpp (width * bpp) G)).flatten

/-- The forward filter of a row under the Sub filter, byte by byte. -/
def subFiltered (bpp : Nat) (row : List Nat) (x : Nat) : Nat :=
  (row.getD x 0 + 256 - (if x < bpp then 0 else row.getD (x - bpp) 0) % 256) % 256

/-- The pixel rows of a buffer: for each row `r`, the `rowBytes` bytes at offset
`r * (rowBytes + 1) + 1`. -/
def pixelRows (rowBytes height : Nat) (buf : List Nat) : List (List Nat) :=
  (List.range height).map (fun r => (buf.drop (r * (rowBytes + 1) + 1)).take rowBytes)

/-- A zlib stand-in for evaluating the constructor on examples: `inflate` reports
a data error and produces nothing. -/
def zlibFailing : Zlib :=
  { Z_OK := 0, Z_STREAM_END := 1, Z_DATA_ERROR := -3, inflateInit := 0,
    inflate := fun _ _ => (-3, []) }

/-- Indeterminate bytes that happen to be all zero. -/
def zeroUninit : Uninit := { chdr := List.replicate 8 0, ihdr := List.replicate 13 0 }

/-! ## The chunk reader as a function of the chunks

The effect of the calls of `nextChunk` on the decoder members, read off
`nextChunk`, `headerCase` and `imageDataCase` for the case that the bytes they
ask for are there. -/

/-- What the header case makes of the decoder members, from the 13 bytes `ihdr` of
the local `IHDRChunk`. -/
def headerFields (f : PNGFile) (ihdr : List Nat) : Except Fault PNGFile :=
  if ihdr.getD 8 0 ≠ 8 then .error .bitDepth
  else if ihdr.getD 9 0 = ColorType.Palette then .error .palette
  else if ihdr.getD 11 0 ≠ 0 then .error .filterMethod
  else if ihdr.getD 12 0 ≠ 0 then .error .interlace
  else
    .ok { f with
          width_ := ntohl (le32 ihdr 0), height_ := ntohl (le32 ihdr 4),
          bpp_ := if ihdr.getD 9 0 = ColorType.RGB then 3
                  else if ihdr.getD 9 0 = ColorType.GrayscaleAlpha then 2
                  else if ihdr.getD 9 0 = ColorType.RGBA then 4 else 1 }

/-- What one call of `nextChunk` on a complete chunk makes of the decoder members:
a function of the tag and the payload. -/
def chunkEffect (f : PNGFile) (c : Chunk) : Except Fault PNGFile :=
  if c.tag = tagIHDR then headerFields f c.payload
  else if c.tag = tagIDAT then .ok { f with compressedData_ := f.compressedData_ ++ c.payload }
  else .ok f

/-- What the call of `nextChunk` at the end of the file makes of the decoder
members: no byte is extracted, so the dispatch and the header case work on the
indeterminate `chdr` and `ihdr`, and the image-data case appends zeros. -/
def endEffect (u : Uninit) (f : PNGFile) : Except Fault PNGFile :=
  if le32 u.chdr 4 = HeaderChunk then headerFields f u.ihdr
  else if le32 u.chdr 4 = ImageDataChunk then
    .ok { f with compressedData_ :=
            f.compressedData_ ++ List.replicate (ntohl (le32 u.chdr 0)) 0 }
  else .ok f

/-- A chunk that keeps the framing of the stream: a tag of four bytes, a payload
shorter than 2^32, four CRC bytes, and 13 payload bytes when the tag is `IHDR`. -/
def Chunk.Framed (c : Chunk) : Prop :=
  (∃ t0 t1 t2 t3, c.tag = [t0, t1, t2, t3] ∧ t0 < 256 ∧ t1 < 256 ∧ t2 < 256 ∧ t3 < 256) ∧
  c.payload.length < 4294967296 ∧ c.crc.length = 4 ∧
  (c.tag = tagIHDR → c.payload.length = 13)

/-! ## The reconstruction of section 4.2, as the specification words it -/

/-- The left neighbour `a` of byte `x` of row `r` in the buffer `out` (rows of
`rowBytes + 1` bytes): 0 when `x < bpp`. -/
def leftOf (bpp rowBytes : Nat) (out : List Nat) (r x : Nat) : Nat :=
  if x < bpp then 0 else out.getD (r * (rowBytes + 1) + 1 + (x - bpp)) 0

/-- The above neighbour `b` of byte `x` of row `r` in the buffer `out`: 0 when
`r = 0`. -/
def aboveOf (rowBytes : Nat) (out : List Nat) (r x : Nat) : Nat :=
  if r = 0 then 0 else out.getD ((r - 1) * (rowBytes + 1) + 1 + x) 0

/-- The upper-left neighbour `c` of byte `x` of row `r` in the buffer `out`: 0 when
`r = 0` or `x < bpp`. -/
def aboveLeftOf (bpp rowBytes : Nat) (out : List Nat) (r x : Nat) : Nat :=
  if r = 0 ∨ x < bpp then 0 else out.getD ((r - 1) * (rowBytes + 1) + 1 + (x - bpp)) 0

/-- The buffer `out` is the reconstruction of the filtered buffer `inp` in the sense
of section 4.2: same size, filter-type bytes unchanged, and every pixel byte is
`(filtered + predictor) mod 256` with the predictor of the row's filter type taken
on the reconstructed neighbours. -/
def Reconstructs (bpp rowBytes height : Nat) (inp out : List Nat) : Prop :=
  out.length = inp.length ∧
  ∀ r, r < height →
    out.getD (r * (rowBytes + 1)) 0 = inp.getD (r * (rowBytes + 1)) 0 ∧
    ∀ x, x < rowBytes →
      out.getD (r * (rowBytes + 1) + 1 + x) 0
        = (inp.getD (r * (rowBytes + 1) + 1 + x) 0
            + specPredictor (inp.getD (r * (rowBytes + 1)) 0)
                (leftOf bpp rowBytes out r x) (aboveOf rowBytes out r x)
                (aboveLeftOf bpp rowBytes out r x)) % 256

/-! ## Row-wise form of the reconstruction (used in the proofs) -/

/-- The reconstructed value of the byte `t` that follows the reconstructed bytes
`done` of a row with filter type `F`, the reconstructed row above being `prev`
(empty for row 0). -/
def rowValue (F bpp : Nat) (prev done : List Nat) (t : Nat) : Nat :=
  (t + specPredictor F
        (if done.length < bpp then 0 else done.getD (done.length - bpp) 0)
        (prev.getD done.length 0)
        (if done.length < bpp then 0 else prev.getD (done.length - bpp) 0)) % 256

/-- Reconstruction of the bytes `todo` of a row, left to right, after `done`. -/
def decodeFrom (F bpp : Nat) (prev : List Nat) : List Nat → List Nat → List Nat
  | done, [] => done
  | done, t :: ts => decodeFrom F bpp prev (done ++ [rowValue F bpp prev done t]) ts

/-- Reconstruction of a row. -/
def decodeRow (F bpp : Nat) (prev cur : List Nat) : List Nat := decodeFrom F bpp prev [] cur

/-- Reconstruction of a list of rows (each a filter-type byte and its pixel bytes),
`prev` being the reconstructed pixel bytes of the row above the first. -/
def decodeRows (bpp : Nat) : List Nat → List (List Nat) → List (List Nat)
  | _, [] => []
  | prev, row :: rest =>
    (row.headD 0 :: decodeRow (row.headD 0) bpp prev row.tail)
      :: decodeRows bpp (decodeRow (row.headD 0) bpp prev row.tail) rest

/-- The first `h` rows of `m` bytes of a buffer. -/
def rowsOf (m : Nat) : Nat → List Nat → List (List Nat)
  | 0, _ => []
  | h + 1, buf => buf.take m :: rowsOf m h (buf.drop m)

/-- The usable stream whose bytes `pre` have been consumed and whose bytes `rest`
are still to come. -/
def streamAt (pre rest : List Nat) : IStream :=
  { bytes := pre ++ rest, pos := pre.length, fail := false }

/-! ## Reading from the stream -/

/-- A `read` of `d.length` bytes from a usable stream that has `d` at the get
position extracts exactly `d`. -/
theorem IStream.read_exact (pre d rest : List Nat) :
    (streamAt pre (d ++ rest)).read d.length = (d, streamAt (pre ++ d) rest) := by
  simp [IStream.read, streamAt]

/-- A `read` from a failed stream extracts nothing and changes nothing. -/
theorem IStream.read_fail (s : IStream) (n : Nat) (h : s.fail = true) : s.read n = ([], s) := by
  simp [IStream.read, h]

/-- A `seekg` forward over `d` on a usable stream. -/
theorem IStream.seekgCur_exact (pre d rest : List Nat) :
    (streamAt pre (d ++ rest)).seekgCur d.length = streamAt (pre ++ d) rest := by
  simp [IStream.seekgCur, streamAt]

/-- The header read of `nextChunk` when 8 bytes are available. -/
theorem read8 (pre rest : List Nat) (a b c d e f g h : Nat) :
    (streamAt pre ([a, b, c, d, e, f, g, h] ++ rest)).read 8
      = ([a, b, c, d, e, f, g, h], streamAt (pre ++ [a, b, c, d, e, f, g, h]) rest) :=
  IStream.read_exact pre [a, b, c, d, e, f, g, h] rest

/-- The word `chdr.dataSize` lies in the first four bytes of `chdr`. -/
theorem le32_header_size (a b c d e f g h : Nat) (t : List Nat) :
    le32 ([a, b, c, d, e, f, g, h] ++ t) 0 = le32 [a, b, c, d] 0 := by
  simp only [le32, List.cons_append, List.getD_cons_succ, List.getD_cons_zero]

/-- The word `chdr.chunkType` lies in the last four bytes of `chdr`. -/
theorem le32_header_type (a b c d e f g h : Nat) (t : List Nat) :
    le32 ([a, b, c, d, e, f, g, h] ++ t) 4 = le32 [e, f, g, h] 0 := by
  simp only [le32, List.cons_append, List.getD_cons_succ, List.getD_cons_zero]

/-- One call of `nextChunk` on a usable stream with a complete 8-byte chunk header at
the get position: the dispatch on the tag, then the CRC skip. -/
theorem nextChunk_of_header (u : Uninit) (f : PNGFile) (pre rest : List Nat)
    (a b c d t0 t1 t2 t3 : Nat) :
    nextChunk u f (streamAt pre ([a, b, c, d, t0, t1, t2, t3] ++ rest))
      = ((if le32 [t0, t1, t2, t3] 0 = HeaderChunk then
            headerCase u f (streamAt (pre ++ [a, b, c, d, t0, t1, t2, t3]) rest)
          else if le32 [t0, t1, t2, t3] 0 = ImageDataChunk then
            .ok (imageDataCase (ntohl (le32 [a, b, c, d] 0)) f
              (streamAt (pre ++ [a, b, c, d, t0, t1, t2, t3]) rest))
          else
            .ok (f, (streamAt (pre ++ [a, b, c, d, t0, t1, t2, t3]) rest).seekgCur
              (ntohl (le32 [a, b, c, d] 0)))) >>= fun r => .ok (r.1, r.2.seekgCur 4)) := by
  unfold nextChunk
  rw [read8]
  have e : overwrite u.chdr [a, b, c, d, t0, t1, t2, t3]
      = [a, b, c, d, t0, t1, t2, t3] ++ u.chdr.drop 8 := rfl
  simp only [e, le32_header_size, le32_header_type]
  split_ifs <;> rfl


/-- The bytes `IHDR` in memory are the word `HeaderChunk`. -/
theorem tag_IHDR : le32 tagIHDR 0 = HeaderChunk := by decide
/-- The bytes `IDAT` in memory are the word `ImageDataChunk`. -/
theorem tag_IDAT : le32 tagIDAT 0 = ImageDataChunk := by decide
/-- The two tags the decoder interprets differ. -/
theorem HeaderChunk_ne : HeaderChunk ≠ ImageDataChunk := by decide

/-- Big-endian value of four bytes, as `ntohl` computes it from the stored word. -/
theorem ntohl_le32 (a b c d : Nat) (ha : a < 256) (hb : b < 256) (hc : c < 256) (hd : d < 256) :
    ntohl (le32 [a, b, c, d] 0) = a * 16777216 + b * 65536 + c * 256 + d := by
  simp only [le32, ntohl, List.getD_cons_succ, List.getD_cons_zero]
  omega

/-- The payload read of the header case when 13 bytes are available. -/
theorem read13 (pre rest : List Nat) (w0 w1 w2 w3 h0 h1 h2 h3 bd ct cm fm il : Nat) :
    (streamAt pre ([w0, w1, w2, w3, h0, h1, h2, h3, bd, ct, cm, fm, il] ++ rest)).read 13
      = ([w0, w1, w2, w3, h0, h1, h2, h3, bd, ct, cm, fm, il],
          streamAt (pre ++ [w0, w1, w2, w3, h0, h1, h2, h3, bd, ct, cm, fm, il]) rest) :=
  IStream.read_exact pre [w0, w1, w2, w3, h0, h1, h2, h3, bd, ct, cm, fm, il] rest

/-- The header case on a complete 13-byte payload. -/
theorem headerCase_complete (u : Uninit) (f : PNGFile) (pre rest : List Nat)
    (w0 w1 w2 w3 h0 h1 h2 h3 bd ct cm fm il : Nat) :
    headerCase u f (streamAt pre ([w0, w1, w2, w3, h0, h1, h2, h3, bd, ct, cm, fm, il] ++ rest))
      = if bd ≠ 8 then .error .bitDepth
        else if ct = ColorType.Palette then .error .palette
        else if fm ≠ 0 then .error .filterMethod
        else if il ≠ 0 then .error .interlace
        else .ok ({ f with
                    width_ := ntohl (le32 [w0, w1, w2, w3] 0),
                    height_ := ntohl (le32 [h0, h1, h2, h3] 0),
                    bpp_ := if ct = ColorType.RGB then 3
                            else if ct = ColorType.GrayscaleAlpha then 2
                            else if ct = ColorType.RGBA then 4 else 1 },
                  streamAt (pre ++ [w0, w1, w2, w3, h0, h1, h2, h3, bd, ct, cm, fm, il]) rest) := by
  unfold headerCase
  rw [read13]
  have e : overwrite u.ihdr [w0, w1, w2, w3, h0, h1, h2, h3, bd, ct, cm, fm, il]
      = [w0, w1, w2, w3, h0, h1, h2, h3, bd, ct, cm, fm, il] ++ u.ihdr.drop 13 := rfl
  simp only [e, le32, List.cons_append, List.getD_cons_succ, List.getD_cons_zero]

/-- The length bytes of a chunk header are four bytes. -/
theorem len4 (l : List Nat) (h : l.length = 4) : ∃ a b c d, l = [a, b, c, d] := by
  match l, h with
  | [a, b, c, d], _ => exact ⟨a, b, c, d, rfl⟩

/-- One call of `nextChunk` on a complete chunk tagged `IHDR` with a 13-byte payload:
the four header assertions in source order, then the members set from the
payload and the stream left behind the 13 payload bytes and 4 further bytes. -/
theorem nextChunk_IHDR (u : Uninit) (f : PNGFile) (pre len rest : List Nat)
    (w0 w1 w2 w3 h0 h1 h2 h3 bd ct cm fm il : Nat) (hl : len.length = 4) :
    nextChunk u f
        (streamAt pre (len ++ tagIHDR ++ [w0, w1, w2, w3, h0, h1, h2, h3, bd, ct, cm, fm, il] ++ rest))
      = if bd ≠ 8 then .error .bitDepth
        else if ct = ColorType.Palette then .error .palette
        else if fm ≠ 0 then .error .filterMethod
        else if il ≠ 0 then .error .interlace
        else .ok ({ f with
                    width_ := ntohl (le32 [w0, w1, w2, w3] 0),
                    height_ := ntohl (le32 [h0, h1, h2, h3] 0),
                    bpp_ := if ct = ColorType.RGB then 3
                            else if ct = ColorType.GrayscaleAlpha then 2
                            else if ct = ColorType.RGBA then 4 else 1 },
                  (streamAt (pre ++ len ++ tagIHDR ++
                    [w0, w1, w2, w3, h0, h1, h2, h3, bd, ct, cm, fm, il]) rest).seekgCur 4) := by
  obtain ⟨a, b, c, d, rfl⟩ := len4 len hl
  have h := nextChunk_of_header u f pre
    ([w0, w1, w2, w3, h0, h1, h2, h3, bd, ct, cm, fm, il] ++ rest) a b c d 0x49 0x48 0x44 0x52
  have e : le32 [0x49, 0x48, 0x44, 0x52] 0 = HeaderChunk := tag_IHDR
  rw [if_pos e, headerCase_complete] at h
  simp only [tagIHDR, List.append_assoc, List.cons_append, List.nil_append] at h ⊢
  rw [h]
  split_ifs <;> rfl

/-- C7: on every IHDR chunk whose 13-byte payload has BitDepth ≠ 8, or ColorType = 3
(Palette), or FilterMethod ≠ 0, or InterlaceMethod ≠ 0, `nextChunk` fails; on every
IHDR payload with BitDepth = 8, ColorType in {0, 2, 4, 6}, FilterMethod = 0 and
InterlaceMethod = 0 it does not fail. -/
theorem nextChunk_IHDR_validation (u : Uninit) (f : PNGFile) (pre len rest : List Nat)
    (w0 w1 w2 w3 h0 h1 h2 h3 bd ct cm fm il : Nat) (hl : len.length = 4) :
    ((bd ≠ 8 ∨ ct = 3 ∨ fm ≠ 0 ∨ il ≠ 0) →
      ∃ e, nextChunk u f (streamAt pre
        (len ++ tagIHDR ++ [w0, w1, w2, w3, h0, h1, h2, h3, bd, ct, cm, fm, il] ++ rest))
          = .error e) ∧
    ((bd = 8 ∧ (ct = 0 ∨ ct = 2 ∨ ct = 4 ∨ ct = 6) ∧ fm = 0 ∧ il = 0) →
      ∃ r, nextChunk u f (streamAt pre
        (len ++ tagIHDR ++ [w0, w1, w2, w3, h0, h1, h2, h3, bd, ct, cm, fm, il] ++ rest))
          = .ok r) := by
  rw [nextChunk_IHDR u f pre len rest w0 w1 w2 w3 h0 h1 h2 h3 bd ct cm fm il hl]
  constructor
  · intro h
    simp only [ColorType.Palette]
    split_ifs <;> first | exact ⟨_, rfl⟩ | omega
  · rintro ⟨h1, h2, h3, h4⟩
    have h5 : ct ≠ ColorType.Palette := by simp only [ColorType.Palette]; omega
    rw [if_neg (by omega), if_neg h5, if_neg (by omega), if_neg (by omega)]
    exact ⟨_, rfl⟩

/-- Instance of C7: a 16-bit header is refused and an 8-bit RGBA header is taken. -/
theorem nextChunk_IHDR_validation_witness :
    (∃ e, nextChunk zeroUninit {} (streamAt expectedSig
        ([0, 0, 0, 13] ++ tagIHDR ++ [0, 0, 0, 2, 0, 0, 0, 2, 16, 2, 0, 0, 0] ++ [1, 2, 3, 4]))
          = .error e) ∧
    (∃ r, nextChunk zeroUninit {} (streamAt expectedSig
        ([0, 0, 0, 13] ++ tagIHDR ++ [0, 0, 0, 2, 0, 0, 0, 2, 8, 6, 0, 0, 0] ++ [1, 2, 3, 4]))
          = .ok r) :=
  ⟨(nextChunk_IHDR_validation zeroUninit {} expectedSig [0, 0, 0, 13] [1, 2, 3, 4]
      0 0 0 2 0 0 0 2 16 2 0 0 0 rfl).1 (Or.inl (by decide)),
   (nextChunk_IHDR_validation zeroUninit {} expectedSig [0, 0, 0, 13] [1, 2, 3, 4]
      0 0 0 2 0 0 0 2 8 6 0 0 0 rfl).2 ⟨rfl, Or.inr (Or.inr (Or.inr rfl)), rfl, rfl⟩⟩

/-- C8: after `nextChunk` has taken an IHDR chunk with payload bytes `p[0..12]`,
`width()` and `height()` are the big-endian values of `p[0..3]` and `p[4..7]`,
`bytesPerPixel()` is 1, 2, 3, 4 for ColorType 0, 4, 2, 6, and `rowBytes()` is
`width() * bytesPerPixel()` modulo 2^32. -/
theorem nextChunk_IHDR_fields (u : Uninit) (f : PNGFile) (pre len rest : List Nat)
    (w0 w1 w2 w3 h0 h1 h2 h3 bd ct cm fm il : Nat) (hl : len.length = 4)
    (hw : w0 < 256 ∧ w1 < 256 ∧ w2 < 256 ∧ w3 < 256)
    (hh : h0 < 256 ∧ h1 < 256 ∧ h2 < 256 ∧ h3 < 256)
    (hbd : bd = 8) (hct : ct ≠ 3) (hfm : fm = 0) (hil : il = 0) :
    ∃ g png, nextChunk u f (streamAt pre
        (len ++ tagIHDR ++ [w0, w1, w2, w3, h0, h1, h2, h3, bd, ct, cm, fm, il] ++ rest))
          = .ok (g, png) ∧
      g.width = w0 * 2 ^ 24 + w1 * 2 ^ 16 + w2 * 2 ^ 8 + w3 ∧
      g.height = h0 * 2 ^ 24 + h1 * 2 ^ 16 + h2 * 2 ^ 8 + h3 ∧
      (ct = 0 → g.bytesPerPixel = 1) ∧ (ct = 4 → g.bytesPerPixel = 2) ∧
      (ct = 2 → g.bytesPerPixel = 3) ∧ (ct = 6 → g.bytesPerPixel = 4) ∧
      g.rowBytes = (g.width * g.bytesPerPixel) % 2 ^ 32 := by
  rw [nextChunk_IHDR u f pre len rest w0 w1 w2 w3 h0 h1 h2 h3 bd ct cm fm il hl]
  have h5 : ct ≠ ColorType.Palette := by simp only [ColorType.Palette]; exact hct
  rw [if_neg (by omega), if_neg h5, if_neg (by omega), if_neg (by omega)]
  refine ⟨_, _, rfl, ?_, ?_, ?_, ?_, ?_, ?_, rfl⟩
  · simp only [PNGFile.width]
    rw [ntohl_le32 _ _ _ _ hw.1 hw.2.1 hw.2.2.1 hw.2.2.2]
    norm_num
  · simp only [PNGFile.height]
    rw [ntohl_le32 _ _ _ _ hh.1 hh.2.1 hh.2.2.1 hh.2.2.2]
    norm_num
  · intro h; subst h; rfl
  · intro h; subst h; rfl
  · intro h; subst h; rfl
  · intro h; subst h; rfl

/-- Instance of C8: the header of a 258 x 3 RGB image. -/
theorem nextChunk_IHDR_fields_witness :
    ∃ g png, nextChunk zeroUninit {} (streamAt expectedSig
        ([0, 0, 0, 13] ++ tagIHDR ++ [0, 0, 1, 2, 0, 0, 0, 3, 8, 2, 0, 0, 0] ++ [1, 2, 3, 4]))
          = .ok (g, png) ∧
      g.width = 0 * 2 ^ 24 + 0 * 2 ^ 16 + 1 * 2 ^ 8 + 2 ∧
      g.height = 0 * 2 ^ 24 + 0 * 2 ^ 16 + 0 * 2 ^ 8 + 3 ∧
      (2 = 0 → g.bytesPerPixel = 1) ∧ (2 = 4 → g.bytesPerPixel = 2) ∧
      (2 = 2 → g.bytesPerPixel = 3) ∧ (2 = 6 → g.bytesPerPixel = 4) ∧
      g.rowBytes = (g.width * g.bytesPerPixel) % 2 ^ 32 :=
  nextChunk_IHDR_fields zeroUninit {} expectedSig [0, 0, 0, 13] [1, 2, 3, 4]
    0 0 1 2 0 0 0 3 8 2 0 0 0 rfl (by decide) (by decide) rfl (by decide) rfl rfl

/-- The length field of a chunk header decodes to the length it encodes. -/
theorem ntohl_le32_be32 (n : Nat) (h : n < 4294967296) : ntohl (le32 (be32 n) 0) = n := by
  unfold be32
  rw [ntohl_le32 _ _ _ _ (Nat.mod_lt _ (by norm_num)) (Nat.mod_lt _ (by norm_num))
    (Nat.mod_lt _ (by norm_num)) (Nat.mod_lt _ (by norm_num))]
  omega

/-- The image-data case when the whole payload is available: the payload is appended
to `compressedData_` and the stream is left behind it. -/
theorem imageDataCase_complete (f : PNGFile) (pre payload rest : List Nat) :
    imageDataCase payload.length f (streamAt pre (payload ++ rest))
      = ({ f with compressedData_ := f.compressedData_ ++ payload },
          streamAt (pre ++ payload) rest) := by
  unfold imageDataCase
  rw [IStream.read_exact]
  simp [overwrite]

/-- One call of `nextChunk` on a complete chunk tagged `IDAT`, in any decoder state. -/
theorem nextChunk_IDAT (u : Uninit) (f : PNGFile) (pre payload crc rest : List Nat)
    (hn : payload.length < 4294967296) (hc : crc.length = 4) :
    nextChunk u f (streamAt pre (Chunk.encode ⟨tagIDAT, payload, crc⟩ ++ rest))
      = .ok ({ f with compressedData_ := f.compressedData_ ++ payload },
              streamAt (pre ++ Chunk.encode ⟨tagIDAT, payload, crc⟩) rest) := by
  have h := nextChunk_of_header u f pre (payload ++ (crc ++ rest))
    (payload.length / 16777216 % 256) (payload.length / 65536 % 256)
    (payload.length / 256 % 256) (payload.length % 256) 0x49 0x44 0x41 0x54
  have e1 : le32 [0x49, 0x44, 0x41, 0x54] 0 = ImageDataChunk := tag_IDAT
  have e2 : ¬ le32 [0x49, 0x44, 0x41, 0x54] 0 = HeaderChunk := by
    rw [e1]; exact fun h => HeaderChunk_ne h.symm
  have e3 := ntohl_le32_be32 payload.length hn
  unfold be32 at e3
  rw [if_neg e2, if_pos e1, e3, imageDataCase_complete] at h
  have e4 := IStream.seekgCur_exact
    (pre ++ [payload.length / 16777216 % 256, payload.length / 65536 % 256,
      payload.length / 256 % 256, payload.length % 256, 0x49, 0x44, 0x41, 0x54] ++ payload) crc rest
  rw [hc] at e4
  simp only [Chunk.encode, be32, tagIDAT, List.append_assoc, List.cons_append,
    List.nil_append] at h e4 ⊢
  rw [h]
  simp only [bind, Except.bind, e4]

/-- C10 (as amended): an IDAT chunk is taken whether or not an IHDR chunk has been
parsed. In every decoder state, `nextChunk` on a complete IDAT chunk does not
fail; it appends the payload to the compressed blob, leaves width, height and
bytesPerPixel as they were, and leaves the stream behind the chunk. -/
theorem nextChunk_IDAT_accepted_in_any_state (u : Uninit) (f : PNGFile)
    (pre payload crc rest : List Nat) (hn : payload.length < 2 ^ 32) (hc : crc.length = 4) :
    ∃ g png, nextChunk u f (streamAt pre (Chunk.encode ⟨tagIDAT, payload, crc⟩ ++ rest))
        = .ok (g, png) ∧
      g.compressedData_ = f.compressedData_ ++ payload ∧
      g.width = f.width ∧ g.height = f.height ∧ g.bytesPerPixel = f.bytesPerPixel ∧
      png = streamAt (pre ++ Chunk.encode ⟨tagIDAT, payload, crc⟩) rest :=
  ⟨_, _, nextChunk_IDAT u f pre payload crc rest (by norm_num at hn; exact hn) hc,
    rfl, rfl, rfl, rfl, rfl⟩

/-- Instance of C10 (as amended): an IDAT chunk right after the signature, no header
parsed yet. -/
theorem nextChunk_IDAT_accepted_in_any_state_witness :
    ∃ g png, nextChunk zeroUninit {}
        (streamAt expectedSig (Chunk.encode ⟨tagIDAT, [0x55, 0x66], [1, 2, 3, 4]⟩ ++ []))
        = .ok (g, png) ∧
      g.compressedData_ = ([] : List Nat) ++ [0x55, 0x66] ∧
      g.width = 0 ∧ g.height = 0 ∧ g.bytesPerPixel = 0 ∧
      png = streamAt (expectedSig ++ Chunk.encode ⟨tagIDAT, [0x55, 0x66], [1, 2, 3, 4]⟩) [] :=
  nextChunk_IDAT_accepted_in_any_state zeroUninit {} expectedSig [0x55, 0x66] [1, 2, 3, 4] []
    (by decide) rfl

/-- C10, counterexample: a file with a valid signature whose first chunk is IDAT,
followed by the IHDR of a 1 x 1 grayscale image and IEND, is decoded without any
failure; the IDAT payload is in the compressed blob. -/
theorem decode_IDAT_before_IHDR_not_rejected :
    PNGFile.new (List.replicate 8 0) (fun _ => zeroUninit) zlibFailing
        (encodeStream [⟨tagIDAT, [0x55], [1, 2, 3, 4]⟩,
          ⟨tagIHDR, [0, 0, 0, 1, 0, 0, 0, 1, 8, 0, 0, 0, 0], [5, 6, 7, 8]⟩,
          ⟨tagIEND, [], [9, 10, 11, 12]⟩])
      = .ok { width_ := 1, height_ := 1, bpp_ := 1, compressedData_ := [0x55],
              imageData_ := [0, 0] } := by
  decide

/-! ## The chunk loop ends by its own test -/

/-- What `read` leaves of the stream: same bytes, a position not moved back, and a
failure flag that stays set; when the stream is usable before and after a read of
`n` bytes, those `n` bytes were inside the file. -/
theorem IStream.read_frame (s : IStream) (n : Nat) :
    (s.read n).2.bytes = s.bytes ∧ s.pos ≤ (s.read n).2.pos ∧
      (s.fail = true → (s.read n).2.fail = true) ∧
      (s.fail = false → (s.read n).2.fail = false →
        n ≤ s.bytes.length - s.pos ∧ (s.read n).2.pos = s.pos + n) := by
  unfold IStream.read
  cases hf : s.fail with
  | true => simp [hf]
  | false =>
    simp only [Bool.false_eq_true, if_false, List.length_take, List.length_drop]
    split_ifs with hlt
    · simp
    · simp only [true_and, Nat.le_add_right, false_implies, forall_const, and_true]
      omega

/-- What `seekg` leaves of the stream: same bytes, a position not moved back, the
same failure flag. -/
theorem IStream.seekgCur_frame (s : IStream) (n : Nat) :
    (s.seekgCur n).bytes = s.bytes ∧ s.pos ≤ (s.seekgCur n).pos ∧
      (s.seekgCur n).fail = s.fail := by
  unfold IStream.seekgCur
  by_cases hf : s.fail = true
  · simp [hf]
  · simp [hf]

/-- The header case keeps the bytes of the stream, does not move it back and does
not clear a failure. -/
theorem headerCase_frame (u : Uninit) (f g : PNGFile) (s t : IStream)
    (h : headerCase u f s = .ok (g, t)) :
    t.bytes = s.bytes ∧ s.pos ≤ t.pos ∧ (s.fail = true → t.fail = true) := by
  unfold headerCase at h
  have hr := IStream.read_frame s 13
  simp only at h
  split_ifs at h
  all_goals first
    | (cases h; done)
    | (cases h; exact ⟨hr.1, hr.2.1, hr.2.2.1⟩)

/-- The image-data case keeps the bytes of the stream, does not move it back and
does not clear a failure. -/
theorem imageDataCase_frame (n : Nat) (f : PNGFile) (s : IStream) :
    (imageDataCase n f s).2.bytes = s.bytes ∧ s.pos ≤ (imageDataCase n f s).2.pos ∧
      (s.fail = true → (imageDataCase n f s).2.fail = true) := by
  have hr := IStream.read_frame s n
  exact ⟨hr.1, hr.2.1, hr.2.2.1⟩

/-- A call of `nextChunk` on a usable stream that does not fail either leaves the
stream failed or has consumed a chunk header of 8 bytes that lay inside the
file. -/
theorem nextChunk_progress (u : Uninit) (f g : PNGFile) (s t : IStream)
    (hs : s.fail = false) (h : nextChunk u f s = .ok (g, t)) :
    t.bytes = s.bytes ∧
      (t.fail = true ∨ (s.pos + 8 ≤ s.bytes.length ∧ s.pos + 8 ≤ t.pos)) := by
  unfold nextChunk at h
  have hr := IStream.read_frame s 8
  obtain ⟨hb, -, -, hgood⟩ := hr
  generalize (s.read 8) = r at h hb hgood
  obtain ⟨got, s1⟩ := r
  simp only at h hb hgood
  -- the stream after the dispatch
  have key : ∀ (s2 : IStream),
      s2.bytes = s1.bytes → s1.pos ≤ s2.pos → (s1.fail = true → s2.fail = true) →
      (s2.seekgCur 4).bytes = s.bytes ∧
        ((s2.seekgCur 4).fail = true ∨
          (s.pos + 8 ≤ s.bytes.length ∧ s.pos + 8 ≤ (s2.seekgCur 4).pos)) := by
    intro s2 h1 h2 h3
    have hk := IStream.seekgCur_frame s2 4
    refine ⟨by rw [hk.1, h1, hb], ?_⟩
    by_cases hf1 : s1.fail = true
    · left; rw [hk.2.2]; exact h3 hf1
    · have hf1 : s1.fail = false := by simpa using hf1
      obtain ⟨hle, hpos⟩ := hgood hs hf1
      right
      exact ⟨by omega, by omega⟩
  split_ifs at h with c1 c2
  · cases hh : headerCase u f s1 with
    | error e => rw [hh] at h; cases h
    | ok r =>
      obtain ⟨g1, s2⟩ := r
      rw [hh] at h
      simp only [bind, Except.bind, Except.ok.injEq, Prod.mk.injEq] at h
      have hfr := headerCase_frame u f g1 s1 s2 hh
      rw [← h.2]
      exact key s2 hfr.1 hfr.2.1 hfr.2.2
  · simp only [bind, Except.bind, Except.ok.injEq, Prod.mk.injEq] at h
    have hfr := imageDataCase_frame (ntohl (le32 (overwrite u.chdr got) 0)) f s1
    rw [← h.2]
    exact key _ hfr.1 hfr.2.1 hfr.2.2
  · simp only [bind, Except.bind, Except.ok.injEq, Prod.mk.injEq] at h
    have hfr := IStream.seekgCur_frame s1 (ntohl (le32 (overwrite u.chdr got) 0))
    rw [← h.2]
    exact key _ hfr.1 hfr.2.1 (fun hf => by rw [hfr.2.2]; exact hf)

/-- With `8 * fuel` above the unread length plus 8, the chunk loop stops because the
stream has failed (or a call of `nextChunk` has), never for lack of fuel. -/
theorem chunkLoop_fuel (u : Nat → Uninit) :
    ∀ (fuel i : Nat) (f g : PNGFile) (s t : IStream),
      s.bytes.length - s.pos + 8 < 8 * fuel →
      chunkLoop u fuel i f s = .ok (g, t) → t.fail = true := by
  intro fuel
  induction fuel with
  | zero => intro i f g s t hlt; omega
  | succ n ih =>
    intro i f g s t hlt h
    unfold chunkLoop at h
    by_cases hf : s.fail = true
    · simp only [hf, if_true, Except.ok.injEq, Prod.mk.injEq] at h
      rw [← h.2]; exact hf
    · have hf : s.fail = false := by simpa using hf
      simp only [hf, Bool.false_eq_true, if_false] at h
      cases hn : nextChunk (u i) f s with
      | error e => rw [hn] at h; cases h
      | ok r =>
        obtain ⟨g1, s1⟩ := r
        rw [hn] at h
        simp only [bind, Except.bind] at h
        obtain ⟨hb, hp⟩ := nextChunk_progress (u i) f g1 s s1 hf hn
        rcases hp with hfail | ⟨hle, hpos⟩
        · -- the next test of the loop sees the failure
          cases n with
          | zero => omega
          | succ m =>
            unfold chunkLoop at h
            simp only [hfail, if_true, Except.ok.injEq, Prod.mk.injEq] at h
            rw [← h.2]; exact hfail
        · exact ih (i + 1) g1 g s1 t (by rw [hb]; omega) h

/-- The fuel the constructor gives the chunk loop is enough: the loop it runs
after the signature ends on a failed stream. -/
theorem chunkLoop_new_fuel (u : Nat → Uninit) (file : List Nat) (s : IStream)
    (hs : s.bytes = file) (g : PNGFile) (t : IStream)
    (h : chunkLoop u (file.length + 2) 0 {} s = .ok (g, t)) : t.fail = true :=
  chunkLoop_fuel u (file.length + 2) 0 {} g s t (by rw [hs]; omega) h

/-! ## The chunk loop on a sequence of complete chunks -/

/-- Four bytes spell the word `HeaderChunk` only when they are `IHDR`. -/
theorem le32_eq_HeaderChunk (t0 t1 t2 t3 : Nat) (h0 : t0 < 256) (h1 : t1 < 256)
    (h2 : t2 < 256) (h3 : t3 < 256) (h : le32 [t0, t1, t2, t3] 0 = HeaderChunk) :
    [t0, t1, t2, t3] = tagIHDR := by
  have e : HeaderChunk = 1380206665 := by decide
  rw [e] at h
  simp only [le32, List.getD_cons_succ, List.getD_cons_zero] at h
  have : t0 = 73 ∧ t1 = 72 ∧ t2 = 68 ∧ t3 = 82 := by omega
  obtain ⟨rfl, rfl, rfl, rfl⟩ := this
  rfl

/-- Four bytes spell the word `ImageDataChunk` only when they are `IDAT`. -/
theorem le32_eq_ImageDataChunk (t0 t1 t2 t3 : Nat) (h0 : t0 < 256) (h1 : t1 < 256)
    (h2 : t2 < 256) (h3 : t3 < 256) (h : le32 [t0, t1, t2, t3] 0 = ImageDataChunk) :
    [t0, t1, t2, t3] = tagIDAT := by
  have e : ImageDataChunk = 1413563465 := by decide
  rw [e] at h
  simp only [le32, List.getD_cons_succ, List.getD_cons_zero] at h
  have : t0 = 73 ∧ t1 = 68 ∧ t2 = 65 ∧ t3 = 84 := by omega
  obtain ⟨rfl, rfl, rfl, rfl⟩ := this
  rfl

/-- One call of `nextChunk` on a complete chunk whose tag is neither `IHDR` nor
`IDAT`: the decoder state is unchanged and the stream is left behind the chunk. -/
theorem nextChunk_other (u : Uninit) (f : PNGFile) (pre payload crc rest : List Nat)
    (t0 t1 t2 t3 : Nat) (h0 : t0 < 256) (h1 : t1 < 256) (h2 : t2 < 256) (h3 : t3 < 256)
    (hH : [t0, t1, t2, t3] ≠ tagIHDR) (hD : [t0, t1, t2, t3] ≠ tagIDAT)
    (hn : payload.length < 4294967296) (hc : crc.length = 4) :
    nextChunk u f (streamAt pre (Chunk.encode ⟨[t0, t1, t2, t3], payload, crc⟩ ++ rest))
      = .ok (f, streamAt (pre ++ Chunk.encode ⟨[t0, t1, t2, t3], payload, crc⟩) rest) := by
  have h := nextChunk_of_header u f pre (payload ++ (crc ++ rest))
    (payload.length / 16777216 % 256) (payload.length / 65536 % 256)
    (payload.length / 256 % 256) (payload.length % 256) t0 t1 t2 t3
  have e1 : ¬ le32 [t0, t1, t2, t3] 0 = HeaderChunk :=
    fun e => hH (le32_eq_HeaderChunk t0 t1 t2 t3 h0 h1 h2 h3 e)
  have e2 : ¬ le32 [t0, t1, t2, t3] 0 = ImageDataChunk :=
    fun e => hD (le32_eq_ImageDataChunk t0 t1 t2 t3 h0 h1 h2 h3 e)
  have e3 := ntohl_le32_be32 payload.length hn
  unfold be32 at e3
  rw [if_neg e1, if_neg e2, e3, IStream.seekgCur_exact] at h
  have e4 := IStream.seekgCur_exact
    (pre ++ [payload.length / 16777216 % 256, payload.length / 65536 % 256,
      payload.length / 256 % 256, payload.length % 256, t0, t1, t2, t3] ++ payload) crc rest
  rw [hc] at e4
  simp only [Chunk.encode, be32, List.append_assoc, List.cons_append, List.nil_append]
    at h e4 ⊢
  rw [h]
  simp only [bind, Except.bind, e4]

/-- The call of `nextChunk` at the end of the file: the header read extracts nothing
and the dispatch is on the indeterminate `chdr`. When that is tagged neither
`IHDR` nor `IDAT` the call changes nothing but the failure flag of the stream. -/
theorem nextChunk_at_end (u : Uninit) (f : PNGFile) (pre : List Nat)
    (hH : le32 u.chdr 4 ≠ HeaderChunk) (hD : le32 u.chdr 4 ≠ ImageDataChunk) :
    nextChunk u f (streamAt pre [])
      = .ok (f, { bytes := pre ++ [], pos := pre.length, fail := true }) := by
  unfold nextChunk
  have e : (streamAt pre []).read 8
      = ([], { bytes := pre ++ [], pos := pre.length, fail := true }) := by
    simp [IStream.read, streamAt]
  have e2 : overwrite u.chdr [] = u.chdr := rfl
  simp only [e, e2, if_neg hH, if_neg hD]
  rfl

/-- The call of `nextChunk` at the end of the file when the indeterminate `chdr`
is tagged `IDAT` (as a `chdr` that still holds the header of a preceding IDAT
chunk is): as many zero bytes of `tempData` as the length word of `chdr` says are
appended to the blob. -/
theorem nextChunk_at_end_imageData (u : Uninit) (f : PNGFile) (pre : List Nat)
    (hD : le32 u.chdr 4 = ImageDataChunk) :
    nextChunk u f (streamAt pre [])
      = .ok ({ f with compressedData_ :=
                f.compressedData_ ++ List.replicate (ntohl (le32 u.chdr 0)) 0 },
              { bytes := pre ++ [], pos := pre.length, fail := true }) := by
  unfold nextChunk
  have e : (streamAt pre []).read 8
      = ([], { bytes := pre ++ [], pos := pre.length, fail := true }) := by
    simp [IStream.read, streamAt]
  have e2 : overwrite u.chdr [] = u.chdr := rfl
  have hH : ¬ le32 u.chdr 4 = HeaderChunk := by
    rw [hD]; exact fun h => HeaderChunk_ne h.symm
  simp only [e, e2, if_neg hH, if_pos hD, bind, Except.bind]
  unfold imageDataCase
  rw [IStream.read_fail _ _ rfl]
  simp only [overwrite, List.nil_append, List.length_nil, List.drop_zero, List.take_replicate,
    IStream.seekgCur, if_true]
  rw [Nat.min_eq_left (Nat.le_max_right _ _)]

/-- One call of `nextChunk` on an accepted complete chunk: it succeeds, leaves the
stream behind the chunk, and appends the payload to the blob exactly when the tag
is `IDAT`. -/
theorem nextChunk_accepted (u : Uninit) (f : PNGFile) (pre rest : List Nat) (c : Chunk)
    (hc : c.Accepted) :
    ∃ g, nextChunk u f (streamAt pre (c.encode ++ rest))
        = .ok (g, streamAt (pre ++ c.encode) rest) ∧
      g.compressedData_ = f.compressedData_ ++ idatPayloads [c] := by
  obtain ⟨tag, payload, crc⟩ := c
  obtain ⟨⟨t0, t1, t2, t3, ht, h0, h1, h2, h3⟩, hn, hcrc, hhdr⟩ := hc
  simp only at ht hn hcrc hhdr
  subst ht
  by_cases hH : [t0, t1, t2, t3] = tagIHDR
  · obtain ⟨w0, w1, w2, w3, g0, g1, g2, g3, ct, cm, hp, hct⟩ := hhdr hH
    subst hp
    have h := nextChunk_IHDR u f pre (be32 13) (crc ++ rest) w0 w1 w2 w3 g0 g1 g2 g3 8 ct cm 0 0 rfl
    have h5 : ct ≠ ColorType.Palette := by simp only [ColorType.Palette]; exact hct
    rw [if_neg (by omega), if_neg h5, if_neg (by omega), if_neg (by omega)] at h
    have e4 := IStream.seekgCur_exact
      (pre ++ be32 13 ++ tagIHDR ++ [w0, w1, w2, w3, g0, g1, g2, g3, 8, ct, cm, 0, 0]) crc rest
    rw [hcrc] at e4
    rw [e4] at h
    simp only [Chunk.encode, hH, List.length_cons, List.length_nil, List.append_assoc] at h ⊢
    rw [h]
    exact ⟨_, rfl, by simp [idatPayloads, tagIHDR, tagIDAT]⟩
  · by_cases hD : [t0, t1, t2, t3] = tagIDAT
    · rw [hD]
      exact ⟨_, nextChunk_IDAT u f pre payload crc rest hn hcrc, by simp [idatPayloads]⟩
    · exact ⟨_, nextChunk_other u f pre payload crc rest t0 t1 t2 t3 h0 h1 h2 h3 hH hD hn hcrc,
        by simp [idatPayloads, hD]⟩

/-- The chunk loop on a stream of accepted complete chunks, when the indeterminate
header of the extra call at the end of the file is tagged neither `IHDR` nor
`IDAT`: the loop ends without a fault and the blob has grown by the IDAT
payloads, in order. -/
theorem chunkLoop_accepted (u : Nat → Uninit) :
    ∀ (cs : List Chunk) (fuel i : Nat) (f : PNGFile) (pre : List Nat),
      cs.length + 2 ≤ fuel → (∀ c ∈ cs, c.Accepted) →
      le32 (u (i + cs.length)).chdr 4 ≠ HeaderChunk →
      le32 (u (i + cs.length)).chdr 4 ≠ ImageDataChunk →
      ∃ g t, chunkLoop u fuel i f (streamAt pre (cs.map Chunk.encode).flatten) = .ok (g, t) ∧
        g.compressedData_ = f.compressedData_ ++ idatPayloads cs := by
  intro cs
  induction cs with
  | nil =>
    intro fuel i f pre hfuel _ hH hD
    obtain ⟨n, rfl⟩ : ∃ n, fuel = n + 2 := ⟨fuel - 2, by simp at hfuel; omega⟩
    refine ⟨f, { bytes := pre ++ [], pos := pre.length, fail := true }, ?_, by simp [idatPayloads]⟩
    simp only [List.map_nil, List.flatten_nil]
    rw [chunkLoop]
    have e : (streamAt pre []).fail = false := rfl
    simp only [e, Bool.false_eq_true, if_false]
    rw [nextChunk_at_end _ f pre (by simpa using hH) (by simpa using hD)]
    simp only [bind, Except.bind]
    rw [chunkLoop]
    simp
  | cons c cs ih =>
    intro fuel i f pre hfuel hacc hH hD
    obtain ⟨n, rfl⟩ : ∃ n, fuel = n + 1 := ⟨fuel - 1, by simp at hfuel; omega⟩
    obtain ⟨g1, hg1, hblob1⟩ := nextChunk_accepted (u i) f pre (cs.map Chunk.encode).flatten c
      (hacc c (List.mem_cons_self _ _))
    have hidx : i + 1 + cs.length = i + (c :: cs).length := by simp; omega
    obtain ⟨g, t, hloop, hblob⟩ := ih n (i + 1) g1 (pre ++ c.encode)
      (by simp at hfuel; omega) (fun d hd => hacc d (List.mem_cons_of_mem _ hd))
      (by rw [hidx]; exact hH) (by rw [hidx]; exact hD)
    refine ⟨g, t, ?_, ?_⟩
    · simp only [List.map_cons, List.flatten_cons]
      rw [chunkLoop]
      have e : (streamAt pre (c.encode ++ (cs.map Chunk.encode).flatten)).fail = false := rfl
      simp only [e, Bool.false_eq_true, if_false, hg1, bind, Except.bind]
      exact hloop
    · rw [hblob, hblob1]
      simp [idatPayloads, List.filter_cons]
      split_ifs <;> simp

/-- Splitting is transparent to the chunk loop under the same proviso: two streams
of accepted chunks that carry the same compressed bytes in their IDAT chunks,
however split, end with the same blob. -/
theorem chunkLoop_split_transparent (u v : Nat → Uninit) (cs ds : List Chunk)
    (hcs : ∀ c ∈ cs, c.Accepted) (hds : ∀ c ∈ ds, c.Accepted)
    (hsame : idatPayloads cs = idatPayloads ds)
    (hu : le32 (u cs.length).chdr 4 ≠ HeaderChunk ∧ le32 (u cs.length).chdr 4 ≠ ImageDataChunk)
    (hv : le32 (v ds.length).chdr 4 ≠ HeaderChunk ∧ le32 (v ds.length).chdr 4 ≠ ImageDataChunk) :
    ∃ g t g' t',
      chunkLoop u (cs.length + 2) 0 {} (streamAt expectedSig (cs.map Chunk.encode).flatten)
        = .ok (g, t) ∧
      chunkLoop v (ds.length + 2) 0 {} (streamAt expectedSig (ds.map Chunk.encode).flatten)
        = .ok (g', t') ∧
      g.compressedData_ = g'.compressedData_ := by
  obtain ⟨g, t, h1, b1⟩ := chunkLoop_accepted u cs (cs.length + 2) 0 {} expectedSig
    (Nat.le_refl _) hcs (by simpa using hu.1) (by simpa using hu.2)
  obtain ⟨g', t', h2, b2⟩ := chunkLoop_accepted v ds (ds.length + 2) 0 {} expectedSig
    (Nat.le_refl _) hds (by simpa using hv.1) (by simpa using hv.2)
  exact ⟨g, t, g', t', h1, h2, by rw [b1, b2, hsame]⟩

/-! ## The row cursor and row 0 in general -/

/-- A successful sequence has a successful first step. -/
theorem bind_ok {α β : Type} (x : Except Fault α) (f : α → Except Fault β) (v : β)
    (h : x.bind f = .ok v) : ∃ a, x = .ok a ∧ f a = .ok v := by
  cases x with
  | error e => cases h
  | ok a => exact ⟨a, rfl, h⟩

/-- A load inside the buffer succeeds. -/
theorem load_ok (buf : List Nat) (p : Int) (h0 : 0 ≤ p) (h1 : p < buf.length) :
    load buf p = .ok (buf.getD p.toNat 0) := by
  unfold load
  rw [if_pos ⟨h0, h1⟩]

/-- A load before the buffer faults. -/
theorem load_neg (buf : List Nat) (p : Int) (h : p < 0) : load buf p = .error (.outOfBounds p) := by
  unfold load
  rw [if_neg (by omega)]

/-- Where one iteration of the row loop leaves the cursor: one filter-type byte and
`rowBytes` further, and `bpp_` more after the `lineIx == 0` branch of the
Average and Paeth filters. -/
theorem unfilterRow_cursor (width_ bpp_ lineIx : Nat) (rowPtr p : Int) (buf out : List Nat)
    (h : unfilterRow width_ bpp_ lineIx rowPtr buf = .ok (p, out)) :
    ∃ filter, load buf rowPtr = .ok filter ∧ filter < 5 ∧
      p = rowPtr + 1
        + (if lineIx = 0 ∧ (filter = LFAverage ∨ filter = LFPaeth) then (bpp_ : Int) else 0)
        + ((width_ * bpp_) % U32 : Nat) := by
  unfold unfilterRow at h
  obtain ⟨filter, hl, h⟩ := bind_ok _ _ _ h
  refine ⟨filter, hl, ?_⟩
  by_cases h5 : filter < 5
  · refine ⟨h5, ?_⟩
    simp only [h5, not_true_eq_false, if_false, LFNone, LFSub, LFUp, LFAverage, LFPaeth] at h ⊢
    split_ifs at h with c0 c1 c2 c3 c4 c5
    · cases h
      rw [if_neg (by omega)]; try omega
    · obtain ⟨b, -, h⟩ := bind_ok _ _ _ h
      cases h
      rw [if_neg (by omega)]; try omega
    · obtain ⟨b, -, h⟩ := bind_ok _ _ _ h
      cases h
      rw [if_neg (by omega)]; try omega
    · obtain ⟨b, -, h⟩ := bind_ok _ _ _ h
      cases h
      rw [if_pos ⟨c4, Or.inl c3⟩]; try omega
    · obtain ⟨b, -, h⟩ := bind_ok _ _ _ h
      cases h
      rw [if_neg (by omega)]; try omega
    · obtain ⟨b, -, h⟩ := bind_ok _ _ _ h
      cases h
      rw [if_pos ⟨c5, Or.inr (by omega)⟩]; try omega
    · obtain ⟨b, -, h⟩ := bind_ok _ _ _ h
      obtain ⟨b2, -, h⟩ := bind_ok _ _ _ h
      cases h
      rw [if_neg (by omega)]; try omega
  · simp only [h5, not_false_eq_true, if_true] at h
    cases h

/-- Row 0 under the Up filter, in general: whenever the first row of an image (at
least one pixel wide, row size below 2^32) has filter type Up, the first step of
the Up loop dereferences `row - rowPitch`, the offset `-rowBytes`. -/
theorem up_row0_fault (width_ height_ bpp_ : Nat) (buf : List Nat)
    (hw : 1 ≤ width_) (hh : 1 ≤ height_) (hb : 1 ≤ bpp_) (hsz : width_ * bpp_ + 1 < U32)
    (hlen : buf.length = (width_ * bpp_ + 1) * height_) (h0 : buf.getD 0 0 = LFUp) :
    unfilterImage width_ height_ bpp_ buf = .error (.outOfBounds (-((width_ * bpp_ : Nat) : Int))) := by
  obtain ⟨n, rfl⟩ : ∃ n, height_ = n + 1 := ⟨height_ - 1, by omega⟩
  have hpos : 1 ≤ width_ * bpp_ := Nat.mul_pos hw hb
  obtain ⟨m, hm⟩ : ∃ m, width_ * bpp_ = m + 1 := ⟨width_ * bpp_ - 1, by omega⟩
  have hlen2 : m + 2 ≤ buf.length := by
    rw [hlen, hm]; nlinarith
  unfold U32 at hsz
  have hl0 : load buf 0 = .ok LFUp := by
    rw [load_ok buf 0 (le_refl _) (by omega)]
    simpa using h0
  have hl1 : load buf (0 + 1) = .ok (buf.getD 1 0) := by
    rw [load_ok buf (0 + 1) (by omega) (by omega)]
    rfl
  have hl2 : load buf (0 + 1 - ((m + 1 + 1 : Nat) : Int)) = .error (.outOfBounds (-((m + 1 : Nat) : Int))) := by
    rw [load_neg buf _ (by omega)]
    congr 2
  unfold unfilterImage
  rw [unfilterRows, unfilterRow]
  have e1 : (width_ * bpp_) % U32 = m + 1 := by unfold U32; rw [hm]; omega
  have e2 : (m + 1 + 1) % U32 = m + 1 + 1 := by unfold U32; omega
  simp only [hl0, bind, Except.bind, LFUp, LFNone, LFSub, e1, e2]
  simp only [show ¬ (¬ (2 < 5)) by omega, if_false, show ¬ (2 = 0) by omega,
    show ¬ (2 = 1) by omega, if_true, upLoop, hl1, hl2, bind, Except.bind, hm]

/-- Row 0 under the Average or the Paeth filter with at least two bytes per pixel
and at least two pixels per row, in general: `row` has not been advanced by
`bpp_`, so the first loop step dereferences `row - bpp_`, the offset `1 - bpp_`
before the buffer. -/
theorem average_paeth_row0_fault (width_ height_ bpp_ : Nat) (buf : List Nat)
    (hw : 2 ≤ width_) (hh : 1 ≤ height_) (hb : 2 ≤ bpp_) (hb4 : bpp_ ≤ 4)
    (hsz : width_ * bpp_ + 1 < U32)
    (hlen : buf.length = (width_ * bpp_ + 1) * height_)
    (h0 : buf.getD 0 0 = LFAverage ∨ buf.getD 0 0 = LFPaeth) :
    unfilterImage width_ height_ bpp_ buf = .error (.outOfBounds (1 - (bpp_ : Int))) := by
  obtain ⟨n, rfl⟩ : ∃ n, height_ = n + 1 := ⟨height_ - 1, by omega⟩
  have hpos : 2 * bpp_ ≤ width_ * bpp_ := Nat.mul_le_mul_right _ hw
  obtain ⟨m, hm⟩ : ∃ m, width_ * bpp_ = bpp_ + (m + 1) := ⟨width_ * bpp_ - bpp_ - 1, by omega⟩
  have hlen2 : 2 ≤ buf.length := by
    rw [hlen, hm]; nlinarith
  unfold U32 at hsz
  have hl1 : load buf (0 + 1) = .ok (buf.getD 1 0) := by
    rw [load_ok buf (0 + 1) (by omega) (by omega)]
    rfl
  have hl2 : load buf (0 + 1 - (bpp_ : Int)) = .error (.outOfBounds (1 - (bpp_ : Int))) := by
    rw [load_neg buf _ (by omega)]
    congr 2
  have e1 : (width_ * bpp_) % U32 = bpp_ + (m + 1) := by unfold U32; rw [hm]; omega
  have e3 : (bpp_ + (m + 1) + U32 - bpp_) % U32 = m + 1 := by unfold U32; omega
  unfold unfilterImage
  rw [unfilterRows, unfilterRow]
  rcases h0 with h0 | h0
  · have hl0 : load buf 0 = .ok LFAverage := by
      rw [load_ok buf 0 (le_refl _) (by omega)]
      simpa using h0
    simp only [hl0, bind, Except.bind, LFUp, LFNone, LFSub, LFAverage, e1, e3]
    simp only [show ¬ (¬ (3 < 5)) by omega, if_false, show ¬ (3 = 0) by omega,
      show ¬ (3 = 1) by omega, show ¬ (3 = 2) by omega, if_true, averageFirstLoop, hl1, hl2,
      bind, Except.bind]
  · have hl0 : load buf 0 = .ok LFPaeth := by
      rw [load_ok buf 0 (le_refl _) (by omega)]
      simpa using h0
    simp only [hl0, bind, Except.bind, LFUp, LFNone, LFSub, LFAverage, LFPaeth, e1, e3]
    simp only [show ¬ (¬ (4 < 5)) by omega, if_false, show ¬ (4 = 0) by omega,
      show ¬ (4 = 1) by omega, show ¬ (4 = 2) by omega, show ¬ (4 = 3) by omega, if_true,
      paethFirstLoop, hl1, hl2, bind, Except.bind]

/-! ## Round trip of the None and Sub filters -/

/-- A load at the position right after `A` gives the byte found there. -/
theorem load_at (A C : List Nat) (x : Nat) (p : Int) (hp : p = A.length) :
    load (A ++ x :: C) p = .ok x := by
  subst hp
  rw [load_ok _ _ (by omega) (by simp)]
  rw [Int.toNat_ofNat, List.getD_append_right _ _ _ _ (le_refl _), Nat.sub_self,
    List.getD_cons_zero]

/-- A load `k` bytes before the end of `A` gives the byte of `A` found there. -/
theorem load_back (A C : List Nat) (k : Nat) (p : Int) (hk : 1 ≤ k) (hk2 : k ≤ A.length)
    (hp : p = A.length - k) : load (A ++ C) p = .ok (A.getD (A.length - k) 0) := by
  subst hp
  rw [load_ok _ _ (by omega) (by simp; omega)]
  have e : ((A.length : Int) - k).toNat = A.length - k := by omega
  rw [e, List.getD_append _ _ _ _ (by omega)]

/-- A store at the position right after `A` replaces the byte found there. -/
theorem store_at (A C : List Nat) (x v : Nat) (p : Int) (hp : p = A.length) :
    store (A ++ x :: C) p v = .ok (A ++ (v % 256) :: C) := by
  subst hp
  unfold store
  rw [if_pos ⟨by omega, by simp⟩]
  rw [Int.toNat_ofNat, List.set_append_right _ _ (le_refl _), Nat.sub_self, List.set_cons_zero]

/-- Undoing the Sub filter at one byte: the filtered byte plus the left neighbour
is the pixel byte. -/
theorem addv_subFiltered (bpp : Nat) (row : List Nat) (x : Nat) (hx : bpp ≤ x)
    (hg : row.getD x 0 < 256) :
    addv (subFiltered bpp row x) (row.getD (x - bpp) 0) % 256 = row.getD x 0 := by
  unfold addv subFiltered U32
  rw [if_neg (by omega)]
  omega

/-- The Sub loop on a row of which the first `j` bytes are reconstructed and the
rest still filtered: it reconstructs the rest. -/
theorem subLoop_roundTrip (bpp : Nat) (pre post row : List Nat) (hb : 1 ≤ bpp)
    (hrow : ∀ x, row.getD x 0 < 256) :
    ∀ (n j : Nat), j + n = row.length → bpp ≤ j →
      subLoop bpp n ((pre.length + 1 + j : Nat) : Int)
          (pre ++ 1 :: (row.take j ++ ((List.range row.length).map (subFiltered bpp row)).drop j)
            ++ post)
        = .ok (pre ++ 1 :: row ++ post) := by
  intro n
  induction n with
  | zero =>
    intro j hj _
    have hj : j = row.length := by omega
    subst hj
    simp [subLoop]
  | succ n ih =>
    intro j hj hbj
    have hjl : j < row.length := by omega
    -- the buffer, split at the byte under `row`
    have hsplit : pre ++ 1 :: (row.take j ++ ((List.range row.length).map (subFiltered bpp row)).drop j)
          ++ post
        = (pre ++ 1 :: row.take j) ++ subFiltered bpp row j ::
            (((List.range row.length).map (subFiltered bpp row)).drop (j + 1) ++ post) := by
      have hd : ((List.range row.length).map (subFiltered bpp row)).drop j
          = subFiltered bpp row j :: ((List.range row.length).map (subFiltered bpp row)).drop (j + 1) := by
        rw [List.drop_eq_getElem_cons (by simpa using hjl)]
        simp
      rw [hd]
      simp
    have hlenA : (pre ++ 1 :: row.take j).length = pre.length + 1 + j := by
      simp [List.length_take, Nat.min_eq_left (Nat.le_of_lt hjl)]
      omega
    have hback : (pre ++ 1 :: row.take j).getD ((pre ++ 1 :: row.take j).length - bpp) 0
        = row.getD (j - bpp) 0 := by
      rw [hlenA, List.getD_append_right _ _ _ _ (by omega)]
      have e : pre.length + 1 + j - bpp - pre.length = (j - bpp) + 1 := by omega
      rw [e, List.getD_cons_succ]
      rw [List.getD_eq_getElem?_getD, List.getD_eq_getElem?_getD, List.getElem?_take_of_lt (by omega)]
    rw [hsplit, subLoop]
    rw [load_at _ _ _ _ (by rw [hlenA])]
    simp only [bind, Except.bind]
    rw [load_back _ _ bpp _ hb (by rw [hlenA]; omega) (by rw [hlenA])]
    simp only [hback]
    rw [store_at _ _ _ _ _ (by rw [hlenA])]
    simp only [addv_subFiltered bpp row j hbj (hrow j)]
    have hnext := ih (j + 1) (by omega) (by omega)
    have htake : row.take (j + 1) = row.take j ++ [row.getD j 0] := by
      rw [List.take_succ]
      congr 1
      rw [List.getD_eq_getElem?_getD]
      cases h : row[j]? with
      | none => simp [List.getElem?_eq_none_iff] at h; omega
      | some v => simp
    rw [htake] at hnext
    have hptr : (((pre.length + 1 + j : Nat) : Int) + 1) = ((pre.length + 1 + (j + 1) : Nat) : Int) := by
      push_cast; ring
    rw [hptr]
    simpa using hnext

/-- Bytes of a list stay bytes under `getD` with default 0. -/
theorem getD_lt_of_forall (row : List Nat) (h : ∀ b ∈ row, b < 256) (x : Nat) :
    row.getD x 0 < 256 := by
  rw [List.getD_eq_getElem?_getD]
  cases hx : row[x]? with
  | none => simp
  | some v =>
    simp only [Option.getD_some]
    exact h v (List.getElem?_mem hx)

/-- A list is the map of its `getD` over its index range. -/
theorem map_range_getD (row : List Nat) : (List.range row.length).map (fun x => row.getD x 0) = row := by
  apply List.ext_getElem
  · simp
  · intro i h1 h2
    simp [List.getD_eq_getElem?_getD, List.getElem?_eq_getElem h2]

/-- The first `bpp` bytes of a Sub-filtered row are the pixel bytes. -/
theorem subFiltered_take (bpp : Nat) (row : List Nat) (hrow : ∀ x, row.getD x 0 < 256)
    (hb : bpp ≤ row.length) :
    ((List.range row.length).map (subFiltered bpp row)).take bpp = row.take bpp := by
  apply List.ext_getElem
  · simp
  · intro i h1 h2
    simp only [List.length_take, List.length_map, List.length_range] at h1 h2
    have hi : i < bpp := by omega
    have hil : i < row.length := by omega
    simp only [List.getElem_take, List.getElem_map, List.getElem_range, subFiltered, hi, if_true]
    have := hrow i
    rw [List.getD_eq_getElem?_getD, List.getElem?_eq_getElem hil, Option.getD_some] at this ⊢
    omega

/-- One iteration of the row loop on a Sub-filtered row reconstructs the row and
leaves the cursor at the next row. -/
theorem unfilterRow_sub (width_ bpp_ lineIx : Nat) (pre post row : List Nat)
    (hb : 1 ≤ bpp_) (hw : 1 ≤ width_) (hsz : width_ * bpp_ < U32)
    (hlen : row.length = width_ * bpp_) (hrow : ∀ b ∈ row, b < 256) :
    unfilterRow width_ bpp_ lineIx (pre.length : Int)
        (pre ++ 1 :: (List.range row.length).map (subFiltered bpp_ row) ++ post)
      = .ok (((pre ++ 1 :: row).length : Int), pre ++ 1 :: row ++ post) := by
  have hrow2 := getD_lt_of_forall row hrow
  have hble : bpp_ ≤ row.length := by rw [hlen]; exact Nat.le_mul_of_pos_left _ hw
  have hrb : (width_ * bpp_) % U32 = row.length := by rw [hlen]; exact Nat.mod_eq_of_lt hsz
  have hF : (List.range row.length).map (subFiltered bpp_ row)
      = row.take bpp_ ++ ((List.range row.length).map (subFiltered bpp_ row)).drop bpp_ := by
    rw [← subFiltered_take bpp_ row hrow2 hble, List.take_append_drop]
  have hloop := subLoop_roundTrip bpp_ pre post row hb hrow2 (row.length - bpp_) bpp_
    (by omega) (le_refl _)
  rw [← hF] at hloop
  unfold unfilterRow
  have hload : load (pre ++ 1 :: (List.range row.length).map (subFiltered bpp_ row) ++ post)
      (pre.length : Int) = .ok 1 := by
    have := load_at pre ((List.range row.length).map (subFiltered bpp_ row) ++ post) 1
      (pre.length : Int) rfl
    simpa using this
  have hcnt : (row.length + U32 - bpp_) % U32 = row.length - bpp_ := by
    unfold U32 at hsz ⊢
    omega
  have hptr : (pre.length : Int) + 1 + (bpp_ : Int) = ((pre.length + 1 + bpp_ : Nat) : Int) := by
    push_cast; ring
  simp only [hload, bind, Except.bind, hrb, LFNone, LFSub, hcnt, hptr, hloop]
  simp only [show ¬ (¬ (1 < 5)) by omega, if_false, show ¬ (1 = 0) by omega, if_true]
  simp only [List.length_append, List.length_cons]
  congr 2
  push_cast; ring

/-- One iteration of the row loop on a row with filter type None leaves the buffer
as it is and the cursor at the next row. -/
theorem unfilterRow_none (width_ bpp_ lineIx : Nat) (pre post row : List Nat)
    (hsz : width_ * bpp_ < U32) (hlen : row.length = width_ * bpp_) :
    unfilterRow width_ bpp_ lineIx (pre.length : Int) (pre ++ 0 :: row ++ post)
      = .ok (((pre ++ 0 :: row).length : Int), pre ++ 0 :: row ++ post) := by
  have hrb : (width_ * bpp_) % U32 = row.length := by rw [hlen]; exact Nat.mod_eq_of_lt hsz
  unfold unfilterRow
  have hload : load (pre ++ 0 :: row ++ post) (pre.length : Int) = .ok 0 := by
    have := load_at pre (row ++ post) 0 (pre.length : Int) rfl
    simpa using this
  simp only [hload, bind, Except.bind, hrb, LFNone]
  simp only [show ¬ (¬ (0 < 5)) by omega, if_false, if_true]
  simp only [List.length_append, List.length_cons]
  congr 2
  push_cast; ring

/-- The grid byte at a position inside the index range. -/
theorem gridAt_nat (G : List (List Nat)) (r x : Nat) :
    gridAt G (r : Int) (x : Int) = (G.getD r []).getD x 0 := by
  unfold gridAt
  rw [if_neg (by omega)]
  rfl

/-- The left neighbour in the grid: 0 before column 0. -/
theorem gridAt_left (G : List (List Nat)) (r x bpp : Nat) :
    gridAt G (r : Int) ((x : Int) - (bpp : Int))
      = if x < bpp then 0 else (G.getD r []).getD (x - bpp) 0 := by
  unfold gridAt
  by_cases h : x < bpp
  · rw [if_pos (Or.inr (by omega)), if_pos h]
  · rw [if_neg (by omega), if_neg h]
    have e : ((x : Int) - (bpp : Int)).toNat = x - bpp := by omega
    rw [e]
    rfl

/-- The forward filter of a row under None is the tag 0 and the row itself. -/
theorem forwardFilterRow_none (bpp : Nat) (G : List (List Nat)) (r : Nat)
    (hrow : ∀ b ∈ G.getD r [], b < 256) :
    forwardFilterRow 0 bpp (G.getD r []).length G r = 0 :: G.getD r [] := by
  unfold forwardFilterRow
  congr 1
  have hb := getD_lt_of_forall _ hrow
  conv_rhs => rw [← map_range_getD (G.getD r [])]
  apply List.map_congr_left
  intro x _
  have := hb x
  simp only [specPredictor, if_true, gridAt_nat]
  omega

/-- The forward filter of a row under Sub is the tag 1 and the Sub-filtered bytes. -/
theorem forwardFilterRow_sub (bpp : Nat) (G : List (List Nat)) (r : Nat) :
    forwardFilterRow 1 bpp (G.getD r []).length G r
      = 1 :: (List.range (G.getD r []).length).map (subFiltered bpp (G.getD r [])) := by
  unfold forwardFilterRow
  congr 1
  apply List.map_congr_left
  intro x _
  simp only [specPredictor, show ¬ (1 = 0) by omega, if_false, if_true, gridAt_nat, gridAt_left,
    subFiltered]

/-- Mapping over the row indices of a grid is mapping over its rows. -/
theorem map_range_rows (G : List (List Nat)) (f : Nat → List Nat) (g : List Nat → List Nat)
    (h : ∀ r, r < G.length → f r = g (G.getD r [])) :
    (List.range G.length).map f = G.map g := by
  apply List.ext_getElem
  · simp
  · intro i h1 h2
    simp only [List.length_map, List.length_range] at h1 h2
    simp only [List.getElem_map, List.getElem_range]
    rw [h i h2, List.getD_eq_getElem?_getD, List.getElem?_eq_getElem h2, Option.getD_some]

/-- The row loop over rows that are all filtered with None or all with Sub: every
row is reconstructed. The buffer holds `pre`, then the filtered rows. -/
theorem unfilterRows_uniform (width_ bpp_ : Nat) (F : Nat) (enc : List Nat → List Nat)
    (henc : ∀ (lineIx : Nat) (pre post row : List Nat),
      row.length = width_ * bpp_ → (∀ b ∈ row, b < 256) →
      unfilterRow width_ bpp_ lineIx (pre.length : Int) (pre ++ enc row ++ post)
        = .ok (((pre ++ F :: row).length : Int), pre ++ F :: row ++ post)) :
    ∀ (rows : List (List Nat)) (lineIx : Nat) (pre : List Nat),
      (∀ row ∈ rows, row.length = width_ * bpp_ ∧ ∀ b ∈ row, b < 256) →
      unfilterRows width_ bpp_ rows.length lineIx (pre.length : Int)
          (pre ++ (rows.map enc).flatten)
        = .ok (pre ++ (rows.map (fun row => F :: row)).flatten) := by
  intro rows
  induction rows with
  | nil => intro lineIx pre _; simp [unfilterRows]
  | cons row rows ih =>
    intro lineIx pre hrows
    have h1 := hrows row (List.mem_cons_self _ _)
    have hstep := henc lineIx pre (rows.map enc).flatten row h1.1 h1.2
    have hrest := ih (lineIx + 1) (pre ++ F :: row)
      (fun r hr => hrows r (List.mem_cons_of_mem _ hr))
    simp only [List.length_cons, List.map_cons, List.flatten_cons, unfilterRows]
    rw [← List.append_assoc, hstep]
    simp only [bind, Except.bind]
    rw [hrest]
    simp

/-- The pixel rows of a buffer of tagged rows of equal length are the rows. -/
theorem pixelRows_tagged (rowBytes F : Nat) :
    ∀ (G : List (List Nat)), (∀ row ∈ G, row.length = rowBytes) →
      pixelRows rowBytes G.length ((G.map (fun row => F :: row)).flatten) = G := by
  intro G hG
  unfold pixelRows
  have hdrop : ∀ (L : List (List Nat)) (r : Nat), (∀ row ∈ L, row.length = rowBytes) →
      ((L.map (fun row => F :: row)).flatten).drop (r * (rowBytes + 1))
        = ((L.drop r).map (fun row => F :: row)).flatten := by
    intro L
    induction L with
    | nil => intro r _; simp
    | cons a L ih =>
      intro r hL
      cases r with
      | zero => simp
      | succ r =>
        have ha := hL a (List.mem_cons_self _ _)
        have e : (r + 1) * (rowBytes + 1) = (F :: a).length + r * (rowBytes + 1) := by
          simp [ha]; ring
        simp only [List.map_cons, List.flatten_cons, List.drop_succ_cons]
        rw [e, ← List.drop_drop, List.drop_left]
        exact ih r (fun row hr => hL row (List.mem_cons_of_mem _ hr))
  conv_rhs => rw [← List.map_id G]
  apply map_range_rows G _ id
  intro r hr
  rw [← List.drop_drop, hdrop G r hG]
  rw [List.drop_eq_getElem_cons hr]
  have hlen : (G[r]).length = rowBytes := hG _ (List.getElem_mem hr)
  simp only [List.map_cons, List.flatten_cons, List.cons_append, List.drop_succ_cons,
    List.drop_zero, id]
  rw [List.getD_eq_getElem?_getD, List.getElem?_eq_getElem hr, Option.getD_some, ← hlen,
    List.take_left]

/-- Round trip of the None filter: for every grid of `height` rows of
`width * bytesPerPixel` bytes (row size below 2^32), filtering every row with
None and running `unfilterImage` gives back the grid. -/
theorem roundTrip_none (width_ height_ bpp_ : Nat) (G : List (List Nat))
    (hsz : width_ * bpp_ < U32) (hG : G.length = height_)
    (hrows : ∀ row ∈ G, row.length = width_ * bpp_ ∧ ∀ b ∈ row, b < 256) :
    (unfilterImage width_ height_ bpp_ (forwardFilter 0 width_ height_ bpp_ G)).map
        (pixelRows (width_ * bpp_) height_) = .ok G := by
  subst hG
  have hff : forwardFilter 0 width_ G.length bpp_ G = (G.map (fun row => 0 :: row)).flatten := by
    unfold forwardFilter
    congr 1
    apply map_range_rows
    intro r hr
    have hmem : G.getD r [] ∈ G := by
      rw [List.getD_eq_getElem?_getD, List.getElem?_eq_getElem hr, Option.getD_some]
      exact List.getElem_mem hr
    rw [← (hrows _ hmem).1]
    exact forwardFilterRow_none bpp_ G r (hrows _ hmem).2
  have hrun := unfilterRows_uniform width_ bpp_ 0 (fun row => 0 :: row)
    (fun lineIx pre post row hl _ => by
      have := unfilterRow_none width_ bpp_ lineIx pre post row hsz hl
      simpa using this)
    G 0 [] hrows
  unfold unfilterImage
  simp only [List.length_nil, List.nil_append, Nat.cast_zero] at hrun
  rw [hff, hrun]
  simp only [Except.map]
  rw [pixelRows_tagged (width_ * bpp_) 0 G (fun row hr => (hrows row hr).1)]

/-- Round trip of the Sub filter: for every grid of `height` rows of
`width * bytesPerPixel` bytes (at least one pixel wide, at least one byte per
pixel, row size below 2^32), filtering every row with Sub and running
`unfilterImage` gives back the grid. -/
theorem roundTrip_sub (width_ height_ bpp_ : Nat) (G : List (List Nat))
    (hw : 1 ≤ width_) (hb : 1 ≤ bpp_)
    (hsz : width_ * bpp_ < U32) (hG : G.length = height_)
    (hrows : ∀ row ∈ G, row.length = width_ * bpp_ ∧ ∀ b ∈ row, b < 256) :
    (unfilterImage width_ height_ bpp_ (forwardFilter 1 width_ height_ bpp_ G)).map
        (pixelRows (width_ * bpp_) height_) = .ok G := by
  subst hG
  have hff : forwardFilter 1 width_ G.length bpp_ G
      = (G.map (fun row => 1 :: (List.range row.length).map (subFiltered bpp_ row))).flatten := by
    unfold forwardFilter
    congr 1
    apply map_range_rows
    intro r hr
    have hmem : G.getD r [] ∈ G := by
      rw [List.getD_eq_getElem?_getD, List.getElem?_eq_getElem hr, Option.getD_some]
      exact List.getElem_mem hr
    rw [← (hrows _ hmem).1]
    exact forwardFilterRow_sub bpp_ G r
  have hrun := unfilterRows_uniform width_ bpp_ 1
    (fun row => 1 :: (List.range row.length).map (subFiltered bpp_ row))
    (fun lineIx pre post row hl hbytes => by
      have := unfilterRow_sub width_ bpp_ lineIx pre post row hb hw hsz hl hbytes
      simpa using this)
    G 0 [] hrows
  unfold unfilterImage
  simp only [List.length_nil, List.nil_append, Nat.cast_zero] at hrun
  rw [hff, hrun]
  simp only [Except.map]
  rw [pixelRows_tagged (width_ * bpp_) 1 G (fun row hr => (hrows row hr).1)]

/-! ## Row 0 of `unfilterImage` at concrete inputs -/

/-- C1, at failing inputs: the round trip holds for a 2 x 1 grid with one byte per
pixel under None and Sub, and breaks under the other three filters. Under Up the
run reads offset -2 (before the buffer); under Average and Paeth the first pixel
byte takes the filter-type byte as its left neighbour and the last pixel byte is
left filtered. -/
theorem roundTrip_row0_2x1 :
    (unfilterImage 2 1 1 (forwardFilter 0 2 1 1 [[10, 20]])).map (pixelRows 2 1)
        = .ok [[10, 20]] ∧
    (unfilterImage 2 1 1 (forwardFilter 1 2 1 1 [[10, 20]])).map (pixelRows 2 1)
        = .ok [[10, 20]] ∧
    forwardFilter 2 2 1 1 [[10, 20]] = [2, 10, 20] ∧
    unfilterImage 2 1 1 [2, 10, 20] = .error (.outOfBounds (-2)) ∧
    forwardFilter 3 2 1 1 [[10, 20]] = [3, 10, 15] ∧
    (unfilterImage 2 1 1 [3, 10, 15]).map (pixelRows 2 1) = .ok [[11, 15]] ∧
    forwardFilter 4 2 1 1 [[10, 20]] = [4, 10, 10] ∧
    (unfilterImage 2 1 1 [4, 10, 10]).map (pixelRows 2 1) = .ok [[14, 10]] := by
  decide

/-- C2, at failing inputs (1 x 2 image, one byte per pixel, 4-byte buffer). After an
Average row 0 the cursor is one byte too far: with the invalid filter-type byte 9
at offset 2 (the start of row 1) the assertion does not fire, and with valid
filter-type bytes at offsets 0 and 2 it fires on the byte 9 at offset 3. -/
theorem filter_assert_after_average_row0 :
    unfilterImage 1 2 1 [3, 0, 9, 0] = .ok [3, 0, 9, 0] ∧
    unfilterImage 1 2 1 [3, 0, 0, 9] = .error .lineFilter := by
  decide

/-- C3, at a failing input: on a 2 x 1 image with one byte per pixel whose row 0 has
filter type Up, the first loop step dereferences `row - rowPitch`, offset
`1 - 3 = -2`, which is outside the buffer. -/
theorem up_row0_reads_before_buffer :
    unfilterImage 2 1 1 [2, 5, 6] = .error (.outOfBounds (-2)) := by
  decide

/-- C4, at a failing input: on a 2 x 1 image with one byte per pixel whose row 0 has
filter type Paeth, byte 0 becomes `10 + 4` (the filter-type byte is read as its
left neighbour) and byte 1 is not processed, where the claim gives 10 and
`20 + 10`. -/
theorem paeth_row0_2x1 :
    unfilterImage 2 1 1 [4, 10, 20] = .ok [4, 14, 20] := by
  decide

/-- C5, at a failing input: on a 2 x 1 image with one byte per pixel whose row 0 has
filter type Average, byte 0 becomes `10 + 3 / 2` (the filter-type byte is read as
its left neighbour) and byte 1 is not processed, where the claim gives 10 and
`20 + 10 / 2`. -/
theorem average_row0_2x1 :
    unfilterImage 2 1 1 [3, 10, 20] = .ok [3, 11, 20] := by
  decide

/-! ## The signature check -/

/-- The signature assertion fires exactly when the 8 bytes of `realSig` after the
read (the extracted bytes, then what `realSig` held before) differ from the
expected ones. -/
theorem new_signature_fault_iff (realSig0 : List Nat) (u : Nat → Uninit) (z : Zlib)
    (file : List Nat) (h : (overwrite realSig0 (file.take 8)).take 8 ≠ expectedSig) :
    PNGFile.new realSig0 u z file = .error .signature := by
  unfold PNGFile.new
  have e : (IStream.read { bytes := file } 8).1 = file.take 8 := by
    simp only [IStream.read, Bool.false_eq_true, if_false, List.drop_zero]
    split_ifs <;> rfl
  simp only [e, h, ne_eq, not_false_eq_true, if_true]

/-- A file of at least 8 bytes whose first 8 bytes are not the signature is refused
by the signature assertion, whatever `realSig` held. -/
theorem new_signature_mismatch (realSig0 : List Nat) (u : Nat → Uninit) (z : Zlib)
    (file : List Nat) (hlen : 8 ≤ file.length) (h : file.take 8 ≠ expectedSig) :
    PNGFile.new realSig0 u z file = .error .signature := by
  apply new_signature_fault_iff
  have e : (overwrite realSig0 (file.take 8)).take 8 = file.take 8 := by
    unfold overwrite
    rw [List.take_append_of_le_length (by simp [hlen])]
    simp
  rw [e]; exact h

/-- On a file that starts with the signature the constructor passes the signature
assertion and goes on to the chunk loop on the rest of the file. -/
theorem new_signature_match (realSig0 : List Nat) (u : Nat → Uninit) (z : Zlib)
    (rest : List Nat) :
    PNGFile.new realSig0 u z (expectedSig ++ rest)
      = (chunkLoop u ((expectedSig ++ rest).length + 2) 0 {} (streamAt expectedSig rest)) >>=
          fun r =>
            (unfilterImage r.1.width_ r.1.height_ r.1.bpp_
              (inflateBuffer z r.1.compressedData_
                (List.replicate ((((r.1.rowBytes + 1) % U32) * r.1.height) % U32) 0)).2) >>=
            fun imageData => .ok { r.1 with imageData_ := imageData } := by
  unfold PNGFile.new
  have e : IStream.read { bytes := expectedSig ++ rest } 8
      = (expectedSig, streamAt expectedSig rest) := by
    have := IStream.read_exact [] expectedSig rest
    simpa [streamAt, expectedSig] using this
  have e2 : (overwrite realSig0 expectedSig).take 8 = expectedSig := by
    simp [overwrite, expectedSig]
  simp only [e, e2, ne_eq, not_true_eq_false, if_false]

/-- C6, at a failing input: on the empty file `read` extracts nothing, `realSig`
keeps its indeterminate bytes, and when those are the signature bytes the
assertion passes; the chunk loop is skipped (the stream has failed) and the
constructor completes with an empty image. -/
theorem new_empty_file_not_rejected :
    ∀ (u : Nat → Uninit) (z : Zlib), PNGFile.new expectedSig u z [] = .ok {} := by
  intro u z
  have hloop : chunkLoop u (([] : List Nat).length + 2) 0 {}
      { bytes := [], pos := 0, fail := true } = .ok ({}, { bytes := [], pos := 0, fail := true }) := by
    simp [chunkLoop]
  have hinfl : ∀ dest, dest = ([] : List Nat) → (inflateBuffer z [] dest).2 = [] := by
    intro dest hd
    subst hd
    unfold inflateBuffer
    split_ifs <;> simp [overwrite]
  have hsig : (overwrite expectedSig (IStream.read { bytes := [] } 8).1).take 8 = expectedSig := by
    decide
  have hrd : (IStream.read { bytes := [] } 8).2 = { bytes := [], pos := 0, fail := true } := by
    decide
  unfold PNGFile.new
  simp only [hsig, hrd, ne_eq, not_true_eq_false, if_false, hloop, bind, Except.bind]
  rw [hinfl _ (by decide)]
  rfl

/-! ## The compressed blob -/

/-- C9, at a failing input: the file is the signature and one complete IDAT chunk
with payload `[0x55]`. After that chunk the stream is still usable, so the loop
calls `nextChunk` once more; its header read extracts nothing and the dispatch is
on the indeterminate `chdr`. When that holds the tag `IDAT` and the length 2, two
zero bytes of `tempData` are appended: the blob is `[0x55, 0, 0]`, not the
concatenation `[0x55]` of the IDAT payloads. -/
theorem chunkLoop_blob_after_last_chunk :
    (chunkLoop (fun _ => { chdr := [0, 0, 0, 2] ++ tagIDAT, ihdr := List.replicate 13 0 })
        ((encodeStream [⟨tagIDAT, [0x55], [1, 2, 3, 4]⟩]).length + 2) 0 {}
        (streamAt expectedSig (Chunk.encode ⟨tagIDAT, [0x55], [1, 2, 3, 4]⟩))).map
      (fun r => r.1.compressedData_) = .ok [0x55, 0, 0] ∧
    idatPayloads [⟨tagIDAT, [0x55], [1, 2, 3, 4]⟩] = [0x55] := by
  decide


/-! ## Decompression failure -/

/-- C11, at a failing input: the file is the signature, the IHDR of a 1 x 1 grayscale
image, an IDAT chunk with the blob `[0x55]` and IEND; the decompressor reports
failure on that blob (`inflateBuffer` returns `Z_DATA_ERROR`, nothing is written).
The constructor drops the value `inflateBuffer` returns: decoding does not fail
and the zero-filled 2-byte buffer is reconstructed and kept as the image. -/
theorem new_ignores_inflate_failure :
    (inflateBuffer zlibFailing [0x55] [0, 0]).1 = zlibFailing.Z_DATA_ERROR ∧
    PNGFile.new (List.replicate 8 0) (fun _ => zeroUninit) zlibFailing
        (encodeStream [⟨tagIHDR, [0, 0, 0, 1, 0, 0, 0, 1, 8, 0, 0, 0, 0], [5, 6, 7, 8]⟩,
          ⟨tagIDAT, [0x55], [1, 2, 3, 4]⟩,
          ⟨tagIEND, [], [9, 10, 11, 12]⟩])
      = .ok { width_ := 1, height_ := 1, bpp_ := 1, compressedData_ := [0x55],
              imageData_ := [0, 0] } := by
  decide

/-! ## Chunks the decoder does not interpret -/

/-- C12: in every decoder state, on every complete chunk whose tag is neither `IHDR`
nor `IDAT` (whatever its length and payload), `nextChunk` does not fail and leaves
width, height, bytesPerPixel and the compressed blob unchanged. -/
theorem nextChunk_other_tag_ignored (u : Uninit) (f : PNGFile) (pre payload crc rest : List Nat)
    (t0 t1 t2 t3 : Nat) (h0 : t0 < 256) (h1 : t1 < 256) (h2 : t2 < 256) (h3 : t3 < 256)
    (hH : [t0, t1, t2, t3] ≠ tagIHDR) (hD : [t0, t1, t2, t3] ≠ tagIDAT)
    (hn : payload.length < 2 ^ 32) (hc : crc.length = 4) :
    ∃ g png,
      nextChunk u f (streamAt pre (Chunk.encode ⟨[t0, t1, t2, t3], payload, crc⟩ ++ rest))
        = .ok (g, png) ∧
      g.width = f.width ∧ g.height = f.height ∧ g.bytesPerPixel = f.bytesPerPixel ∧
      g.compressedData_ = f.compressedData_ :=
  ⟨f, _, nextChunk_other u f pre payload crc rest t0 t1 t2 t3 h0 h1 h2 h3 hH hD
    (by norm_num at hn; exact hn) hc, rfl, rfl, rfl, rfl⟩

/-- Instance of C12: an `IEND` chunk and a chunk with the unknown tag `tEXt`, met in
a state with a parsed header and a non-empty blob. -/
theorem nextChunk_other_tag_ignored_witness :
    (∃ g png,
      nextChunk zeroUninit { width_ := 2, height_ := 3, bpp_ := 4, compressedData_ := [7] }
          (streamAt expectedSig (Chunk.encode ⟨[0x49, 0x45, 0x4E, 0x44], [], [1, 2, 3, 4]⟩ ++ []))
        = .ok (g, png) ∧
      g.width = 2 ∧ g.height = 3 ∧ g.bytesPerPixel = 4 ∧ g.compressedData_ = [7]) ∧
    (∃ g png,
      nextChunk zeroUninit { width_ := 2, height_ := 3, bpp_ := 4, compressedData_ := [7] }
          (streamAt expectedSig
            (Chunk.encode ⟨[0x74, 0x45, 0x58, 0x74], [0x49, 0x44, 0x41, 0x54, 9], [1, 2, 3, 4]⟩
              ++ [5]))
        = .ok (g, png) ∧
      g.width = 2 ∧ g.height = 3 ∧ g.bytesPerPixel = 4 ∧ g.compressedData_ = [7]) :=
  ⟨nextChunk_other_tag_ignored zeroUninit _ expectedSig [] [1, 2, 3, 4] []
      0x49 0x45 0x4E 0x44 (by decide) (by decide) (by decide) (by decide) (by decide) (by decide)
      (by decide) rfl,
   nextChunk_other_tag_ignored zeroUninit _ expectedSig [0x49, 0x44, 0x41, 0x54, 9] [1, 2, 3, 4]
      [5] 0x74 0x45 0x58 0x74 (by decide) (by decide) (by decide) (by decide) (by decide)
      (by decide) (by decide) rfl⟩

/-! ## Chunk framing -/

/-- The get position of a stream that has consumed `pre`. -/
theorem streamAt_pos (pre rest : List Nat) : (streamAt pre rest).pos = pre.length := rfl

/-- The length of a chunk on the wire. -/
theorem Chunk.encode_length (c : Chunk) (ht : c.tag.length = 4) (hc : c.crc.length = 4) :
    c.encode.length = 8 + c.payload.length + 4 := by
  simp only [Chunk.encode, be32, List.length_append, List.length_cons, List.length_nil, ht, hc]

/-- The stream the header case leaves when it does not fail: the one its `read` of
13 bytes leaves. -/
theorem headerCase_stream (u : Uninit) (f g : PNGFile) (s t : IStream)
    (h : headerCase u f s = .ok (g, t)) : t = (s.read 13).2 := by
  unfold headerCase at h
  simp only at h
  split_ifs at h
  all_goals first
    | (cases h; done)
    | (cases h; rfl)

/-- A `read` of 13 bytes and the `seekg` over 4 bytes after it, on a usable stream
with `tail` left: with 13 bytes or more left the stream moves by 17 and stays
usable, with fewer it moves to the end of the file and has failed. -/
theorem read13_seek4 (pre tail : List Nat) :
    (((streamAt pre tail).read 13).2.seekgCur 4).pos
        = pre.length + (if 13 ≤ tail.length then 13 + 4 else tail.length) ∧
      ((((streamAt pre tail).read 13).2.seekgCur 4).fail = true ↔ tail.length < 13) := by
  by_cases h : 13 ≤ tail.length
  · have e : (streamAt pre tail).read 13
        = (tail.take 13, { bytes := pre ++ tail, pos := pre.length + 13, fail := false }) := by
      have hm : min 13 tail.length = 13 := by omega
      simp [IStream.read, streamAt, hm]
    rw [e]
    have hlt : ¬ tail.length < 13 := by omega
    simp [IStream.seekgCur, h, hlt]
  · have e : (streamAt pre tail).read 13
        = (tail.take 13, { bytes := pre ++ tail, pos := pre.length + tail.length, fail := true }) := by
      have hm : min 13 tail.length = tail.length := by omega
      have hlt : tail.length < 13 := by omega
      simp [IStream.read, streamAt, hm, hlt]
    rw [e]
    have hlt : tail.length < 13 := by omega
    simp [IStream.seekgCur, h, hlt]

/-- One call of `nextChunk` on a chunk header tagged `IHDR` that does not fail leaves
the stream that the 13-byte `read` and the `seekg` over 4 bytes leave, whatever
the length field says. -/
theorem nextChunk_IHDR_stream (u : Uninit) (f g : PNGFile) (pre tail : List Nat)
    (a b c d : Nat) (png : IStream)
    (h : nextChunk u f (streamAt pre ([a, b, c, d] ++ tagIHDR ++ tail)) = .ok (g, png)) :
    png = ((streamAt (pre ++ [a, b, c, d] ++ tagIHDR) tail).read 13).2.seekgCur 4 := by
  have h2 := nextChunk_of_header u f pre tail a b c d 0x49 0x48 0x44 0x52
  have e : le32 [0x49, 0x48, 0x44, 0x52] 0 = HeaderChunk := tag_IHDR
  rw [if_pos e] at h2
  simp only [tagIHDR, List.append_assoc, List.cons_append, List.nil_append] at h h2 ⊢
  rw [h2] at h
  cases hh : headerCase u f (streamAt (pre ++ [a, b, c, d, 0x49, 0x48, 0x44, 0x52]) tail) with
  | error e => rw [hh] at h; cases h
  | ok r =>
    obtain ⟨g1, s2⟩ := r
    rw [hh] at h
    simp only [bind, Except.bind, Except.ok.injEq, Prod.mk.injEq] at h
    rw [← h.2, headerCase_stream u f g1 _ s2 hh]

/-- C14, counterexample: a complete IHDR chunk whose length field is 14 (13 valid
header bytes and one more payload byte) is accepted, and the stream is left
`8 + 13 + 4 = 25` bytes further, one byte short of the end of the chunk at
`8 + 14 + 4 = 26`. -/
theorem nextChunk_IHDR_length_14_position :
    (nextChunk zeroUninit {} (streamAt expectedSig
        (Chunk.encode ⟨tagIHDR, [0, 0, 0, 1, 0, 0, 0, 1, 8, 0, 0, 0, 0, 99], [1, 2, 3, 4]⟩))).map
      (fun r => r.2.pos) = .ok (8 + 25) ∧
    (Chunk.encode ⟨tagIHDR, [0, 0, 0, 1, 0, 0, 0, 1, 8, 0, 0, 0, 0, 99], [1, 2, 3, 4]⟩).length
      = 26 := by
  decide

/-- C14 (as amended): on a complete IDAT chunk, and on a complete chunk tagged
neither `IHDR` nor `IDAT`, `nextChunk` leaves the stream at the first byte after
the CRC, `8 + dataSize + 4` bytes further. On a chunk header tagged `IHDR` that is
followed by 13 bytes passing the header assertions, it succeeds and leaves the
stream `8 + 13 + 4` bytes further whatever the length field says. On every
complete IHDR chunk that it accepts, with `dataSize` payload bytes, 4 CRC bytes
and `rest` after them: when `dataSize + 4 + rest.length` is 13 or more the
stream is left usable and `8 + 13 + 4` bytes further; otherwise the 13-byte
`read` is short, the stream is left failed and at the end of the file,
`8 + dataSize + 4 + rest.length` bytes further. That position is the first
byte after the CRC exactly when `dataSize = 13`, or `dataSize ≤ 8` and the chunk
ends the file. The position never moves back. -/
theorem nextChunk_position (u : Uninit) (f : PNGFile) (pre payload crc rest len : List Nat)
    (t0 t1 t2 t3 w0 w1 w2 w3 h0 h1 h2 h3 ct cm : Nat)
    (ht : t0 < 256 ∧ t1 < 256 ∧ t2 < 256 ∧ t3 < 256)
    (hH : [t0, t1, t2, t3] ≠ tagIHDR) (hn : payload.length < 2 ^ 32) (hc : crc.length = 4)
    (hl : len.length = 4) (hct : ct ≠ 3) :
    (∃ g png,
      nextChunk u f (streamAt pre (Chunk.encode ⟨[t0, t1, t2, t3], payload, crc⟩ ++ rest))
        = .ok (g, png) ∧
      png.pos = (streamAt pre rest).pos + (8 + payload.length + 4)) ∧
    (∃ g png,
      nextChunk u f (streamAt pre
          (len ++ tagIHDR ++ [w0, w1, w2, w3, h0, h1, h2, h3, 8, ct, cm, 0, 0] ++ rest))
        = .ok (g, png) ∧
      png.pos = (streamAt pre rest).pos + (8 + 13 + 4)) ∧
    (∀ g png,
      nextChunk u f (streamAt pre (Chunk.encode ⟨tagIHDR, payload, crc⟩ ++ rest)) = .ok (g, png) →
        png.pos = (streamAt pre rest).pos +
            (if 13 ≤ payload.length + 4 + rest.length then 8 + 13 + 4
             else 8 + payload.length + 4 + rest.length) ∧
          (png.fail = true ↔ payload.length + 4 + rest.length < 13) ∧
          (png.pos = (streamAt pre rest).pos + (8 + payload.length + 4)
            ↔ payload.length = 13 ∨ (payload.length ≤ 8 ∧ rest = []))) := by
  have hn' : payload.length < 4294967296 := by norm_num at hn; exact hn
  refine ⟨?_, ?_, ?_⟩
  · by_cases hD : [t0, t1, t2, t3] = tagIDAT
    · rw [hD, nextChunk_IDAT u f pre payload crc rest hn' hc]
      refine ⟨_, _, rfl, ?_⟩
      rw [streamAt_pos, streamAt_pos, List.length_append,
        Chunk.encode_length ⟨tagIDAT, payload, crc⟩ rfl hc]
    · rw [nextChunk_other u f pre payload crc rest t0 t1 t2 t3 ht.1 ht.2.1 ht.2.2.1 ht.2.2.2 hH hD
        hn' hc]
      refine ⟨_, _, rfl, ?_⟩
      rw [streamAt_pos, streamAt_pos, List.length_append,
        Chunk.encode_length ⟨[t0, t1, t2, t3], payload, crc⟩ rfl hc]
  · rw [nextChunk_IHDR u f pre len rest w0 w1 w2 w3 h0 h1 h2 h3 8 ct cm 0 0 hl]
    have h5 : ct ≠ ColorType.Palette := by simp only [ColorType.Palette]; exact hct
    rw [if_neg (by omega), if_neg h5, if_neg (by omega), if_neg (by omega)]
    refine ⟨_, _, rfl, ?_⟩
    simp only [IStream.seekgCur, streamAt, Bool.false_eq_true, if_false, List.length_append, hl,
      tagIHDR, List.length_cons, List.length_nil]
  · intro g png h
    have e : Chunk.encode ⟨tagIHDR, payload, crc⟩ ++ rest
        = [payload.length / 16777216 % 256, payload.length / 65536 % 256,
            payload.length / 256 % 256, payload.length % 256] ++ tagIHDR
          ++ (payload ++ crc ++ rest) := by
      simp only [Chunk.encode, be32, List.append_assoc]
    rw [e] at h
    have hs := nextChunk_IHDR_stream u f g pre (payload ++ crc ++ rest) _ _ _ _ png h
    have hr := read13_seek4 (pre ++ [payload.length / 16777216 % 256, payload.length / 65536 % 256,
      payload.length / 256 % 256, payload.length % 256] ++ tagIHDR) (payload ++ crc ++ rest)
    rw [← hs] at hr
    have hlen : (payload ++ crc ++ rest).length = payload.length + 4 + rest.length := by
      simp only [List.length_append, hc]
    have hpre : (pre ++ [payload.length / 16777216 % 256, payload.length / 65536 % 256,
        payload.length / 256 % 256, payload.length % 256] ++ tagIHDR).length = pre.length + 8 := by
      simp only [List.length_append, List.length_cons, List.length_nil, tagIHDR]
    rw [hlen, hpre] at hr
    obtain ⟨hp, hf⟩ := hr
    have hrest : rest = [] ↔ rest.length = 0 := List.length_eq_zero.symm
    rw [streamAt_pos, hp, hf, hrest]
    refine ⟨?_, Iff.rfl, ?_⟩
    · split_ifs <;> omega
    · split_ifs <;> omega

/-- Instances of C14 (as amended): a `tEXt` chunk with a 2-byte payload moves the
stream by 14 and an IHDR chunk by 25; an accepted IHDR chunk with length field 14
followed by one more byte leaves the stream usable and 25 bytes further, one
short of the end of the chunk; an accepted IHDR chunk with length field 8 that
ends the file leaves the stream failed and 20 bytes further, at the end of the
file. -/
theorem nextChunk_position_witness :
    ((∃ g png,
      nextChunk zeroUninit {}
          (streamAt expectedSig (Chunk.encode ⟨[0x74, 0x45, 0x58, 0x74], [5, 6], [1, 2, 3, 4]⟩ ++ [9]))
        = .ok (g, png) ∧
      png.pos = (streamAt expectedSig [9]).pos + (8 + ([5, 6] : List Nat).length + 4)) ∧
    (∃ g png,
      nextChunk zeroUninit {} (streamAt expectedSig
          ([0, 0, 0, 13] ++ tagIHDR ++ [0, 0, 0, 1, 0, 0, 0, 1, 8, 0, 0, 0, 0] ++ [9]))
        = .ok (g, png) ∧
      png.pos = (streamAt expectedSig [9]).pos + (8 + 13 + 4))) ∧
    (∃ g png,
      nextChunk zeroUninit {} (streamAt expectedSig
          (Chunk.encode ⟨tagIHDR, [0, 0, 0, 1, 0, 0, 0, 1, 8, 0, 0, 0, 0, 99], [1, 2, 3, 4]⟩ ++ [9]))
        = .ok (g, png) ∧
      png.pos = 8 + 25 ∧ ¬ png.fail = true) ∧
    (∃ g png,
      nextChunk zeroUninit {} (streamAt expectedSig
          (Chunk.encode ⟨tagIHDR, [0, 0, 0, 2, 0, 0, 0, 5], [8, 4, 0, 0]⟩ ++ []))
        = .ok (g, png) ∧
      png.pos = 8 + 20 ∧ png.fail = true) := by
  have a := nextChunk_position zeroUninit {} expectedSig [5, 6] [1, 2, 3, 4] [9] [0, 0, 0, 13]
    0x74 0x45 0x58 0x74 0 0 0 1 0 0 0 1 0 0 (by decide) (by decide) (by decide) rfl rfl
    (by decide)
  have b := (nextChunk_position zeroUninit {} expectedSig
    [0, 0, 0, 1, 0, 0, 0, 1, 8, 0, 0, 0, 0, 99] [1, 2, 3, 4] [9] [0, 0, 0, 13]
    0x74 0x45 0x58 0x74 0 0 0 1 0 0 0 1 0 0 (by decide) (by decide) (by decide) rfl rfl
    (by decide)).2.2
  have c := (nextChunk_position zeroUninit {} expectedSig
    [0, 0, 0, 2, 0, 0, 0, 5] [8, 4, 0, 0] [] [0, 0, 0, 13]
    0x74 0x45 0x58 0x74 0 0 0 1 0 0 0 1 0 0 (by decide) (by decide) (by decide) rfl rfl
    (by decide)).2.2
  have e1 : nextChunk zeroUninit {} (streamAt expectedSig
      (Chunk.encode ⟨tagIHDR, [0, 0, 0, 1, 0, 0, 0, 1, 8, 0, 0, 0, 0, 99], [1, 2, 3, 4]⟩ ++ [9]))
      = .ok (({ width_ := 1, height_ := 1, bpp_ := 1 } : PNGFile),
          ({ bytes := expectedSig ++ (Chunk.encode
              ⟨tagIHDR, [0, 0, 0, 1, 0, 0, 0, 1, 8, 0, 0, 0, 0, 99], [1, 2, 3, 4]⟩ ++ [9]),
             pos := 33, fail := false } : IStream)) := by decide
  have e2 : nextChunk zeroUninit {} (streamAt expectedSig
      (Chunk.encode ⟨tagIHDR, [0, 0, 0, 2, 0, 0, 0, 5], [8, 4, 0, 0]⟩ ++ []))
      = .ok (({ width_ := 2, height_ := 5, bpp_ := 2 } : PNGFile),
          ({ bytes := expectedSig
              ++ (Chunk.encode ⟨tagIHDR, [0, 0, 0, 2, 0, 0, 0, 5], [8, 4, 0, 0]⟩ ++ []),
             pos := 28, fail := true } : IStream)) := by decide
  exact ⟨⟨a.1, a.2.1⟩, ⟨_, _, e1, (b _ _ e1).1, fun hf => by cases hf⟩,
    ⟨_, _, e2, (c _ _ e2).1, (c _ _ e2).2.1.mpr (by decide)⟩⟩

/-! ## The Paeth predictor -/

/-- The `std::abs` of the embedding is the absolute value. -/
theorem absInt_eq (x : Int) : absInt x = |x| := by
  unfold absInt
  split_ifs with h
  · rw [abs_of_neg h]
  · rw [abs_of_nonneg (by omega)]

/-- The lambda `paethPredictor` is the Paeth predictor of section 4.2. -/
theorem paethPredictor_eq_specPaeth (a b c : Int) : paethPredictor a b c = specPaeth a b c := by
  unfold paethPredictor specPaeth
  simp only [absInt_eq]

/-- C15: for all integers a, b, c (in particular all a, b, c in [0, 255]), with
`p = a + b - c`, `pa = |p - a|`, `pb = |p - b|`, `pc = |p - c|` in integer
arithmetic, `paethPredictor a b c` is `a` when `pa ≤ pb` and `pa ≤ pc`, otherwise
`b` when `pb ≤ pc`, otherwise `c`; in particular it is `a` whenever
`pa = pb = pc`. -/
theorem paethPredictor_tie_break (a b c : Int) :
    paethPredictor a b c
        = (if |(a + b - c) - a| ≤ |(a + b - c) - b| ∧ |(a + b - c) - a| ≤ |(a + b - c) - c| then a
           else if |(a + b - c) - b| ≤ |(a + b - c) - c| then b
           else c) ∧
    (|(a + b - c) - a| = |(a + b - c) - b| → |(a + b - c) - b| = |(a + b - c) - c| →
      paethPredictor a b c = a) := by
  have h := paethPredictor_eq_specPaeth a b c
  unfold specPaeth at h
  refine ⟨h, fun h1 h2 => ?_⟩
  rw [h]
  simp only
  rw [if_pos ⟨le_of_eq h1, le_of_eq (h1.trans h2)⟩]

/-- Instance of C15: with a = b = c = 5 all three distances are 0 and the predictor
is a. -/
theorem paethPredictor_tie_break_witness : paethPredictor 5 5 5 = 5 :=
  (paethPredictor_tie_break 5 5 5).2 (by decide) (by decide)


/-! ## The row accessor -/

/-- C17: for every image with `(rowBytes + 1) * height < 2^32` and every row index
`r < height`, `rowDataPointer r` is the offset `r * (rowBytes + 1) + 1`; the
`rowBytes` bytes from there lie inside the pixel buffer of
`(rowBytes + 1) * height` bytes (the size the constructor gives it), and none of
them is at a filter-type position `k * (rowBytes + 1)`. -/
theorem rowDataPointer_view (f : PNGFile) (r : Nat)
    (hsz : (f.rowBytes + 1) * f.height < 2 ^ 32) (hr : r < f.height) :
    f.rowDataPointer r = ((r * (f.rowBytes + 1) + 1 : Nat) : Int) ∧
    (((f.rowBytes + 1) % U32) * f.height) % U32 = (f.rowBytes + 1) * f.height ∧
    r * (f.rowBytes + 1) + 1 + f.rowBytes ≤ (f.rowBytes + 1) * f.height ∧
    ∀ j k : Nat, j < f.rowBytes → r * (f.rowBytes + 1) + 1 + j ≠ k * (f.rowBytes + 1) := by
  have hU : U32 = 2 ^ 32 := by norm_num [U32]
  have hh : 1 ≤ f.height := by omega
  have h1 : f.rowBytes + 1 ≤ (f.rowBytes + 1) * f.height := Nat.le_mul_of_pos_right _ hh
  have h2 : r * (f.rowBytes + 1) + (f.rowBytes + 1) ≤ (f.rowBytes + 1) * f.height := by
    have : (r + 1) * (f.rowBytes + 1) ≤ f.height * (f.rowBytes + 1) :=
      Nat.mul_le_mul_right _ hr
    rw [Nat.mul_comm (f.rowBytes + 1) f.height]
    calc r * (f.rowBytes + 1) + (f.rowBytes + 1) = (r + 1) * (f.rowBytes + 1) := by ring
      _ ≤ f.height * (f.rowBytes + 1) := this
  have e1 : (f.rowBytes + 1) % U32 = f.rowBytes + 1 := by
    rw [hU]; exact Nat.mod_eq_of_lt (by omega)
  refine ⟨?_, ?_, by omega, ?_⟩
  · unfold PNGFile.rowDataPointer
    rw [e1, hU, Nat.mod_eq_of_lt (by omega)]
    push_cast
    ring
  · rw [e1, hU, Nat.mod_eq_of_lt hsz]
  · intro j k hj heq
    -- `k` would lie strictly between `r` and `r + 1`
    have hlo : r * (f.rowBytes + 1) < k * (f.rowBytes + 1) := by omega
    have hhi : k * (f.rowBytes + 1) < (r + 1) * (f.rowBytes + 1) := by
      have : (r + 1) * (f.rowBytes + 1) = r * (f.rowBytes + 1) + (f.rowBytes + 1) := by ring
      omega
    have h3 : r < k := Nat.lt_of_mul_lt_mul_right hlo
    have h4 : k < r + 1 := Nat.lt_of_mul_lt_mul_right hhi
    omega

/-- Instance of C17: row 1 of a 2 x 3 RGB image starts at offset 8. -/
theorem rowDataPointer_view_witness :
    PNGFile.rowDataPointer { width_ := 2, height_ := 3, bpp_ := 3 } 1 = ((1 * (6 + 1) + 1 : Nat) : Int) :=
  (rowDataPointer_view { width_ := 2, height_ := 3, bpp_ := 3 } 1 (by decide) (by decide)).1

/-! ## A second header -/

/-- C20, at failing inputs, all with filter-type bytes in 0..4 at the offsets
`r * (rowBytes + 1)`. (1) 1 x 1 image, row 0 Up: the loop reads offset -1.
(2) 2 x 2 image, one byte per pixel, row 0 Average, row 1 Sub: iteration 0 ends
with the cursor at offset 4, not at the start of row 1 (offset 3), and iteration
1 dereferences offset 6, past the 6-byte buffer. (3) The same image with row 0
Paeth: the cursor is at offset 4 after iteration 0 and iteration 1 dereferences
offset 6. The same cursor slip on a 1 x 1 image with two bytes per pixel and row
0 Paeth leaves the cursor at offset 5 past the 3-byte buffer; with no further row
nothing is dereferenced there. -/
theorem unfilterImage_bounds_failures :
    unfilterImage 1 1 1 [2, 7] = .error (.outOfBounds (-1)) ∧
    (unfilterRow 2 1 0 0 [3, 0, 0, 1, 1, 0]).map (fun r => r.1) = .ok 4 ∧
    unfilterImage 2 2 1 [3, 0, 0, 1, 1, 0] = .error (.outOfBounds 6) ∧
    (unfilterRow 1 2 0 0 [4, 0, 0]).map (fun r => r.1) = .ok 5 ∧
    (unfilterRow 2 1 0 0 [4, 0, 0, 1, 1, 0]).map (fun r => r.1) = .ok 4 ∧
    unfilterImage 2 2 1 [4, 0, 0, 1, 1, 0] = .error (.outOfBounds 6) := by
  decide


/-! ## The CRC bytes are not interpreted -/

/-- A payload of 13 bytes, spelled out. -/
theorem len13 (p : List Nat) (h : p.length = 13) :
    ∃ w0 w1 w2 w3 h0 h1 h2 h3 bd ct cm fm il,
      p = [w0, w1, w2, w3, h0, h1, h2, h3, bd, ct, cm, fm, il] := by
  match p, h with
  | [w0, w1, w2, w3, h0, h1, h2, h3, bd, ct, cm, fm, il], _ =>
    exact ⟨w0, w1, w2, w3, h0, h1, h2, h3, bd, ct, cm, fm, il, rfl⟩

/-- One call of `nextChunk` on a framed complete chunk: the decoder members change
as `chunkEffect` says and the stream is left behind the chunk; the CRC bytes play
no part. -/
theorem nextChunk_framed (u : Uninit) (f : PNGFile) (pre rest : List Nat) (c : Chunk)
    (hc : c.Framed) :
    nextChunk u f (streamAt pre (c.encode ++ rest))
      = (chunkEffect f c).map (fun g => (g, streamAt (pre ++ c.encode) rest)) := by
  obtain ⟨tag, payload, crc⟩ := c
  obtain ⟨⟨t0, t1, t2, t3, ht, h0, h1, h2, h3⟩, hn, hcrc, hhdr⟩ := hc
  simp only at ht hn hcrc hhdr
  subst ht
  unfold chunkEffect
  by_cases hH : [t0, t1, t2, t3] = tagIHDR
  · obtain ⟨w0, w1, w2, w3, g0, g1, g2, g3, bd, ct, cm, fm, il, hp⟩ := len13 payload (hhdr hH)
    subst hp
    have h := nextChunk_IHDR u f pre (be32 13) (crc ++ rest) w0 w1 w2 w3 g0 g1 g2 g3 bd ct cm fm il rfl
    have e4 := IStream.seekgCur_exact
      (pre ++ be32 13 ++ tagIHDR ++ [w0, w1, w2, w3, g0, g1, g2, g3, bd, ct, cm, fm, il]) crc rest
    rw [hcrc] at e4
    rw [e4] at h
    simp only [Chunk.encode, hH, List.length_cons, List.length_nil, List.append_assoc, if_true]
      at h ⊢
    rw [h]
    simp only [headerFields, le32, List.getD_cons_succ, List.getD_cons_zero]
    split_ifs <;> rfl
  · by_cases hD : [t0, t1, t2, t3] = tagIDAT
    · have hne : ¬ tagIDAT = tagIHDR := by decide
      rw [hD]
      simp only [hne, if_false, if_true]
      rw [nextChunk_IDAT u f pre payload crc rest hn hcrc]
      rfl
    · simp only [hH, hD, if_false]
      rw [nextChunk_other u f pre payload crc rest t0 t1 t2 t3 h0 h1 h2 h3 hH hD hn hcrc]
      rfl

/-- The header case on a failed stream works on the indeterminate `ihdr`. -/
theorem headerCase_failed (u : Uninit) (f : PNGFile) (s : IStream) (hs : s.fail = true) :
    headerCase u f s = (headerFields f u.ihdr).map (fun g => (g, s)) := by
  unfold headerCase
  rw [IStream.read_fail s 13 hs]
  have e : overwrite u.ihdr [] = u.ihdr := rfl
  simp only [e, headerFields]
  split_ifs <;> rfl

/-- The call of `nextChunk` at the end of the file: the decoder members change as
`endEffect` says and the stream has failed. -/
theorem nextChunk_at_end_effect (u : Uninit) (f : PNGFile) (pre : List Nat) :
    nextChunk u f (streamAt pre [])
      = (endEffect u f).map
          (fun g => (g, { bytes := pre ++ [], pos := pre.length, fail := true })) := by
  unfold nextChunk
  have e : (streamAt pre []).read 8
      = ([], { bytes := pre ++ [], pos := pre.length, fail := true }) := by
    simp [IStream.read, streamAt]
  have e2 : overwrite u.chdr [] = u.chdr := rfl
  simp only [e, e2, endEffect]
  split_ifs with c1 c2
  · rw [headerCase_failed u f _ rfl]
    cases headerFields f u.ihdr <;> rfl
  · unfold imageDataCase
    rw [IStream.read_fail _ _ rfl]
    simp only [overwrite, List.nil_append, List.length_nil, List.drop_zero, List.take_replicate,
      IStream.seekgCur, if_true, bind, Except.bind, Except.map]
    rw [Nat.min_eq_left (Nat.le_max_right _ _)]
  · rfl

/-- The chunk loop on a stream of framed complete chunks: the decoder members are
folded through `chunkEffect` over the chunks in order, then through `endEffect`
for the extra call at the end of the file. -/
theorem chunkLoop_framed (u : Nat → Uninit) :
    ∀ (cs : List Chunk) (fuel i : Nat) (f : PNGFile) (pre : List Nat),
      cs.length + 2 ≤ fuel → (∀ c ∈ cs, c.Framed) →
      (chunkLoop u fuel i f (streamAt pre (cs.map Chunk.encode).flatten)).map (fun r => r.1)
        = cs.foldlM chunkEffect f >>= endEffect (u (i + cs.length)) := by
  intro cs
  induction cs with
  | nil =>
    intro fuel i f pre hfuel _
    obtain ⟨n, rfl⟩ : ∃ n, fuel = n + 2 := ⟨fuel - 2, by simp at hfuel; omega⟩
    simp only [List.map_nil, List.flatten_nil, List.length_nil, Nat.add_zero, List.foldlM_nil]
    rw [chunkLoop]
    have e : (streamAt pre []).fail = false := rfl
    simp only [e, Bool.false_eq_true, if_false]
    rw [nextChunk_at_end_effect]
    show _ = endEffect (u i) f
    cases endEffect (u i) f with
    | error e => rfl
    | ok g =>
      simp only [Except.map, bind, Except.bind]
      rw [chunkLoop]
      simp
  | cons c cs ih =>
    intro fuel i f pre hfuel hfr
    obtain ⟨n, rfl⟩ : ∃ n, fuel = n + 1 := ⟨fuel - 1, by simp at hfuel; omega⟩
    have hstep := nextChunk_framed (u i) f pre (cs.map Chunk.encode).flatten c
      (hfr c (List.mem_cons_self _ _))
    have hidx : i + 1 + cs.length = i + (c :: cs).length := by simp; omega
    simp only [List.map_cons, List.flatten_cons, List.foldlM_cons]
    rw [chunkLoop]
    have e : (streamAt pre (c.encode ++ (cs.map Chunk.encode).flatten)).fail = false := rfl
    simp only [e, Bool.false_eq_true, if_false, hstep]
    cases chunkEffect f c with
    | error e => rfl
    | ok g =>
      simp only [Except.map, bind, Except.bind]
      have := ih n (i + 1) g (pre ++ c.encode) (by simp at hfuel; omega)
        (fun d hd => hfr d (List.mem_cons_of_mem _ hd))
      rw [hidx] at this
      exact this

/-- The effect of a chunk on the decoder members does not depend on its CRC. -/
theorem foldlM_chunkEffect_congr :
    ∀ (cs ds : List Chunk) (f : PNGFile),
      cs.map (fun c => (c.tag, c.payload)) = ds.map (fun c => (c.tag, c.payload)) →
      cs.foldlM chunkEffect f = ds.foldlM chunkEffect f := by
  intro cs
  induction cs with
  | nil =>
    intro ds f h
    cases ds with
    | nil => rfl
    | cons d ds => simp at h
  | cons c cs ih =>
    intro ds f h
    cases ds with
    | nil => simp at h
    | cons d ds =>
      simp only [List.map_cons, List.cons.injEq, Prod.mk.injEq] at h
      obtain ⟨⟨ht, hp⟩, hrest⟩ := h
      have e : chunkEffect f c = chunkEffect f d := by
        unfold chunkEffect
        rw [ht, hp]
      simp only [List.foldlM_cons, e]
      cases chunkEffect f d with
      | error e => rfl
      | ok g => exact ih ds g hrest

/-- A stream has at least as many bytes as chunks. -/
theorem length_le_encoded (cs : List Chunk) : cs.length ≤ ((cs.map Chunk.encode).flatten).length := by
  induction cs with
  | nil => simp
  | cons c cs ih =>
    simp only [List.map_cons, List.flatten_cons, List.length_append, List.length_cons]
    have : 1 ≤ c.encode.length := by
      simp [Chunk.encode, be32]
    omega

/-- C13: two well-formed streams (signature, then framed complete chunks) that are
identical except for the CRC bytes of their chunks give the chunk reader the same
result: the same width, height, bytesPerPixel and compressed blob when it
succeeds, and the same failure when it fails. -/
theorem chunkLoop_crc_independent (u : Nat → Uninit) (cs ds : List Chunk)
    (hcs : ∀ c ∈ cs, c.Framed) (hds : ∀ c ∈ ds, c.Framed)
    (hsame : cs.map (fun c => (c.tag, c.payload)) = ds.map (fun c => (c.tag, c.payload))) :
    (chunkLoop u ((encodeStream cs).length + 2) 0 {}
        (streamAt expectedSig (cs.map Chunk.encode).flatten)).map (fun r => r.1)
      = (chunkLoop u ((encodeStream ds).length + 2) 0 {}
        (streamAt expectedSig (ds.map Chunk.encode).flatten)).map (fun r => r.1) := by
  have hlen : cs.length = ds.length := by
    have := congrArg List.length hsame
    simpa using this
  have h1 := chunkLoop_framed u cs ((encodeStream cs).length + 2) 0 {} expectedSig
    (by have := length_le_encoded cs; simp only [encodeStream, List.length_append]; omega) hcs
  have h2 := chunkLoop_framed u ds ((encodeStream ds).length + 2) 0 {} expectedSig
    (by have := length_le_encoded ds; simp only [encodeStream, List.length_append]; omega) hds
  rw [h1, h2, hlen, foldlM_chunkEffect_congr cs ds {} hsame]

/-- A chunk with a four-byte tag, a payload shorter than 2^32 and four CRC bytes is
framed when its payload has 13 bytes or its tag is not `IHDR`. -/
theorem framed_of (t0 t1 t2 t3 : Nat) (payload crc : List Nat)
    (ht : t0 < 256 ∧ t1 < 256 ∧ t2 < 256 ∧ t3 < 256) (hn : payload.length < 4294967296)
    (hc : crc.length = 4) (hh : [t0, t1, t2, t3] = tagIHDR → payload.length = 13) :
    Chunk.Framed ⟨[t0, t1, t2, t3], payload, crc⟩ :=
  ⟨⟨t0, t1, t2, t3, rfl, ht.1, ht.2.1, ht.2.2.1, ht.2.2.2⟩, hn, hc, hh⟩

/-- Instance of C13: header, one IDAT chunk and IEND, with two different sets of
CRC bytes. -/
theorem chunkLoop_crc_independent_witness :
    (chunkLoop (fun _ => zeroUninit)
        ((encodeStream [⟨tagIHDR, [0, 0, 0, 1, 0, 0, 0, 1, 8, 0, 0, 0, 0], [5, 6, 7, 8]⟩,
          ⟨tagIDAT, [0x55], [1, 2, 3, 4]⟩, ⟨tagIEND, [], [9, 10, 11, 12]⟩]).length + 2) 0 {}
        (streamAt expectedSig
          ([⟨tagIHDR, [0, 0, 0, 1, 0, 0, 0, 1, 8, 0, 0, 0, 0], [5, 6, 7, 8]⟩,
            ⟨tagIDAT, [0x55], [1, 2, 3, 4]⟩, ⟨tagIEND, [], [9, 10, 11, 12]⟩].map
              Chunk.encode).flatten)).map (fun r => r.1)
      = (chunkLoop (fun _ => zeroUninit)
        ((encodeStream [⟨tagIHDR, [0, 0, 0, 1, 0, 0, 0, 1, 8, 0, 0, 0, 0], [0, 0, 0, 0]⟩,
          ⟨tagIDAT, [0x55], [73, 68, 65, 84]⟩, ⟨tagIEND, [], [255, 255, 255, 255]⟩]).length + 2) 0 {}
        (streamAt expectedSig
          ([⟨tagIHDR, [0, 0, 0, 1, 0, 0, 0, 1, 8, 0, 0, 0, 0], [0, 0, 0, 0]⟩,
            ⟨tagIDAT, [0x55], [73, 68, 65, 84]⟩, ⟨tagIEND, [], [255, 255, 255, 255]⟩].map
              Chunk.encode).flatten)).map (fun r => r.1) :=
  chunkLoop_crc_independent (fun _ => zeroUninit) _ _
    (by
      intro c hc
      simp only [List.mem_cons, List.mem_singleton, List.not_mem_nil, or_false] at hc
      rcases hc with rfl | rfl | rfl
      · exact framed_of _ _ _ _ _ _ (by decide) (by decide) rfl (fun _ => rfl)
      · exact framed_of _ _ _ _ _ _ (by decide) (by decide) rfl (fun h => absurd h (by decide))
      · exact framed_of _ _ _ _ _ _ (by decide) (by decide) rfl (fun h => absurd h (by decide)))
    (by
      intro c hc
      simp only [List.mem_cons, List.mem_singleton, List.not_mem_nil, or_false] at hc
      rcases hc with rfl | rfl | rfl
      · exact framed_of _ _ _ _ _ _ (by decide) (by decide) rfl (fun _ => rfl)
      · exact framed_of _ _ _ _ _ _ (by decide) (by decide) rfl (fun h => absurd h (by decide))
      · exact framed_of _ _ _ _ _ _ (by decide) (by decide) rfl (fun h => absurd h (by decide)))
    (by decide)


/-! ## Reconstruction: the inner loops -/

/-- The byte `k` places before the end of `P ++ D` lies in `D` when `D` is long
enough. -/
theorem getD_back (P D : List Nat) (k : Nat) (hk : k ≤ D.length) :
    (P ++ D).getD ((P ++ D).length - k) 0 = D.getD (D.length - k) 0 := by
  rw [List.length_append, List.getD_append_right _ _ _ _ (by omega)]
  congr 1
  omega

/-- The byte at place `j` of the middle part of `P ++ M ++ Q`. -/
theorem getD_mid (P M Q : List Nat) (j : Nat) (hj : j < M.length) :
    (P ++ M ++ Q).getD (P.length + j) 0 = M.getD j 0 := by
  rw [List.append_assoc, List.getD_append_right _ _ _ _ (by omega),
    List.getD_append _ _ _ _ (by omega)]
  congr 1
  omega

/-- The value `addv` stores is the sum modulo 256. -/
theorem addv_mod (x y : Nat) : addv x y % 256 = (x + y) % 256 := by
  unfold addv U32
  omega

/-- The lambda `paethPredictor` on bytes, converted to `uint32_t`, is the Paeth
predictor of section 4.2. -/
theorem toU32_paeth (a b c : Nat) (ha : a < 256) (hb : b < 256) (hc : c < 256) :
    toU32 (paethPredictor a b c) = (specPaeth a b c).toNat := by
  rw [paethPredictor_eq_specPaeth]
  unfold specPaeth toU32
  simp only
  split_ifs <;> omega

/-- The reconstructed bytes extend the bytes already reconstructed; their number is
the number of bytes of the row. -/
theorem decodeFrom_length (F bpp : Nat) (prev : List Nat) :
    ∀ (todo done : List Nat), (decodeFrom F bpp prev done todo).length = done.length + todo.length := by
  intro todo
  induction todo with
  | nil => intro done; simp [decodeFrom]
  | cons t ts ih =>
    intro done
    rw [decodeFrom, ih]
    simp
    omega

/-- Reconstructed bytes are bytes. -/
theorem decodeFrom_lt (F bpp : Nat) (prev : List Nat) :
    ∀ (todo done : List Nat), (∀ b ∈ done, b < 256) →
      ∀ b ∈ decodeFrom F bpp prev done todo, b < 256 := by
  intro todo
  induction todo with
  | nil => intro done hd; simpa [decodeFrom] using hd
  | cons t ts ih =>
    intro done hd
    rw [decodeFrom]
    apply ih
    intro b hb
    rw [List.mem_append] at hb
    rcases hb with hb | hb
    · exact hd b hb
    · simp only [List.mem_singleton] at hb
      rw [hb]
      unfold rowValue
      exact Nat.mod_lt _ (by norm_num)

/-- The Up loop on the rest `todo` of a row below the reconstructed row `prev`. -/
theorem upLoop_decode (bpp : Nat) (P prev post : List Nat) (F : Nat) :
    ∀ (todo done : List Nat), done.length + todo.length = prev.length →
      upLoop (prev.length + 1) todo.length (((P ++ prev ++ F :: done).length : Nat) : Int)
          ((P ++ prev ++ F :: done) ++ todo ++ post)
        = .ok ((P ++ prev ++ F :: decodeFrom 2 bpp prev done todo) ++ post) := by
  intro todo
  induction todo with
  | nil => intro done _; simp [upLoop, decodeFrom]
  | cons t ts ih =>
    intro done hlen
    simp only [List.length_cons] at hlen
    have hx : done.length < prev.length := by omega
    have hA : (P ++ prev ++ F :: done).length = P.length + prev.length + 1 + done.length := by
      simp only [List.length_append, List.length_cons]; omega
    have hb : (P ++ prev ++ F :: done).getD ((P ++ prev ++ F :: done).length - (prev.length + 1)) 0
        = prev.getD done.length 0 := by
      have e : (P ++ prev ++ F :: done).length - (prev.length + 1) = P.length + done.length := by
        rw [hA]; omega
      rw [e, getD_mid P prev (F :: done) done.length hx]
    rw [List.length_cons, upLoop, List.append_assoc, List.cons_append]
    rw [load_at _ _ _ _ rfl]
    simp only [bind, Except.bind]
    rw [load_back _ _ (prev.length + 1) _ (by omega) (by rw [hA]; omega) (by push_cast; ring)]
    simp only [hb]
    rw [store_at _ _ _ _ _ rfl]
    simp only [addv_mod]
    have hv : (t + prev.getD done.length 0) % 256 = rowValue 2 bpp prev done t := by
      unfold rowValue specPredictor
      simp
    rw [hv, decodeFrom]
    have := ih (done ++ [rowValue 2 bpp prev done t]) (by simp; omega)
    have e3 : (((P ++ prev ++ F :: (done ++ [rowValue 2 bpp prev done t])).length : Nat) : Int)
        = (((P ++ prev ++ F :: done).length : Nat) : Int) + 1 := by
      simp only [List.length_append, List.length_cons, List.length_nil]
      push_cast; ring
    rw [e3] at this
    simp only [List.append_assoc, List.cons_append, List.nil_append] at this ⊢
    exact this

/-- The Sub loop on the rest `todo` of a row of which at least `bpp` bytes are
reconstructed. -/
theorem subLoop_decode (bpp : Nat) (Q prev post : List Nat) (F : Nat) (hb : 1 ≤ bpp) :
    ∀ (todo done : List Nat), bpp ≤ done.length →
      subLoop bpp todo.length (((Q ++ F :: done).length : Nat) : Int)
          ((Q ++ F :: done) ++ todo ++ post)
        = .ok ((Q ++ F :: decodeFrom 1 bpp prev done todo) ++ post) := by
  intro todo
  induction todo with
  | nil => intro done _; simp [subLoop, decodeFrom]
  | cons t ts ih =>
    intro done hlen
    have hA : (Q ++ F :: done).length = Q.length + 1 + done.length := by
      simp only [List.length_append, List.length_cons]; omega
    have ha : (Q ++ F :: done).getD ((Q ++ F :: done).length - bpp) 0
        = done.getD (done.length - bpp) 0 := by
      have e : Q ++ F :: done = (Q ++ [F]) ++ done := by simp
      rw [e, getD_back (Q ++ [F]) done bpp hlen]
    rw [List.length_cons, subLoop, List.append_assoc, List.cons_append]
    rw [load_at _ _ _ _ rfl]
    simp only [bind, Except.bind]
    rw [load_back _ _ bpp _ hb (by rw [hA]; omega) rfl]
    simp only [ha]
    rw [store_at _ _ _ _ _ rfl]
    simp only [addv_mod]
    have hv : (t + done.getD (done.length - bpp) 0) % 256 = rowValue 1 bpp prev done t := by
      have hlt : ¬ done.length < bpp := by omega
      simp [rowValue, specPredictor, hlt]
    rw [hv, decodeFrom]
    have := ih (done ++ [rowValue 1 bpp prev done t]) (by simp; omega)
    have e3 : (((Q ++ F :: (done ++ [rowValue 1 bpp prev done t])).length : Nat) : Int)
        = (((Q ++ F :: done).length : Nat) : Int) + 1 := by
      simp only [List.length_append, List.length_cons, List.length_nil]
      push_cast; ring
    rw [e3] at this
    simp only [List.append_assoc, List.cons_append, List.nil_append] at this ⊢
    exact this

/-- The Average loop (`lineIx > 0`) on the rest `todo` of a row below the
reconstructed row `prev`. -/
theorem averageLoop_decode (bpp : Nat) (P prev post : List Nat) (F : Nat) (hb : 1 ≤ bpp)
    (hsz : prev.length + bpp < U32) :
    ∀ (todo done : List Nat), done.length + todo.length = prev.length →
      averageLoop bpp prev.length (prev.length + 1) todo.length
          (((P ++ prev ++ F :: done).length : Nat) : Int)
          ((P ++ prev ++ F :: done) ++ todo ++ post)
        = .ok ((P ++ prev ++ F :: decodeFrom 3 bpp prev done todo) ++ post) := by
  intro todo
  induction todo with
  | nil => intro done _; simp [averageLoop, decodeFrom]
  | cons t ts ih =>
    intro done hlen
    simp only [List.length_cons] at hlen
    have hx : done.length < prev.length := by omega
    have hA : (P ++ prev ++ F :: done).length = P.length + prev.length + 1 + done.length := by
      simp only [List.length_append, List.length_cons]; omega
    have hbv : (P ++ prev ++ F :: done).getD ((P ++ prev ++ F :: done).length - (prev.length + 1)) 0
        = prev.getD done.length 0 := by
      have e : (P ++ prev ++ F :: done).length - (prev.length + 1) = P.length + done.length := by
        rw [hA]; omega
      rw [e, getD_mid P prev (F :: done) done.length hx]
    have hcond : ((ts.length + 1 + bpp) % U32 ≤ prev.length) ↔ bpp ≤ done.length := by
      unfold U32 at hsz ⊢
      rw [Nat.mod_eq_of_lt (by omega)]
      omega
    rw [List.length_cons, averageLoop, List.append_assoc, List.cons_append]
    rw [load_at _ _ _ _ rfl]
    simp only [bind, Except.bind]
    have hrec : ∀ v, v = rowValue 3 bpp prev done t →
        averageLoop bpp prev.length (prev.length + 1) ts.length
            ((((P ++ prev ++ F :: done).length : Nat) : Int) + 1)
            ((P ++ prev ++ F :: done) ++ v :: (ts ++ post))
          = .ok ((P ++ prev ++ F :: decodeFrom 3 bpp prev (done ++ [rowValue 3 bpp prev done t]) ts)
              ++ post) := by
      intro v hv
      subst hv
      have := ih (done ++ [rowValue 3 bpp prev done t]) (by simp; omega)
      have e3 : (((P ++ prev ++ F :: (done ++ [rowValue 3 bpp prev done t])).length : Nat) : Int)
          = (((P ++ prev ++ F :: done).length : Nat) : Int) + 1 := by
        simp only [List.length_append, List.length_cons, List.length_nil]
        push_cast; ring
      rw [e3] at this
      simp only [List.append_assoc, List.cons_append, List.nil_append] at this ⊢
      exact this
    by_cases hc : bpp ≤ done.length
    · have ha : (P ++ prev ++ F :: done).getD ((P ++ prev ++ F :: done).length - bpp) 0
          = done.getD (done.length - bpp) 0 := by
        have e : P ++ prev ++ F :: done = (P ++ prev ++ [F]) ++ done := by simp
        rw [e, getD_back (P ++ prev ++ [F]) done bpp hc]
      rw [if_pos (hcond.mpr hc)]
      rw [load_back _ _ bpp _ hb (by rw [hA]; omega) rfl]
      simp only [ha]
      rw [load_back _ _ (prev.length + 1) _ (by omega) (by rw [hA]; omega) (by push_cast; ring)]
      simp only [hbv]
      rw [store_at _ _ _ _ _ rfl]
      simp only [addv_mod]
      rw [decodeFrom]
      apply hrec
      have hlt : ¬ done.length < bpp := by omega
      simp [rowValue, specPredictor, hlt]
    · rw [if_neg (fun h => hc (hcond.mp h))]
      rw [load_back _ _ (prev.length + 1) _ (by omega) (by rw [hA]; omega) (by push_cast; ring)]
      simp only [hbv]
      rw [store_at _ _ _ _ _ rfl]
      simp only [addv_mod]
      rw [decodeFrom]
      apply hrec
      have hlt : done.length < bpp := by omega
      simp [rowValue, specPredictor, hlt]

/-- The byte of `prev` that lies `prev.length + 1` bytes before the end of
`P ++ prev ++ F :: done`. -/
theorem getD_above (P prev done : List Nat) (F : Nat) (hx : done.length < prev.length) :
    (P ++ prev ++ F :: done).getD ((P ++ prev ++ F :: done).length - (prev.length + 1)) 0
      = prev.getD done.length 0 := by
  have e : (P ++ prev ++ F :: done).length - (prev.length + 1) = P.length + done.length := by
    simp only [List.length_append, List.length_cons]; omega
  rw [e, getD_mid P prev (F :: done) done.length hx]

/-- The byte of `prev` that lies `prev.length + 1 + bpp` bytes before the end of
`P ++ prev ++ F :: done`. -/
theorem getD_aboveLeft (P prev done : List Nat) (F bpp : Nat) (hx : done.length < prev.length)
    (hb : bpp ≤ done.length) :
    (P ++ prev ++ F :: done).getD ((P ++ prev ++ F :: done).length - (prev.length + 1 + bpp)) 0
      = prev.getD (done.length - bpp) 0 := by
  have e : (P ++ prev ++ F :: done).length - (prev.length + 1 + bpp)
      = P.length + (done.length - bpp) := by
    simp only [List.length_append, List.length_cons]; omega
  rw [e, getD_mid P prev (F :: done) (done.length - bpp) (by omega)]

/-- The byte of `done` that lies `bpp` bytes before the end of `Q ++ F :: done`. -/
theorem getD_left (Q done : List Nat) (F bpp : Nat) (hb : bpp ≤ done.length) :
    (Q ++ F :: done).getD ((Q ++ F :: done).length - bpp) 0 = done.getD (done.length - bpp) 0 := by
  have e : Q ++ F :: done = (Q ++ [F]) ++ done := by simp
  rw [e, getD_back (Q ++ [F]) done bpp hb]

/-- The first Paeth loop (`lineIx > 0`) on the first bytes of a row below the
reconstructed row `prev`. -/
theorem paethHeadLoop_decode (bpp : Nat) (P prev : List Nat) (F : Nat)
    (hprev : ∀ b ∈ prev, b < 256) :
    ∀ (todo done rest : List Nat) (row rowAbove : Int),
      done.length + todo.length ≤ bpp → done.length + todo.length ≤ prev.length →
      row = (((P ++ prev ++ F :: done).length : Nat) : Int) →
      rowAbove = row - ((prev.length + 1 : Nat) : Int) →
      paethHeadLoop todo.length row rowAbove ((P ++ prev ++ F :: done) ++ todo ++ rest)
        = .ok (row + (todo.length : Int), rowAbove + (todo.length : Int),
            (P ++ prev ++ F :: decodeFrom 4 bpp prev done todo) ++ rest) := by
  intro todo
  induction todo with
  | nil =>
    intro done rest row rowAbove _ _ _ _
    simp [paethHeadLoop, decodeFrom]
  | cons t ts ih =>
    intro done rest row rowAbove hlen hlen2 hrow hab
    simp only [List.length_cons] at hlen hlen2
    have hx : done.length < prev.length := by omega
    have hA : (P ++ prev ++ F :: done).length = P.length + prev.length + 1 + done.length := by
      simp only [List.length_append, List.length_cons]; omega
    have hbyte : prev.getD done.length 0 < 256 := getD_lt_of_forall prev hprev _
    rw [List.length_cons, paethHeadLoop, List.append_assoc, List.cons_append]
    rw [load_at _ _ _ _ hrow]
    simp only [bind, Except.bind]
    rw [load_back _ _ (prev.length + 1) _ (by omega) (by rw [hA]; omega) (by rw [hab, hrow])]
    simp only [getD_above P prev done F hx]
    rw [store_at _ _ _ _ _ hrow]
    have hp := toU32_paeth 0 (prev.getD done.length 0) 0 (by norm_num) hbyte (by norm_num)
    simp only [Nat.cast_zero] at hp
    simp only [addv_mod, hp]
    have hv : (t + (specPaeth 0 (prev.getD done.length 0) 0).toNat) % 256
        = rowValue 4 bpp prev done t := by
      have hlt : done.length < bpp := by omega
      simp [rowValue, specPredictor, hlt]
    rw [hv, decodeFrom]
    have := ih (done ++ [rowValue 4 bpp prev done t]) rest (row + 1) (rowAbove + 1)
      (by simp; omega) (by simp; omega)
      (by rw [hrow]; simp only [List.length_append, List.length_cons, List.length_nil]
          push_cast; ring)
      (by rw [hab]; ring)
    simp only [List.append_assoc, List.cons_append, List.nil_append] at this ⊢
    rw [this]
    congr 2
    · push_cast; ring
    · congr 1
      push_cast; ring

/-- The second Paeth loop (`lineIx > 0`) on the rest `todo` of a row below the
reconstructed row `prev`. -/
theorem paethTailLoop_decode (bpp : Nat) (P prev post : List Nat) (F : Nat) (hb : 1 ≤ bpp)
    (hprev : ∀ b ∈ prev, b < 256) :
    ∀ (todo done : List Nat) (row rowLeft rowAbove rowAboveLeft : Int),
      bpp ≤ done.length → done.length + todo.length = prev.length →
      (∀ b ∈ done, b < 256) →
      row = (((P ++ prev ++ F :: done).length : Nat) : Int) →
      rowLeft = row - (bpp : Int) →
      rowAbove = row - ((prev.length + 1 : Nat) : Int) →
      rowAboveLeft = row - ((prev.length + 1 + bpp : Nat) : Int) →
      paethTailLoop todo.length row rowLeft rowAbove rowAboveLeft
          ((P ++ prev ++ F :: done) ++ todo ++ post)
        = .ok ((P ++ prev ++ F :: decodeFrom 4 bpp prev done todo) ++ post) := by
  intro todo
  induction todo with
  | nil =>
    intro done row rowLeft rowAbove rowAboveLeft _ _ _ _ _ _ _
    simp [paethTailLoop, decodeFrom]
  | cons t ts ih =>
    intro done row rowLeft rowAbove rowAboveLeft hbd hlen hdone hrow hl hab habl
    simp only [List.length_cons] at hlen
    have hx : done.length < prev.length := by omega
    have hA : (P ++ prev ++ F :: done).length = P.length + prev.length + 1 + done.length := by
      simp only [List.length_append, List.length_cons]; omega
    have hbb : prev.getD done.length 0 < 256 := getD_lt_of_forall prev hprev _
    have hcb : prev.getD (done.length - bpp) 0 < 256 := getD_lt_of_forall prev hprev _
    have hab' : done.getD (done.length - bpp) 0 < 256 := getD_lt_of_forall done hdone _
    rw [List.length_cons, paethTailLoop, List.append_assoc, List.cons_append]
    rw [load_at _ _ _ _ hrow]
    simp only [bind, Except.bind]
    rw [load_back _ _ bpp _ hb (by rw [hA]; omega) (by rw [hl, hrow])]
    have e1 : P ++ prev ++ F :: done = (P ++ prev) ++ F :: done := rfl
    simp only [getD_left (P ++ prev) done F bpp hbd]
    rw [load_back _ _ (prev.length + 1) _ (by omega) (by rw [hA]; omega) (by rw [hab, hrow])]
    simp only [getD_above P prev done F hx]
    rw [load_back _ _ (prev.length + 1 + bpp) _ (by omega) (by rw [hA]; omega)
      (by rw [habl, hrow])]
    simp only [getD_aboveLeft P prev done F bpp hx hbd]
    rw [store_at _ _ _ _ _ hrow]
    simp only [addv_mod, toU32_paeth _ _ _ hab' hbb hcb]
    have hv : (t + (specPaeth (done.getD (done.length - bpp) 0) (prev.getD done.length 0)
          (prev.getD (done.length - bpp) 0)).toNat) % 256 = rowValue 4 bpp prev done t := by
      have hlt : ¬ done.length < bpp := by omega
      simp [rowValue, specPredictor, hlt]
    rw [hv, decodeFrom]
    have := ih (done ++ [rowValue 4 bpp prev done t]) (row + 1) (rowLeft + 1) (rowAbove + 1)
      (rowAboveLeft + 1) (by simp; omega) (by simp; omega)
      (by
        intro b hbm
        rw [List.mem_append] at hbm
        rcases hbm with h | h
        · exact hdone b h
        · simp only [List.mem_singleton] at h
          rw [h]; unfold rowValue; exact Nat.mod_lt _ (by norm_num))
      (by rw [hrow]; simp only [List.length_append, List.length_cons, List.length_nil]
          push_cast; ring)
      (by rw [hl]; ring) (by rw [hab]; ring) (by rw [habl]; ring)
    simp only [List.append_assoc, List.cons_append, List.nil_append] at this ⊢
    exact this

/-! ## Reconstruction: one row -/

/-- Reconstruction of a row can be done in two parts. -/
theorem decodeFrom_append (F bpp : Nat) (prev : List Nat) :
    ∀ (xs ys done : List Nat),
      decodeFrom F bpp prev done (xs ++ ys) = decodeFrom F bpp prev (decodeFrom F bpp prev done xs) ys := by
  intro xs
  induction xs with
  | nil => intro ys done; simp [decodeFrom]
  | cons x xs ih =>
    intro ys done
    simp only [List.cons_append, decodeFrom]
    exact ih ys _

/-- Under the None filter the bytes stay as they are. -/
theorem decodeFrom_none (bpp : Nat) (prev : List Nat) :
    ∀ (todo done : List Nat), (∀ b ∈ todo, b < 256) →
      decodeFrom 0 bpp prev done todo = done ++ todo := by
  intro todo
  induction todo with
  | nil => intro done _; simp [decodeFrom]
  | cons t ts ih =>
    intro done h
    have ht : t < 256 := h t (List.mem_cons_self _ _)
    have hv : rowValue 0 bpp prev done t = t := by
      simp only [rowValue, specPredictor, if_true, Nat.add_zero]
      exact Nat.mod_eq_of_lt ht
    rw [decodeFrom, hv, ih _ (fun b hb => h b (List.mem_cons_of_mem _ hb))]
    simp

/-- Under the Sub filter the first `bpp` bytes stay as they are. -/
theorem decodeFrom_sub_head (bpp : Nat) (prev : List Nat) :
    ∀ (todo done : List Nat), (∀ b ∈ todo, b < 256) → done.length + todo.length ≤ bpp →
      decodeFrom 1 bpp prev done todo = done ++ todo := by
  intro todo
  induction todo with
  | nil => intro done _ _; simp [decodeFrom]
  | cons t ts ih =>
    intro done h hlen
    simp only [List.length_cons] at hlen
    have ht : t < 256 := h t (List.mem_cons_self _ _)
    have hlt : done.length < bpp := by omega
    have hv : rowValue 1 bpp prev done t = t := by
      simp only [rowValue, specPredictor, hlt, if_true, Nat.add_zero]
      simp only [show ¬ (1 = 0) by omega, if_false, Nat.add_zero]
      exact Nat.mod_eq_of_lt ht
    rw [decodeFrom, hv, ih _ (fun b hb => h b (List.mem_cons_of_mem _ hb)) (by simp; omega)]
    simp

/-- The facts about one row that every case of `unfilterRow` starts from. -/
theorem unfilterRow_start (width_ bpp_ lineIx : Nat) (pre post cur : List Nat) (F : Nat)
    (hF : F < 5) :
    unfilterRow width_ bpp_ lineIx ((pre.length : Nat) : Int) ((pre ++ F :: cur) ++ post)
      = (if F = LFNone then
          .ok (((pre.length : Nat) : Int) + 1 + ((width_ * bpp_ % U32 : Nat) : Int),
            (pre ++ F :: cur) ++ post)
        else if F = LFSub then
          (subLoop bpp_ ((width_ * bpp_ % U32 + U32 - bpp_) % U32)
            (((pre.length : Nat) : Int) + 1 + (bpp_ : Int)) ((pre ++ F :: cur) ++ post)).bind
            fun buf => .ok (((pre.length : Nat) : Int) + 1 + ((width_ * bpp_ % U32 : Nat) : Int), buf)
        else if F = LFUp then
          (upLoop ((width_ * bpp_ % U32 + 1) % U32) (width_ * bpp_ % U32)
            (((pre.length : Nat) : Int) + 1) ((pre ++ F :: cur) ++ post)).bind
            fun buf => .ok (((pre.length : Nat) : Int) + 1 + ((width_ * bpp_ % U32 : Nat) : Int), buf)
        else if F = LFAverage then
          if lineIx = 0 then
            (averageFirstLoop bpp_ ((width_ * bpp_ % U32 + U32 - bpp_) % U32)
              (((pre.length : Nat) : Int) + 1) ((pre ++ F :: cur) ++ post)).bind
              fun buf => .ok (((pre.length : Nat) : Int) + 1 + (bpp_ : Int)
                + ((width_ * bpp_ % U32 : Nat) : Int), buf)
          else
            (averageLoop bpp_ (width_ * bpp_ % U32) ((width_ * bpp_ % U32 + 1) % U32)
              (width_ * bpp_ % U32) (((pre.length : Nat) : Int) + 1)
              ((pre ++ F :: cur) ++ post)).bind
              fun buf => .ok (((pre.length : Nat) : Int) + 1 + ((width_ * bpp_ % U32 : Nat) : Int), buf)
        else
          if lineIx = 0 then
            (paethFirstLoop bpp_ ((width_ * bpp_ % U32 + U32 - bpp_) % U32)
              (((pre.length : Nat) : Int) + 1) ((pre ++ F :: cur) ++ post)).bind
              fun buf => .ok (((pre.length : Nat) : Int) + 1 + (bpp_ : Int)
                + ((width_ * bpp_ % U32 : Nat) : Int), buf)
          else
            (paethHeadLoop bpp_ (((pre.length : Nat) : Int) + 1)
              (((pre.length : Nat) : Int) + 1 - (((width_ * bpp_ % U32 + 1) % U32 : Nat) : Int))
              ((pre ++ F :: cur) ++ post)).bind
              fun r => (paethTailLoop ((width_ * bpp_ % U32 + U32 - bpp_) % U32) r.1
                (((pre.length : Nat) : Int) + 1) r.2.1
                (((pre.length : Nat) : Int) + 1 - (((width_ * bpp_ % U32 + 1) % U32 : Nat) : Int))
                r.2.2).bind
                fun buf => .ok (((pre.length : Nat) : Int) + 1
                  + ((width_ * bpp_ % U32 : Nat) : Int), buf)) := by
  unfold unfilterRow
  have hbuf : (pre ++ F :: cur) ++ post = pre ++ F :: (cur ++ post) := by simp
  have hload : load ((pre ++ F :: cur) ++ post) ((pre.length : Nat) : Int) = .ok F := by
    rw [hbuf, load_at _ _ _ _ rfl]
  simp only [hload, bind, Except.bind, hF, not_true_eq_false, if_false]

/-- One iteration of the row loop, in every case in which the source handles the row
as section 4.2 says: any filter type on a row other than the first (the
reconstructed row above being `prev`), None or Sub on the first row. The row is
reconstructed and the cursor is left at the start of the next row. -/
theorem unfilterRow_decode (width_ bpp_ lineIx : Nat) (P prev post cur : List Nat) (F : Nat)
    (hb : 1 ≤ bpp_) (hw : 1 ≤ width_) (hsz : width_ * bpp_ + 1 < U32)
    (hcur : cur.length = width_ * bpp_) (hF : F < 5)
    (hcurb : ∀ b ∈ cur, b < 256) (hprevb : ∀ b ∈ prev, b < 256)
    (h0 : lineIx = 0 → F ≤ 1)
    (h1 : lineIx ≠ 0 → prev.length = width_ * bpp_ ∧ width_ * bpp_ + bpp_ < U32) :
    unfilterRow width_ bpp_ lineIx (((P ++ prev).length : Nat) : Int)
        (((P ++ prev) ++ F :: cur) ++ post)
      = .ok (((((P ++ prev) ++ F :: cur).length : Nat) : Int),
          ((P ++ prev) ++ F :: decodeRow F bpp_ prev cur) ++ post) := by
  have hble : bpp_ ≤ cur.length := by rw [hcur]; exact Nat.le_mul_of_pos_left _ hw
  have hrb : width_ * bpp_ % U32 = cur.length := by
    rw [hcur]; exact Nat.mod_eq_of_lt (by omega)
  have hpitch : (cur.length + 1) % U32 = cur.length + 1 := by
    rw [hcur]; exact Nat.mod_eq_of_lt hsz
  have hcnt : (cur.length + U32 - bpp_) % U32 = cur.length - bpp_ := by
    rw [hcur] at hble ⊢
    unfold U32 at hsz ⊢
    omega
  have hptr : (((P ++ prev).length : Nat) : Int) + 1 + ((cur.length : Nat) : Int)
      = ((((P ++ prev) ++ F :: cur).length : Nat) : Int) := by
    simp only [List.length_append, List.length_cons]
    push_cast; ring
  have hsplit : cur = cur.take bpp_ ++ cur.drop bpp_ := (List.take_append_drop _ _).symm
  have htake : (cur.take bpp_).length = bpp_ := by
    rw [List.length_take]; exact Nat.min_eq_left hble
  have hdrop : (cur.drop bpp_).length = cur.length - bpp_ := List.length_drop _ _
  rw [unfilterRow_start width_ bpp_ lineIx (P ++ prev) post cur F hF]
  simp only [hrb, hpitch, hcnt, hptr, LFNone, LFSub, LFUp, LFAverage]
  by_cases c0 : F = 0
  · subst c0
    simp only [if_true]
    unfold decodeRow
    rw [decodeFrom_none bpp_ prev cur [] hcurb]
    rfl
  rw [if_neg c0]
  by_cases c1 : F = 1
  · subst c1
    simp only [if_true]
    have hloop := subLoop_decode bpp_ (P ++ prev) prev post 1 hb (cur.drop bpp_) (cur.take bpp_)
      (by rw [htake])
    have hp : ((((P ++ prev) ++ 1 :: cur.take bpp_).length : Nat) : Int)
        = (((P ++ prev).length : Nat) : Int) + 1 + (bpp_ : Int) := by
      simp only [List.length_append, List.length_cons, htake]
      push_cast; ring
    have hb1 : ((P ++ prev) ++ 1 :: cur.take bpp_) ++ cur.drop bpp_ ++ post
        = ((P ++ prev) ++ 1 :: cur) ++ post := by
      conv_rhs => rw [hsplit]
      simp
    rw [hp, hb1, hdrop] at hloop
    rw [hloop]
    simp only [Except.bind]
    unfold decodeRow
    conv_rhs => rw [hsplit, decodeFrom_append,
      decodeFrom_sub_head bpp_ prev (cur.take bpp_) []
        (fun b hb => hcurb b (List.mem_of_mem_take hb)) (by rw [htake]; simp)]
    simp
  rw [if_neg c1]
  -- the remaining filters occur on rows below the first only
  have hne : lineIx ≠ 0 := fun h => by have := h0 h; omega
  obtain ⟨hprev, hsz2⟩ := h1 hne
  have hpc : prev.length = cur.length := by rw [hprev, hcur]
  have hA0 : ((((P ++ prev) ++ F :: ([] : List Nat)).length : Nat) : Int)
      = (((P ++ prev).length : Nat) : Int) + 1 := by
    simp only [List.length_append, List.length_cons, List.length_nil]
    push_cast; ring
  by_cases c2 : F = 2
  · subst c2
    simp only [if_true]
    have hloop := upLoop_decode bpp_ P prev post 2 cur [] (by simp [hpc])
    rw [hA0, hpc] at hloop
    simp only [List.append_assoc, List.cons_append, List.nil_append] at hloop ⊢
    rw [hloop]
    rfl
  rw [if_neg c2]
  by_cases c3 : F = 3
  · subst c3
    simp only [if_true, if_neg hne]
    have hloop := averageLoop_decode bpp_ P prev post 3 hb (by rw [hprev]; exact hsz2) cur []
      (by simp [hpc])
    rw [hA0, hpc] at hloop
    simp only [List.append_assoc, List.cons_append, List.nil_append] at hloop ⊢
    rw [hloop]
    rfl
  rw [if_neg c3, if_neg hne]
  have c4 : F = 4 := by omega
  subst c4
  have hhead := paethHeadLoop_decode bpp_ P prev 4 hprevb (cur.take bpp_) []
    (cur.drop bpp_ ++ post) ((((P ++ prev).length : Nat) : Int) + 1)
    ((((P ++ prev).length : Nat) : Int) + 1 - ((cur.length + 1 : Nat) : Int))
    (by simp [htake]) (by simp only [List.length_nil, Nat.zero_add, htake, hpc]; exact hble)
    hA0.symm (by rw [hpc])
  have hb1 : ((P ++ prev) ++ 4 :: ([] : List Nat)) ++ cur.take bpp_ ++ (cur.drop bpp_ ++ post)
      = ((P ++ prev) ++ 4 :: cur) ++ post := by
    have : cur.take bpp_ ++ (cur.drop bpp_ ++ post) = cur ++ post := by
      rw [← List.append_assoc, List.take_append_drop]
    simp [this]
  rw [hb1, htake] at hhead
  rw [hhead]
  simp only [Except.bind]
  have hdoneb : ∀ b ∈ decodeFrom 4 bpp_ prev [] (cur.take bpp_), b < 256 :=
    decodeFrom_lt 4 bpp_ prev _ [] (by simp)
  have hdonel : (decodeFrom 4 bpp_ prev [] (cur.take bpp_)).length = bpp_ := by
    rw [decodeFrom_length, htake]; simp
  have htail := paethTailLoop_decode bpp_ P prev post 4 hb hprevb (cur.drop bpp_)
    (decodeFrom 4 bpp_ prev [] (cur.take bpp_))
    ((((P ++ prev).length : Nat) : Int) + 1 + (bpp_ : Int))
    ((((P ++ prev).length : Nat) : Int) + 1)
    ((((P ++ prev).length : Nat) : Int) + 1 - ((cur.length + 1 : Nat) : Int) + (bpp_ : Int))
    ((((P ++ prev).length : Nat) : Int) + 1 - ((cur.length + 1 : Nat) : Int))
    (by rw [hdonel]) (by rw [hdonel, hdrop, hpc]; omega) hdoneb
    (by simp only [List.length_append, List.length_cons, hdonel]; push_cast; ring)
    (by ring) (by rw [hpc]; push_cast; ring) (by rw [hpc]; push_cast; ring)
  rw [hdrop] at htail
  have hdec : decodeRow 4 bpp_ prev cur
      = decodeFrom 4 bpp_ prev (decodeFrom 4 bpp_ prev [] (cur.take bpp_)) (cur.drop bpp_) := by
    unfold decodeRow
    conv_lhs => rw [hsplit]
    rw [decodeFrom_append]
  rw [hdec]
  simp only [List.append_assoc, List.cons_append, List.nil_append] at htail ⊢
  rw [htail]

/-! ## Reconstruction: the row loop -/

/-- A row of `rowBytes + 1` bytes is its filter-type byte and its pixel bytes. -/
theorem row_eq_head_tail (row : List Nat) (n : Nat) (h : row.length = n + 1) :
    row = row.headD 0 :: row.tail ∧ row.tail.length = n := by
  cases row with
  | nil => simp at h
  | cons a t => simp at h ⊢; exact h

/-- The row loop on a list of rows with filter types in 0..4, the first row being
None or Sub when it is row 0: the buffer is reconstructed row by row. `prev` holds
the reconstructed pixel bytes of the row above the first of `rows`. -/
theorem unfilterRows_decode (width_ bpp_ : Nat) (hb : 1 ≤ bpp_) (hw : 1 ≤ width_)
    (hsz : width_ * bpp_ + 1 < U32) :
    ∀ (rows : List (List Nat)) (lineIx : Nat) (P prev : List Nat),
      (∀ row ∈ rows, row.length = width_ * bpp_ + 1 ∧ row.headD 0 < 5 ∧ ∀ b ∈ row, b < 256) →
      (∀ b ∈ prev, b < 256) →
      (lineIx = 0 → ∀ row, rows.head? = some row → row.headD 0 ≤ 1) →
      (lineIx ≠ 0 → prev.length = width_ * bpp_) →
      (∀ k, k < rows.length → lineIx + k ≠ 0 → width_ * bpp_ + bpp_ < U32) →
      unfilterRows width_ bpp_ rows.length lineIx (((P ++ prev).length : Nat) : Int)
          ((P ++ prev) ++ rows.flatten)
        = .ok ((P ++ prev) ++ (decodeRows bpp_ prev rows).flatten) := by
  intro rows
  induction rows with
  | nil => intro lineIx P prev _ _ _ _ _; simp [unfilterRows, decodeRows]
  | cons row rest ih =>
    intro lineIx P prev hrows hprevb h0 h1 hbound
    obtain ⟨hlen, hF, hbytes⟩ := hrows row (List.mem_cons_self _ _)
    obtain ⟨hrow, htl⟩ := row_eq_head_tail row _ hlen
    have hcurb : ∀ b ∈ row.tail, b < 256 := fun b hb => hbytes b (List.mem_of_mem_tail hb)
    have hstep := unfilterRow_decode width_ bpp_ lineIx P prev rest.flatten row.tail (row.headD 0)
      hb hw hsz htl hF hcurb hprevb (fun h => h0 h row rfl)
      (fun h => ⟨h1 h, hbound 0 (by simp) (by omega)⟩)
    have hdl : (decodeRow (row.headD 0) bpp_ prev row.tail).length = width_ * bpp_ := by
      unfold decodeRow
      rw [decodeFrom_length, htl]; simp
    have hdb : ∀ b ∈ decodeRow (row.headD 0) bpp_ prev row.tail, b < 256 :=
      decodeFrom_lt _ _ _ _ [] (by simp)
    have hrec := ih (lineIx + 1) ((P ++ prev) ++ [row.headD 0])
      (decodeRow (row.headD 0) bpp_ prev row.tail)
      (fun r hr => hrows r (List.mem_cons_of_mem _ hr)) hdb
      (fun h => by omega) (fun _ => hdl)
      (fun k hk hne => hbound (k + 1) (by simp; omega) (by omega))
    have hbuf : (P ++ prev) ++ (row :: rest).flatten
        = ((P ++ prev) ++ row.headD 0 :: row.tail) ++ rest.flatten := by
      conv_lhs => rw [hrow]
      simp
    have hptr : (((((P ++ prev) ++ [row.headD 0])
          ++ decodeRow (row.headD 0) bpp_ prev row.tail).length : Nat) : Int)
        = ((((P ++ prev) ++ row.headD 0 :: row.tail).length : Nat) : Int) := by
      simp only [List.length_append, List.length_cons, List.length_nil, hdl, htl]
      push_cast; ring
    rw [List.length_cons, unfilterRows, hbuf, hstep]
    simp only [bind, Except.bind]
    rw [hptr] at hrec
    simp only [decodeRows, List.flatten_cons]
    simp only [List.append_assoc, List.cons_append, List.nil_append] at hrec ⊢
    exact hrec

/-- Cutting a buffer of `m * h` bytes into `h` rows of `m` bytes loses nothing. -/
theorem rowsOf_flatten (m : Nat) :
    ∀ (h : Nat) (buf : List Nat), buf.length = m * h → (rowsOf m h buf).flatten = buf := by
  intro h
  induction h with
  | zero =>
    intro buf hl
    simp only [Nat.mul_zero, List.length_eq_zero] at hl
    simp [rowsOf, hl]
  | succ h ih =>
    intro buf hl
    have : (buf.drop m).length = m * h := by
      rw [List.length_drop, hl]
      have : m * (h + 1) = m * h + m := by ring
      omega
    simp only [rowsOf, List.flatten_cons, ih _ this, List.take_append_drop]

/-- The number of rows cut from a buffer. -/
theorem rowsOf_length (m : Nat) : ∀ (h : Nat) (buf : List Nat), (rowsOf m h buf).length = h := by
  intro h
  induction h with
  | zero => intro buf; rfl
  | succ h ih => intro buf; simp [rowsOf, ih]

/-- Row `r` of the rows cut from a buffer. -/
theorem rowsOf_getD (m : Nat) :
    ∀ (h r : Nat) (buf : List Nat), r < h →
      (rowsOf m h buf).getD r [] = (buf.drop (r * m)).take m := by
  intro h
  induction h with
  | zero => intro r buf hr; omega
  | succ h ih =>
    intro r buf hr
    cases r with
    | zero => simp [rowsOf]
    | succ r =>
      simp only [rowsOf, List.getD_cons_succ]
      rw [ih r _ (by omega), List.drop_drop]
      congr 2
      ring

/-- Every row cut from a buffer of `m * h` bytes is row `r` for some `r < h`, has
`m` bytes, and its bytes are bytes of the buffer. -/
theorem rowsOf_mem (m : Nat) (h : Nat) (buf : List Nat) (hl : buf.length = m * h)
    (row : List Nat) (hrow : row ∈ rowsOf m h buf) :
    ∃ r, r < h ∧ row = (buf.drop (r * m)).take m ∧ row.length = m ∧ ∀ b ∈ row, b ∈ buf := by
  obtain ⟨r, hr, hget⟩ := List.getElem_of_mem hrow
  rw [rowsOf_length] at hr
  have e : row = (buf.drop (r * m)).take m := by
    rw [← rowsOf_getD m h r buf hr, ← hget, List.getD_eq_getElem?_getD,
      List.getElem?_eq_getElem (by rw [rowsOf_length]; exact hr), Option.getD_some]
  refine ⟨r, hr, e, ?_, ?_⟩
  · rw [e, List.length_take, List.length_drop, hl]
    have : r * m + m ≤ m * h := by
      have : (r + 1) * m ≤ h * m := Nat.mul_le_mul_right _ hr
      have e2 : (r + 1) * m = r * m + m := by ring
      rw [Nat.mul_comm m h]; omega
    omega
  · intro b hb
    rw [e] at hb
    exact List.mem_of_mem_drop (List.mem_of_mem_take hb)

/-! ## Reconstruction: the buffer byte by byte -/

/-- Reconstructing more bytes leaves the reconstructed ones as they are. -/
theorem decodeFrom_getD_done (F bpp : Nat) (prev : List Nat) :
    ∀ (todo done : List Nat) (x : Nat), x < done.length →
      (decodeFrom F bpp prev done todo).getD x 0 = done.getD x 0 := by
  intro todo
  induction todo with
  | nil => intro done x _; rfl
  | cons t ts ih =>
    intro done x hx
    rw [decodeFrom, ih _ x (by simp; omega), List.getD_append _ _ _ _ hx]

/-- Each reconstructed byte is the filtered byte plus the predictor of section 4.2 on
the reconstructed neighbours, modulo 256. -/
theorem decodeFrom_getD_new (F bpp : Nat) (prev : List Nat) (hb : 1 ≤ bpp) :
    ∀ (todo done : List Nat) (j : Nat), j < todo.length →
      (decodeFrom F bpp prev done todo).getD (done.length + j) 0
        = (todo.getD j 0 + specPredictor F
            (if done.length + j < bpp then 0
              else (decodeFrom F bpp prev done todo).getD (done.length + j - bpp) 0)
            (prev.getD (done.length + j) 0)
            (if done.length + j < bpp then 0 else prev.getD (done.length + j - bpp) 0)) % 256 := by
  intro todo
  induction todo with
  | nil => intro done j hj; simp at hj
  | cons t ts ih =>
    intro done j hj
    cases j with
    | zero =>
      simp only [Nat.add_zero, List.getD_cons_zero]
      rw [decodeFrom, decodeFrom_getD_done _ _ _ _ _ _ (by simp),
        List.getD_append_right _ _ _ _ (le_refl _), Nat.sub_self, List.getD_cons_zero]
      unfold rowValue
      by_cases hlt : done.length < bpp
      · simp only [hlt, if_true]
      · simp only [hlt, if_false]
        rw [decodeFrom_getD_done _ _ _ _ _ _ (by simp; omega),
          List.getD_append _ _ _ _ (by omega)]
    | succ j =>
      simp only [List.length_cons] at hj
      have := ih (done ++ [rowValue F bpp prev done t]) j (by omega)
      have e : (done ++ [rowValue F bpp prev done t]).length + j = done.length + (j + 1) := by
        simp; omega
      rw [e] at this
      rw [decodeFrom, List.getD_cons_succ]
      exact this

/-- The reconstruction of a row, byte by byte. -/
theorem decodeRow_spec (F bpp : Nat) (prev cur : List Nat) (hb : 1 ≤ bpp) (x : Nat)
    (hx : x < cur.length) :
    (decodeRow F bpp prev cur).getD x 0
      = (cur.getD x 0 + specPredictor F
          (if x < bpp then 0 else (decodeRow F bpp prev cur).getD (x - bpp) 0)
          (prev.getD x 0)
          (if x < bpp then 0 else prev.getD (x - bpp) 0)) % 256 := by
  have := decodeFrom_getD_new F bpp prev hb cur [] x hx
  simpa [decodeRow] using this

/-- Reconstruction keeps the number of rows. -/
theorem decodeRows_length (bpp : Nat) :
    ∀ (rows : List (List Nat)) (prev : List Nat), (decodeRows bpp prev rows).length = rows.length := by
  intro rows
  induction rows with
  | nil => intro prev; rfl
  | cons row rest ih => intro prev; simp [decodeRows, ih]

/-- Row `r` of the reconstruction: the filter-type byte of row `r`, then its pixel
bytes reconstructed below the reconstructed row `r - 1`. -/
theorem decodeRows_getD (bpp : Nat) :
    ∀ (rows : List (List Nat)) (prev : List Nat) (r : Nat), r < rows.length →
      (decodeRows bpp prev rows).getD r []
        = (rows.getD r []).headD 0 ::
            decodeRow ((rows.getD r []).headD 0) bpp
              (if r = 0 then prev else ((decodeRows bpp prev rows).getD (r - 1) []).tail)
              (rows.getD r []).tail := by
  intro rows
  induction rows with
  | nil => intro prev r hr; simp at hr
  | cons row rest ih =>
    intro prev r hr
    cases r with
    | zero => simp [decodeRows]
    | succ r =>
      simp only [List.length_cons] at hr
      have := ih (decodeRow (row.headD 0) bpp prev row.tail) r (by omega)
      simp only [decodeRows, List.getD_cons_succ, Nat.add_sub_cancel]
      rw [this]
      congr 2
      cases r with
      | zero => simp
      | succ r => simp

/-- Every reconstructed row has the size of the row it comes from. -/
theorem decodeRows_row_length (bpp m : Nat) :
    ∀ (rows : List (List Nat)) (prev : List Nat), (∀ row ∈ rows, row.length = m + 1) →
      ∀ row ∈ decodeRows bpp prev rows, row.length = m + 1 := by
  intro rows
  induction rows with
  | nil => intro prev _ row hr; simp [decodeRows] at hr
  | cons a rest ih =>
    intro prev hrows row hr
    simp only [decodeRows, List.mem_cons] at hr
    rcases hr with h | h
    · rw [h, List.length_cons]
      unfold decodeRow
      rw [decodeFrom_length]
      have := (row_eq_head_tail a m (hrows a (List.mem_cons_self _ _))).2
      simp [this]
    · exact ih _ (fun r hr => hrows r (List.mem_cons_of_mem _ hr)) row h

/-- The byte `j` of row `r` in a buffer of rows of `m` bytes. -/
theorem flatten_getD (m : Nat) :
    ∀ (L : List (List Nat)) (r j : Nat), (∀ row ∈ L, row.length = m) → r < L.length → j < m →
      (L.flatten).getD (r * m + j) 0 = (L.getD r []).getD j 0 := by
  intro L
  induction L with
  | nil => intro r j _ hr _; simp at hr
  | cons a L ih =>
    intro r j hL hr hj
    have ha : a.length = m := hL a (List.mem_cons_self _ _)
    cases r with
    | zero =>
      simp only [Nat.zero_mul, Nat.zero_add, List.flatten_cons, List.getD_cons_zero]
      rw [List.getD_append _ _ _ _ (by omega)]
    | succ r =>
      simp only [List.length_cons] at hr
      simp only [List.flatten_cons, List.getD_cons_succ]
      rw [List.getD_append_right _ _ _ _ (by rw [ha]; nlinarith)]
      have e : (r + 1) * m + j - a.length = r * m + j := by
        rw [ha]
        have : (r + 1) * m = r * m + m := by ring
        omega
      rw [e]
      exact ih r j (fun row h => hL row (List.mem_cons_of_mem _ h)) (by omega) hj

/-- The size of a buffer of rows of `m` bytes. -/
theorem flatten_length (m : Nat) :
    ∀ (L : List (List Nat)), (∀ row ∈ L, row.length = m) → (L.flatten).length = m * L.length := by
  intro L
  induction L with
  | nil => intro _; simp
  | cons a L ih =>
    intro hL
    simp only [List.flatten_cons, List.length_append, List.length_cons,
      ih (fun row h => hL row (List.mem_cons_of_mem _ h)), hL a (List.mem_cons_self _ _)]
    ring

/-- The first byte of row `r` cut from a buffer is the byte at `r * m`. -/
theorem rowsOf_headD (m h r : Nat) (buf : List Nat) (hm : 1 ≤ m) (hr : r < h) :
    ((rowsOf m h buf).getD r []).headD 0 = buf.getD (r * m) 0 := by
  rw [rowsOf_getD m h r buf hr]
  cases hd : buf.drop (r * m) with
  | nil =>
    have : buf.length ≤ r * m := by
      rw [List.drop_eq_nil_iff] at hd
      exact hd
    rw [List.getD_eq_default _ _ this]
    simp
  | cons a t =>
    obtain ⟨k, rfl⟩ : ∃ k, m = k + 1 := ⟨m - 1, by omega⟩
    have hlt : r * (k + 1) < buf.length := by
      by_contra hge
      have := List.drop_eq_nil_of_le (Nat.le_of_not_lt hge)
      rw [this] at hd
      cases hd
    have hget : buf.getD (r * (k + 1)) 0 = a := by
      rw [List.getD_eq_getElem?_getD, List.getElem?_eq_getElem hlt, Option.getD_some]
      have := List.drop_eq_getElem_cons hlt
      rw [this] at hd
      exact (List.cons.inj hd).1
    rw [hget]
    simp

/-- The reconstruction theorem for `unfilterImage`: on a buffer of `height` rows of
`width * bpp + 1` bytes (sizes that fit `uint32_t`) whose filter-type bytes are in
0..4, the one of row 0 being None or Sub, `unfilterImage` succeeds and its result
is the reconstruction of section 4.2. -/
theorem unfilterImage_reconstructs (width_ height_ bpp_ : Nat) (buf : List Nat)
    (hw : 1 ≤ width_) (hb : 1 ≤ bpp_) (hsz : width_ * bpp_ + 1 < U32)
    (hsz2 : 2 ≤ height_ → width_ * bpp_ + bpp_ < U32)
    (hlen : buf.length = (width_ * bpp_ + 1) * height_)
    (hbytes : ∀ b ∈ buf, b < 256)
    (hfil : ∀ r, r < height_ → buf.getD (r * (width_ * bpp_ + 1)) 0 < 5)
    (hrow0 : buf.getD 0 0 ≤ 1) :
    ∃ out, unfilterImage width_ height_ bpp_ buf = .ok out ∧
      Reconstructs bpp_ (width_ * bpp_) height_ buf out := by
  have hrl := rowsOf_length (width_ * bpp_ + 1) height_ buf
  have hfl := rowsOf_flatten (width_ * bpp_ + 1) height_ buf hlen
  have hmem := rowsOf_mem (width_ * bpp_ + 1) height_ buf hlen
  have hrowlen : ∀ row ∈ rowsOf (width_ * bpp_ + 1) height_ buf, row.length = width_ * bpp_ + 1 :=
    fun row hr => (hmem row hr).choose_spec.2.2.1
  have hrun := unfilterRows_decode width_ bpp_ hb hw hsz (rowsOf (width_ * bpp_ + 1) height_ buf)
    0 [] []
    (by
      intro row hr
      obtain ⟨r, hr1, hr2, hr3, hr4⟩ := hmem row hr
      refine ⟨hr3, ?_, fun b hb => hbytes b (hr4 b hb)⟩
      have := rowsOf_headD (width_ * bpp_ + 1) height_ r buf (by omega) hr1
      rw [rowsOf_getD _ _ _ _ hr1, ← hr2] at this
      rw [this]
      exact hfil r hr1)
    (by simp)
    (by
      intro _ row hrow
      have hpos : 0 < height_ := by
        rcases Nat.eq_zero_or_pos height_ with h | h
        · subst h; simp [rowsOf] at hrow
        · exact h
      have := rowsOf_headD (width_ * bpp_ + 1) height_ 0 buf (by omega) hpos
      have e : (rowsOf (width_ * bpp_ + 1) height_ buf).getD 0 [] = row := by
        cases hrs : rowsOf (width_ * bpp_ + 1) height_ buf with
        | nil => rw [hrs] at hrow; simp at hrow
        | cons a t => rw [hrs] at hrow; simp at hrow; simp [hrow]
      rw [e] at this
      rw [this]
      simpa using hrow0)
    (by intro h; exact absurd rfl h)
    (by
      intro k hk hne
      rw [hrl] at hk
      exact hsz2 (by omega))
  simp only [List.append_nil, List.length_nil, Nat.cast_zero, List.nil_append, hrl, hfl] at hrun
  refine ⟨_, hrun, ?_⟩
  -- the reconstructed rows
  have hDlen := decodeRows_length bpp_ (rowsOf (width_ * bpp_ + 1) height_ buf) []
  have hDrow := decodeRows_row_length bpp_ (width_ * bpp_)
    (rowsOf (width_ * bpp_ + 1) height_ buf) [] hrowlen
  rw [hrl] at hDlen
  have hout : ∀ r j, r < height_ → j < width_ * bpp_ + 1 →
      ((decodeRows bpp_ [] (rowsOf (width_ * bpp_ + 1) height_ buf)).flatten).getD
          (r * (width_ * bpp_ + 1) + j) 0
        = ((decodeRows bpp_ [] (rowsOf (width_ * bpp_ + 1) height_ buf)).getD r []).getD j 0 :=
    fun r j hr hj => flatten_getD _ _ r j hDrow (by rw [hDlen]; exact hr) hj
  have hinp : ∀ r j, r < height_ → j < width_ * bpp_ + 1 →
      buf.getD (r * (width_ * bpp_ + 1) + j) 0
        = ((rowsOf (width_ * bpp_ + 1) height_ buf).getD r []).getD j 0 := by
    intro r j hr hj
    have := flatten_getD _ _ r j hrowlen (by rw [hrl]; exact hr) hj
    rw [hfl] at this
    exact this
  have hDget := decodeRows_getD bpp_ (rowsOf (width_ * bpp_ + 1) height_ buf) []
  constructor
  · rw [flatten_length _ _ hDrow, hDlen, hlen]
  · intro r hr
    have hD := hDget r (by rw [hrl]; exact hr)
    have hmemr : (rowsOf (width_ * bpp_ + 1) height_ buf).getD r []
        ∈ rowsOf (width_ * bpp_ + 1) height_ buf := by
      rw [List.getD_eq_getElem?_getD, List.getElem?_eq_getElem (by rw [hrl]; exact hr),
        Option.getD_some]
      exact List.getElem_mem _
    have hrowr := row_eq_head_tail ((rowsOf (width_ * bpp_ + 1) height_ buf).getD r [])
      (width_ * bpp_) (hrowlen _ hmemr)
    have hF : buf.getD (r * (width_ * bpp_ + 1)) 0
        = ((rowsOf (width_ * bpp_ + 1) height_ buf).getD r []).headD 0 :=
      (rowsOf_headD _ _ r buf (by omega) hr).symm
    constructor
    · have := hout r 0 hr (by omega)
      simp only [add_zero] at this
      rw [this, hD, List.getD_cons_zero, hF]
    · intro x hx
      have e1 : r * (width_ * bpp_ + 1) + 1 + x = r * (width_ * bpp_ + 1) + (1 + x) := by ring
      have ho := hout r (1 + x) hr (by omega)
      have hi := hinp r (1 + x) hr (by omega)
      rw [e1, ho, hi, hD]
      conv_rhs => rw [hrowr.1]
      rw [Nat.add_comm 1 x, List.getD_cons_succ, List.getD_cons_succ]
      rw [decodeRow_spec _ _ _ _ hb x (by rw [hrowr.2]; exact hx), hF]
      congr 3
      · -- left neighbour
        unfold leftOf
        by_cases hlt : x < bpp_
        · simp only [hlt, if_true]
        · simp only [hlt, if_false]
          have e2 : r * (width_ * bpp_ + 1) + 1 + (x - bpp_)
              = r * (width_ * bpp_ + 1) + ((x - bpp_) + 1) := by ring
          rw [e2, hout r ((x - bpp_) + 1) hr (by omega), hD, List.getD_cons_succ]
      · -- above neighbour
        unfold aboveOf
        by_cases hr0 : r = 0
        · simp [hr0]
        · simp only [hr0, if_false]
          have e2 : (r - 1) * (width_ * bpp_ + 1) + 1 + x
              = (r - 1) * (width_ * bpp_ + 1) + (x + 1) := by ring
          rw [e2, hout (r - 1) (x + 1) (by omega) (by omega)]
          cases hrow' : (decodeRows bpp_ [] (rowsOf (width_ * bpp_ + 1) height_ buf)).getD (r - 1) [] with
          | nil => simp
          | cons a t => simp
      · -- upper-left neighbour
        unfold aboveLeftOf
        by_cases hlt : x < bpp_
        · simp [hlt]
        · by_cases hr0 : r = 0
          · simp [hr0]
          · simp only [hr0, hlt, or_self, if_false]
            have e2 : (r - 1) * (width_ * bpp_ + 1) + 1 + (x - bpp_)
                = (r - 1) * (width_ * bpp_ + 1) + ((x - bpp_) + 1) := by ring
            rw [e2, hout (r - 1) ((x - bpp_) + 1) (by omega) (by omega)]
            cases hrow' : (decodeRows bpp_ [] (rowsOf (width_ * bpp_ + 1) height_ buf)).getD (r - 1) [] with
            | nil => simp
            | cons a t => simp

/-! ## Reconstruction: the statements -/

/-- Every pixel byte of a reconstruction is a byte. -/
theorem Reconstructs.pixel_lt (bpp rowBytes height : Nat) (inp out : List Nat)
    (h : Reconstructs bpp rowBytes height inp out) (r x : Nat) (hr : r < height)
    (hx : x < rowBytes) : out.getD (r * (rowBytes + 1) + 1 + x) 0 < 256 := by
  rw [((h.2 r hr).2 x hx)]
  exact Nat.mod_lt _ (by norm_num)

/-- C19: for every width ≥ 1, height ≥ 1, bpp in {1, 2, 3, 4} with
`(width * bpp + 1) * height < 2^32` and every buffer of exactly
`(rowBytes + 1) * height` bytes whose row-0 filter byte is None or Sub and whose
other filter bytes are in 0..4, `unfilterImage` succeeds and the result is the
reference of section 4.2: every pixel byte is `(filtered + predictor) mod 256`
with predictor 0 / a / b / floor((a + b) / 2) / Paeth(a, b, c) for None / Sub / Up /
Average / Paeth on the reconstructed left, above and upper-left bytes (0 outside
the image), and the filter-type bytes are unchanged. -/
theorem unfilterImage_correct (width_ height_ bpp_ : Nat) (buf : List Nat)
    (hw : 1 ≤ width_) (hh : 1 ≤ height_) (hb : 1 ≤ bpp_ ∧ bpp_ ≤ 4)
    (hsz : (width_ * bpp_ + 1) * height_ < 2 ^ 32)
    (hlen : buf.length = (width_ * bpp_ + 1) * height_)
    (hbytes : ∀ b ∈ buf, b < 256)
    (hrow0 : buf.getD 0 0 = LFNone ∨ buf.getD 0 0 = LFSub)
    (hfil : ∀ r, 1 ≤ r → r < height_ → buf.getD (r * (width_ * bpp_ + 1)) 0 < 5) :
    ∃ out, unfilterImage width_ height_ bpp_ buf = .ok out ∧
      Reconstructs bpp_ (width_ * bpp_) height_ buf out := by
  have h0 : buf.getD 0 0 ≤ 1 := by
    rcases hrow0 with h | h <;> rw [h] <;> decide
  have hU : U32 = 2 ^ 32 := by norm_num [U32]
  have hrow : width_ * bpp_ + 1 ≤ (width_ * bpp_ + 1) * height_ := Nat.le_mul_of_pos_right _ hh
  have hpos : bpp_ ≤ width_ * bpp_ := Nat.le_mul_of_pos_left _ hw
  refine unfilterImage_reconstructs width_ height_ bpp_ buf hw hb.1 (by rw [hU]; omega) ?_ hlen
    hbytes ?_ h0
  · intro h2
    have : (width_ * bpp_ + 1) * 2 ≤ (width_ * bpp_ + 1) * height_ := Nat.mul_le_mul_left _ h2
    rw [hU]; omega
  · intro r hr
    rcases Nat.eq_zero_or_pos r with h | h
    · subst h
      simp only [Nat.zero_mul]
      omega
    · exact hfil r h hr

/-- Instance of C19: a 2 x 2 image with one byte per pixel, row 0 Sub, row 1
Paeth. -/
theorem unfilterImage_correct_witness :
    ∃ out, unfilterImage 2 2 1 [1, 10, 15, 4, 1, 2] = .ok out ∧
      Reconstructs 1 (2 * 1) 2 [1, 10, 15, 4, 1, 2] out :=
  unfilterImage_correct 2 2 1 [1, 10, 15, 4, 1, 2] (by decide) (by decide) (by decide)
    (by decide) (by decide) (by decide) (Or.inr (by decide))
    (by
      intro r h1 h2
      have : r = 1 := by omega
      subst this
      decide)

/-- C16: for every image (width ≥ 1, height ≥ 1, bpp ≥ 1, buffer of
`(rowBytes + 1) * height < 2^32` bytes with filter-type bytes in 0..4) whose row 0
has filter None or Sub, `unfilterImage` succeeds, and for every row `r ≥ 1` with
filter Average and every `x` with `bpp ≤ x < rowBytes` the reconstructed byte is
`(filtered[r][x] + floor((a + b) / 2)) mod 256`, `a` the reconstructed byte at
`(r, x - bpp)`, `b` the reconstructed byte at `(r - 1, x)`, with `a + b` the exact
sum (at most 510): a = 1, b = 2 gives predictor 1 and a = b = 255 gives 255. -/
theorem unfilterImage_average_truncates (width_ height_ bpp_ : Nat) (buf : List Nat)
    (hw : 1 ≤ width_) (hh : 1 ≤ height_) (hb : 1 ≤ bpp_)
    (hsz : (width_ * bpp_ + 1) * height_ < 2 ^ 32)
    (hlen : buf.length = (width_ * bpp_ + 1) * height_)
    (hbytes : ∀ b ∈ buf, b < 256)
    (hrow0 : buf.getD 0 0 = LFNone ∨ buf.getD 0 0 = LFSub)
    (hfil : ∀ r, r < height_ → buf.getD (r * (width_ * bpp_ + 1)) 0 < 5) :
    (∃ out, unfilterImage width_ height_ bpp_ buf = .ok out ∧
      ∀ r x, 1 ≤ r → r < height_ → buf.getD (r * (width_ * bpp_ + 1)) 0 = LFAverage →
        bpp_ ≤ x → x < width_ * bpp_ →
        out.getD (r * (width_ * bpp_ + 1) + 1 + x) 0
          = (buf.getD (r * (width_ * bpp_ + 1) + 1 + x) 0
              + (out.getD (r * (width_ * bpp_ + 1) + 1 + (x - bpp_)) 0
                  + out.getD ((r - 1) * (width_ * bpp_ + 1) + 1 + x) 0) / 2) % 256 ∧
        out.getD (r * (width_ * bpp_ + 1) + 1 + (x - bpp_)) 0
          + out.getD ((r - 1) * (width_ * bpp_ + 1) + 1 + x) 0 ≤ 510) ∧
    unfilterImage 2 2 1 [0, 0, 2, 3, 1, 0] = .ok [0, 0, 2, 3, 1, 1] ∧
    unfilterImage 2 2 1 [0, 0, 255, 3, 255, 0] = .ok [0, 0, 255, 3, 255, 255] := by
  refine ⟨?_, by decide, by decide⟩
  have h0 : buf.getD 0 0 ≤ 1 := by
    rcases hrow0 with h | h <;> rw [h] <;> decide
  have hU : U32 = 2 ^ 32 := by norm_num [U32]
  have hrow : width_ * bpp_ + 1 ≤ (width_ * bpp_ + 1) * height_ := Nat.le_mul_of_pos_right _ hh
  have hpos : bpp_ ≤ width_ * bpp_ := Nat.le_mul_of_pos_left _ hw
  obtain ⟨out, hrun, hrec⟩ := unfilterImage_reconstructs width_ height_ bpp_ buf hw hb
    (by rw [hU]; omega)
    (by
      intro h2
      have : (width_ * bpp_ + 1) * 2 ≤ (width_ * bpp_ + 1) * height_ := Nat.mul_le_mul_left _ h2
      rw [hU]; omega)
    hlen hbytes hfil h0
  refine ⟨out, hrun, ?_⟩
  intro r x hr1 hr hF hbx hx
  have hval := (hrec.2 r hr).2 x hx
  have hne : r ≠ 0 := by omega
  have hnlt : ¬ x < bpp_ := by omega
  simp only [hF, specPredictor, LFAverage, leftOf, aboveOf, hne, hnlt, if_false,
    show ¬ (3 = 0) by omega, show ¬ (3 = 1) by omega, show ¬ (3 = 2) by omega, if_true] at hval
  refine ⟨hval, ?_⟩
  have ha := Reconstructs.pixel_lt _ _ _ _ _ hrec r (x - bpp_) hr (by omega)
  have hbv := Reconstructs.pixel_lt _ _ _ _ _ hrec (r - 1) x (by omega) hx
  omega

/-- Instance of C16: on the 2 x 2 image `[0, 0, 2, 3, 1, 0]` (row 0 None, row 1
Average, one byte per pixel) the byte at row 1, column 1 has a = 1, b = 2. -/
theorem unfilterImage_average_truncates_witness :
    ∃ out, unfilterImage 2 2 1 [0, 0, 2, 3, 1, 0] = .ok out ∧
      ∀ r x, 1 ≤ r → r < 2 → ([0, 0, 2, 3, 1, 0] : List Nat).getD (r * (2 * 1 + 1)) 0 = LFAverage →
        1 ≤ x → x < 2 * 1 →
        out.getD (r * (2 * 1 + 1) + 1 + x) 0
          = (([0, 0, 2, 3, 1, 0] : List Nat).getD (r * (2 * 1 + 1) + 1 + x) 0
              + (out.getD (r * (2 * 1 + 1) + 1 + (x - 1)) 0
                  + out.getD ((r - 1) * (2 * 1 + 1) + 1 + x) 0) / 2) % 256 ∧
        out.getD (r * (2 * 1 + 1) + 1 + (x - 1)) 0
          + out.getD ((r - 1) * (2 * 1 + 1) + 1 + x) 0 ≤ 510 :=
  (unfilterImage_average_truncates 2 2 1 [0, 0, 2, 3, 1, 0] (by decide) (by decide) (by decide)
    (by decide) (by decide) (by decide) (Or.inl (by decide))
    (by
      intro r h2
      have : r = 0 ∨ r = 1 := by omega
      rcases this with h | h <;> subst h <;> decide)).1

end PngRead
